import Mathlib

/-!
TODO-CLI: a verification development for `TODO.go`.

The program is a one-file Go command-line task list.  Every invocation loads the whole
task list from a JSON file, applies one command and writes the whole list back.

Conventions of the embedding.

* A Go `string` is a sequence of bytes: `GoString := List UInt8`.  Bytes are compared and
  computed on through `UInt8.toNat`.
* A Go `int` is a 64-bit two's complement integer.  Ids are kept as `Int`; the one place
  where the program does arithmetic on them (`max + 1` in `nextID`) is wrapped by `wrapInt`.
* A command is embedded from the point where `loadTasks` has returned its slice to the
  point where the command returns.  Its `Outcome` records the returned error, the slice
  that `saveTasks` wrote (when the call is reached and succeeds) and what was printed on
  standard output.  `saveTasks` fails when `json.MarshalIndent` does, which happens when
  `Time.MarshalJSON` refuses the time of a task; reading and writing the file themselves
  are assumed not to fail.
* `saveTasks` and `loadTasks` are embedded on the bytes of the file.  They call
  `json.MarshalIndent` and `json.Unmarshal`; the parts of the Go packages `encoding/json`,
  `unicode/utf8`, `strconv` and `strings` that these calls reach are modelled here from
  the behaviour of the library: the string encoder with HTML escaping, the scanner, the
  decoder of string literals and the storing of values into a `[]Task`.
* A `time.Time` is kept as the text that `Time.appendFormatRFC3339` produces for it.
  `Time.MarshalJSON` writes this text between quotes after the checks of
  `Time.appendStrictRFC3339` (Go 1.20 and later), which refuse a year that is not four
  digits wide and a zone offset of 24 hours or more; such times can be loaded, as
  `Time.UnmarshalJSON` does not make these checks.  The parser of `Time.UnmarshalJSON` is
  a parameter `parseTime` of the decoder.
* Loops whose step can consume several bytes carry a fuel argument, started at the length
  of the input; the fuel never runs out (`stringBody_cons`, `toValidUTF8_cons`,
  `ValidString_cons`).
-/

namespace Todo

/-! ## Definitions -/

/-- A Go string: an arbitrary sequence of bytes. -/
abbrev GoString := List UInt8

/-- An ASCII literal as a Go string. -/
def lit (s : String) : GoString := s.toList.map (fun c => UInt8.ofNat c.toNat)

/-- Largest value of the Go type `int` (64-bit platforms). -/
def maxInt : Int := 2 ^ 63 - 1

/-- Smallest value of the Go type `int` (64-bit platforms). -/
def minInt : Int := -(2 ^ 63)

/-- Two's complement wrap-around of an integer result into the range of `int`. -/
def wrapInt (x : Int) : Int := (x + 2 ^ 63) % 2 ^ 64 - 2 ^ 63

/-- A `time.Time`.  The program never inspects one: `cmdAdd` stores `time.Now()` and the
JSON encoder writes it through `Time.MarshalJSON`.  The text kept here is the one that
`Time.appendFormatRFC3339` produces for the time, before the checks of
`Time.appendStrictRFC3339`. -/
structure Time where
  rfc3339 : GoString
deriving DecidableEq, Repr

/-- The `Task` struct of `TODO.go`. -/
structure Task where
  ID : Int
  Text : GoString
  Done : Bool
  When : Time
deriving DecidableEq, Repr

/-- What one command invocation did: `err` is the returned error (`none` for `nil`),
`saved` is the slice that `saveTasks` wrote (`none` when `saveTasks` is not called or
returns an error, so the file is left as it was) and `out` is the text printed on
standard output. -/
structure Outcome where
  err : Option GoString
  saved : Option (List Task)
  out : GoString
deriving DecidableEq, Repr

/-- The store after a command: the slice that was saved, or the old store when nothing
was saved. -/
def Outcome.storeAfter (o : Outcome) (store : List Task) : List Task :=
  o.saved.getD store

/-- Decimal digits of a natural number, most significant first. -/
def digitsAux : Nat → Nat → GoString → GoString
  | 0, _, acc => acc
  | fuel + 1, n, acc =>
    if n / 10 = 0 then UInt8.ofNat (48 + n % 10) :: acc
    else digitsAux fuel (n / 10) (UInt8.ofNat (48 + n % 10) :: acc)

/-- Decimal text of a natural number. -/
def fmtNat (n : Nat) : GoString := digitsAux (n + 1) n []

/-- The verb `%d` of package `fmt` applied to an `int`. -/
def fmtD (x : Int) : GoString :=
  if x < 0 then 45 :: fmtNat x.natAbs else fmtNat x.natAbs

/-- The function `strings.Join`. -/
def Join : List GoString → GoString → GoString
  | [], _ => []
  | [a], _ => a
  | a :: b :: rest, sep => a ++ sep ++ Join (b :: rest) sep

/-- The loop of `nextID`: `max` is the largest id seen so far. -/
def nextIDLoop (max : Int) : List Task → Int
  | [] => max
  | t :: rest => nextIDLoop (if t.ID > max then t.ID else max) rest

/-- The function `nextID`: the loop starts from `max := 0`; the result is `max + 1` in
machine arithmetic. -/
def nextID (tasks : List Task) : Int :=
  wrapInt (nextIDLoop 0 tasks + 1)

/-- Whether a byte is an ASCII decimal digit. -/
def isDigit (c : UInt8) : Bool := 48 ≤ c.toNat && c.toNat ≤ 57

/-- Value of a string of decimal digits. -/
def digitsVal (ds : GoString) : Nat :=
  ds.foldl (fun n c => n * 10 + (c.toNat - 48)) 0

/-- The function `strconv.Atoi` on a 64-bit platform, `none` standing for an error: an
optional sign, then one or more decimal digits, whose value must fit an `int`. -/
def Atoi (s : GoString) : Option Int :=
  let neg := s.head? = some 45
  let ds := if s.head? = some 45 ∨ s.head? = some 43 then s.tail else s
  if ds.isEmpty || !ds.all isDigit then none
  else
    let x : Int := if neg then -(digitsVal ds : Int) else (digitsVal ds : Int)
    if minInt ≤ x ∧ x ≤ maxInt then some x else none

deriving instance DecidableEq for Except

/-- The function `parseID`. -/
def parseID (arg : GoString) : Except GoString Int :=
  match Atoi arg with
  | none => .error (lit "invalid id: " ++ arg)
  | some id => if id ≤ 0 then .error (lit "invalid id: " ++ arg) else .ok id

/-- The loop of `cmdDone`: sets `Done` on the first task whose id matches and stops;
the second component is the flag `found`. -/
def doneLoop (id : Int) : List Task → List Task × Bool
  | [] => ([], false)
  | t :: rest =>
    if t.ID = id then ({ t with Done := true } :: rest, true)
    else ((t :: (doneLoop id rest).1), (doneLoop id rest).2)

/-- State of the loop of `cmdRm`.  `newTasks := tasks[:0]` shares the backing array of
`tasks`, so the loop reads from and appends into the same array `buf`; `n` is
`len(newTasks)`. -/
structure RmState where
  buf : List Task
  n : Nat
  found : Bool
deriving DecidableEq, Repr

/-- One iteration of the loop of `cmdRm`, at index `i` of the backing array. -/
def rmStep (id : Int) (st : RmState) (i : Nat) : RmState :=
  match st.buf[i]? with
  | none => st
  | some t =>
    if t.ID = id then { st with found := true }
    else { st with buf := st.buf.set st.n t, n := st.n + 1 }

/-- The loop of `cmdRm` over all indices of `tasks`. -/
def rmLoop (id : Int) (tasks : List Task) : RmState :=
  (List.range tasks.length).foldl (rmStep id) ⟨tasks, 0, false⟩

/-- The slice `newTasks` after the loop of `cmdRm`. -/
def RmState.newTasks (st : RmState) : List Task := st.buf.take st.n

/-- The id invariant of the data model: ids are pairwise distinct and positive. -/
def IdInv (tasks : List Task) : Prop :=
  (tasks.map (fun t => t.ID)).Nodup ∧ ∀ t ∈ tasks, 0 < t.ID

/-- The id `m` is the largest id present in `tasks`. -/
def IsMaxID (tasks : List Task) (m : Int) : Prop :=
  (∃ t ∈ tasks, t.ID = m) ∧ ∀ t ∈ tasks, t.ID ≤ m

/-! ### Package `unicode/utf8` -/

/-- The rune `utf8.RuneError`, U+FFFD. -/
def RuneError : Nat := 0xFFFD

/-- The function `utf8.DecodeRune`: the first rune of `p` and its width in bytes;
`(RuneError, 1)` when the encoding is invalid or cut short, `(RuneError, 0)` when `p`
is empty. -/
def DecodeRune (p : GoString) : Nat × Nat :=
  match p with
  | [] => (RuneError, 0)
  | p0 :: rest =>
    if p0.toNat < 0x80 then (p0.toNat, 1)
    else if p0.toNat < 0xC2 ∨ 0xF4 < p0.toNat then (RuneError, 1)
    else
      match rest with
      | [] => (RuneError, 1)
      | b1 :: rest1 =>
        if b1.toNat < (if p0.toNat = 0xE0 then 0xA0 else if p0.toNat = 0xF0 then 0x90 else 0x80)
            ∨ (if p0.toNat = 0xED then 0x9F else if p0.toNat = 0xF4 then 0x8F else 0xBF)
              < b1.toNat then
          (RuneError, 1)
        else if p0.toNat < 0xE0 then (p0.toNat % 32 * 64 + b1.toNat % 64, 2)
        else
          match rest1 with
          | [] => (RuneError, 1)
          | b2 :: rest2 =>
            if b2.toNat < 0x80 ∨ 0xBF < b2.toNat then (RuneError, 1)
            else if p0.toNat < 0xF0 then
              (p0.toNat % 16 * 4096 + b1.toNat % 64 * 64 + b2.toNat % 64, 3)
            else
              match rest2 with
              | [] => (RuneError, 1)
              | b3 :: _ =>
                if b3.toNat < 0x80 ∨ 0xBF < b3.toNat then (RuneError, 1)
                else
                  (p0.toNat % 8 * 262144 + b1.toNat % 64 * 4096 + b2.toNat % 64 * 64
                    + b3.toNat % 64, 4)

/-- The function `utf8.EncodeRune` (`utf8.AppendRune`): surrogates and values above
U+10FFFF are written as U+FFFD. -/
def EncodeRune (r : Nat) : GoString :=
  if r ≤ 0x7F then [UInt8.ofNat r]
  else if r ≤ 0x7FF then [UInt8.ofNat (0xC0 + r / 64), UInt8.ofNat (0x80 + r % 64)]
  else if 0x10FFFF < r ∨ (0xD800 ≤ r ∧ r ≤ 0xDFFF) then [0xEF, 0xBF, 0xBD]
  else if r ≤ 0xFFFF then
    [UInt8.ofNat (0xE0 + r / 4096), UInt8.ofNat (0x80 + r / 64 % 64),
      UInt8.ofNat (0x80 + r % 64)]
  else
    [UInt8.ofNat (0xF0 + r / 262144), UInt8.ofNat (0x80 + r / 4096 % 64),
      UInt8.ofNat (0x80 + r / 64 % 64), UInt8.ofNat (0x80 + r % 64)]

/-- The loop of `utf8.ValidString`. -/
def validLoop : Nat → GoString → Bool
  | _, [] => true
  | 0, _ :: _ => false
  | fuel + 1, b :: rest =>
    if (DecodeRune (b :: rest)).1 = RuneError ∧ (DecodeRune (b :: rest)).2 = 1 then false
    else validLoop fuel (rest.drop ((DecodeRune (b :: rest)).2 - 1))

/-- The function `utf8.ValidString`: whether the string is valid UTF-8. -/
def ValidString (s : GoString) : Bool := validLoop s.length s

/-- The loop of `toValidUTF8`. -/
def toValidLoop : Nat → GoString → GoString
  | _, [] => []
  | 0, _ :: _ => []
  | fuel + 1, b :: rest =>
    if (DecodeRune (b :: rest)).1 = RuneError ∧ (DecodeRune (b :: rest)).2 = 1 then
      [0xEF, 0xBF, 0xBD] ++ toValidLoop fuel rest
    else
      (b :: rest).take (DecodeRune (b :: rest)).2
        ++ toValidLoop fuel (rest.drop ((DecodeRune (b :: rest)).2 - 1))

/-- A string coerced to valid UTF-8: every byte that does not start a valid encoding is
replaced by the encoding of U+FFFD, all other bytes are kept. -/
def toValidUTF8 (s : GoString) : GoString := toValidLoop s.length s

/-! ### Package `encoding/json`: encoding -/

/-- The table `hex` of `encoding/json`: the digit of a value below 16. -/
def hexDigit (n : Nat) : UInt8 :=
  if n < 10 then UInt8.ofNat (48 + n) else UInt8.ofNat (87 + n)

/-- The table `htmlSafeSet`: the ASCII bytes that a JSON string holds unescaped. -/
def htmlSafe (b : UInt8) : Bool :=
  0x20 ≤ b.toNat && b.toNat < 0x80 && b.toNat != 0x22 && b.toNat != 0x26
    && b.toNat != 0x3C && b.toNat != 0x3E && b.toNat != 0x5C

/-- What `appendString` writes for one ASCII byte. -/
def escapeByte (b : UInt8) : GoString :=
  if htmlSafe b then [b]
  else if b.toNat = 0x5C ∨ b.toNat = 0x22 then [0x5C, b]
  else if b.toNat = 0x08 then [0x5C, 0x62]
  else if b.toNat = 0x0C then [0x5C, 0x66]
  else if b.toNat = 0x0A then [0x5C, 0x6E]
  else if b.toNat = 0x0D then [0x5C, 0x72]
  else if b.toNat = 0x09 then [0x5C, 0x74]
  else [0x5C, 0x75, 0x30, 0x30, hexDigit (b.toNat / 16), hexDigit (b.toNat % 16)]

/-- The loop of `appendString` with `escapeHTML` set: ASCII bytes are copied or escaped,
an invalid byte is written as the escape of U+FFFD, U+2028 and U+2029 are escaped, every other rune
is copied. -/
def appendStringLoop : Nat → GoString → GoString
  | _, [] => []
  | 0, _ :: _ => []
  | fuel + 1, b :: rest =>
    if b.toNat < 0x80 then escapeByte b ++ appendStringLoop fuel rest
    else if (DecodeRune (b :: rest)).1 = RuneError ∧ (DecodeRune (b :: rest)).2 = 1 then
      [0x5C, 0x75, 0x66, 0x66, 0x66, 0x64] ++ appendStringLoop fuel rest
    else if (DecodeRune (b :: rest)).1 = 0x2028 ∨ (DecodeRune (b :: rest)).1 = 0x2029 then
      [0x5C, 0x75, 0x32, 0x30, 0x32, hexDigit ((DecodeRune (b :: rest)).1 % 16)]
        ++ appendStringLoop fuel (rest.drop ((DecodeRune (b :: rest)).2 - 1))
    else
      (b :: rest).take (DecodeRune (b :: rest)).2
        ++ appendStringLoop fuel (rest.drop ((DecodeRune (b :: rest)).2 - 1))

/-- The body of the JSON string that `appendString` writes, without the quotes. -/
def stringBody (s : GoString) : GoString := appendStringLoop s.length s

/-- The function `appendString` of `encoding/json`. -/
def appendString (s : GoString) : GoString := [0x22] ++ stringBody s ++ [0x22]

/-! ### Package `time`: the checks of `Time.MarshalJSON` -/

/-- The helper `num2` of `Time.appendStrictRFC3339`: `10*(b[0]-'0') + (b[1]-'0')`,
computed on bytes. -/
def num2 (b : GoString) : Nat :=
  (10 * ((b.getD 0 0).toNat + 256 - 48) + ((b.getD 1 0).toNat + 256 - 48)) % 256

/-- The method `Time.appendStrictRFC3339` of package `time` (Go 1.20 and later), on the
text that `appendFormatRFC3339` has produced: the year must be exactly four digits wide,
and a zone offset must have a two-digit hour below 24.  A text shorter than the ones
that `appendFormatRFC3339` produces reads as 0 beyond its end. -/
def appendStrictRFC3339 (t : Time) : Except GoString GoString :=
  let b := t.rfc3339
  if (b.getD 4 0).toNat ≠ 0x2D then .error (lit "year outside of range [0,9999]")
  else if (b.getD (b.length - 1) 0).toNat ≠ 0x5A ∧
      (isDigit (b.getD (b.length - 6) 0) = true ∨ 24 ≤ num2 (b.drop (b.length - 5))) then
    .error (lit "timezone hour outside of range [0,23]")
  else .ok b

/-- The method `Time.MarshalJSON`: the text between quotes, or the error of
`appendStrictRFC3339`. -/
def Time.MarshalJSON (t : Time) : Except GoString GoString :=
  match appendStrictRFC3339 t with
  | .error e => .error (lit "Time.MarshalJSON: " ++ e)
  | .ok b => .ok ([0x22] ++ b ++ [0x22])

/-- Whether `Time.MarshalJSON` accepts the time. -/
def Time.writable (t : Time) : Bool :=
  match t.MarshalJSON with
  | .ok _ => true
  | .error _ => false

/-! ### Package `encoding/json`: a slice of tasks -/

/-- One task as `json.MarshalIndent(tasks, "", "  ")` writes it inside the array, when
`Time.MarshalJSON` accepts its time and so returns the text between quotes. -/
def marshalTask (t : Task) : GoString :=
  lit "  \x7b\n    \"id\": " ++ fmtD t.ID ++
  lit ",\n    \"text\": " ++ appendString t.Text ++
  lit ",\n    \"done\": " ++ (if t.Done then lit "true" else lit "false") ++
  lit ",\n    \"when\": \"" ++ t.When.rfc3339 ++ lit "\"\n  \x7d"

/-- The tasks of a non-empty slice, separated by commas and line breaks. -/
def marshalTasks : List Task → GoString
  | [] => []
  | [t] => marshalTask t
  | t :: u :: rest => marshalTask t ++ lit ",\n" ++ marshalTasks (u :: rest)

/-- The bytes that `json.MarshalIndent(tasks, "", "  ")` returns for a slice that is not
nil when no `Time.MarshalJSON` fails. -/
def indentBytes (tasks : List Task) : GoString :=
  match tasks with
  | [] => lit "[]"
  | _ :: _ => lit "[\n" ++ marshalTasks tasks ++ lit "\n]"

/-- The error with which the encoder stops: that of the first task whose time
`Time.MarshalJSON` refuses, as the `MarshalerError` of `encoding/json` words it; `none`
when every time is accepted.  Ids, texts and flags are always encoded. -/
def marshalerError : List Task → Option GoString
  | [] => none
  | t :: rest =>
    match t.When.MarshalJSON with
    | .error e => some (lit "json: error calling MarshalJSON for type time.Time: " ++ e)
    | .ok _ => marshalerError rest

/-- The call `json.MarshalIndent(tasks, "", "  ")` on a slice that is not nil. -/
def MarshalIndent (tasks : List Task) : Except GoString GoString :=
  match marshalerError tasks with
  | some e => .error e
  | none => .ok (indentBytes tasks)

/-- The function `saveTasks`: the error of `json.MarshalIndent`, in which case nothing is
written, or the bytes that it writes to the file.  No command passes it a nil slice. -/
def saveTasks (tasks : List Task) : Except GoString GoString := MarshalIndent tasks

/-! ### The commands that save -/

/-- The call of `saveTasks` in the three commands that save, with the test of its error,
followed by the rest of the command: when `saveTasks` returns an error the command
returns it, having written and printed nothing; otherwise the command goes on to its
outcome `rest`. -/
def saveThen (r : Except GoString GoString) (rest : Outcome) : Outcome :=
  match r with
  | .error e => ⟨some e, none, []⟩
  | .ok _ => rest

/-- The function `cmdAdd`, from the return of `loadTasks` on. -/
def cmdAdd (args : List GoString) (now : Time) (tasks : List Task) : Outcome :=
  if args.length = 0 then
    ⟨some (lit "usage: todo add \"task text\""), none, []⟩
  else
    let text := Join args (lit " ")
    let t : Task := ⟨nextID tasks, text, false, now⟩
    saveThen (saveTasks (tasks ++ [t]))
      ⟨none, some (tasks ++ [t]), lit "added " ++ fmtD t.ID ++ lit ": " ++ t.Text ++ lit "\n"⟩

/-- The function `cmdDone`, from the return of `loadTasks` on. -/
def cmdDone (args : List GoString) (tasks : List Task) : Outcome :=
  match args with
  | [arg] =>
    match parseID arg with
    | .error e => ⟨some e, none, []⟩
    | .ok id =>
      if (doneLoop id tasks).2 = false then
        ⟨some (lit "task " ++ fmtD id ++ lit " not found"), none, []⟩
      else
        saveThen (saveTasks (doneLoop id tasks).1)
          ⟨none, some (doneLoop id tasks).1, lit "marked " ++ fmtD id ++ lit " done\n"⟩
  | _ => ⟨some (lit "usage: todo done <id>"), none, []⟩

/-- The function `cmdRm`, from the return of `loadTasks` on. -/
def cmdRm (args : List GoString) (tasks : List Task) : Outcome :=
  match args with
  | [arg] =>
    match parseID arg with
    | .error e => ⟨some e, none, []⟩
    | .ok id =>
      if (rmLoop id tasks).found = false then
        ⟨some (lit "task " ++ fmtD id ++ lit " not found"), none, []⟩
      else
        saveThen (saveTasks (rmLoop id tasks).newTasks)
          ⟨none, some (rmLoop id tasks).newTasks, lit "removed " ++ fmtD id ++ lit "\n"⟩
  | _ => ⟨some (lit "usage: todo rm <id>"), none, []⟩

/-! ### Package `encoding/json`: decoding -/

/-- A parsed JSON text.  Numbers and strings keep their literal text, which is decoded
according to the Go type they are stored into. -/
inductive JSON where
  | null
  | bool (b : Bool)
  | num (text : GoString)
  | str (body : GoString)
  | arr (items : List JSON)
  | obj (members : List (GoString × JSON))

/-- JSON white space. -/
def isSpace (c : UInt8) : Bool :=
  c.toNat = 0x20 || c.toNat = 0x09 || c.toNat = 0x0D || c.toNat = 0x0A

/-- Drop leading white space. -/
def skipSpace : GoString → GoString
  | [] => []
  | c :: rest => if isSpace c then skipSpace rest else c :: rest

/-- Whether a byte is a hexadecimal digit. -/
def isHex (c : UInt8) : Bool :=
  (48 ≤ c.toNat && c.toNat ≤ 57) || (97 ≤ c.toNat && c.toNat ≤ 102)
    || (65 ≤ c.toNat && c.toNat ≤ 70)

/-- The scanner inside a string literal, after the opening quote: the body up to the
closing quote, and the input after it.  Control characters and unknown escapes are
rejected. -/
def scanString : GoString → Option (GoString × GoString)
  | [] => none
  | c :: rest =>
    if c.toNat = 0x22 then some ([], rest)
    else if c.toNat = 0x5C then
      match rest with
      | [] => none
      | e :: rest1 =>
        if e.toNat = 0x75 then
          match rest1 with
          | h1 :: h2 :: h3 :: h4 :: rest2 =>
            if isHex h1 && isHex h2 && isHex h3 && isHex h4 then
              (scanString rest2).map (fun p => (c :: e :: h1 :: h2 :: h3 :: h4 :: p.1, p.2))
            else none
          | _ => none
        else if e.toNat = 0x22 ∨ e.toNat = 0x5C ∨ e.toNat = 0x2F ∨ e.toNat = 0x62
            ∨ e.toNat = 0x66 ∨ e.toNat = 0x6E ∨ e.toNat = 0x72 ∨ e.toNat = 0x74 then
          (scanString rest1).map (fun p => (c :: e :: p.1, p.2))
        else none
    else if c.toNat < 0x20 then none
    else (scanString rest).map (fun p => (c :: p.1, p.2))

/-- The leading decimal digits of the input, and the input after them. -/
def spanDigits : GoString → GoString × GoString
  | [] => ([], [])
  | c :: rest =>
    if isDigit c then ((c :: (spanDigits rest).1), (spanDigits rest).2)
    else ([], c :: rest)

/-- The scanner on the integer part of a number: `0`, or a non-zero digit followed by
digits. -/
def scanInt (s : GoString) : Option (GoString × GoString) :=
  match s with
  | [] => none
  | d :: rest =>
    if d.toNat = 0x30 then some ([d], rest)
    else if isDigit d then some (d :: (spanDigits rest).1, (spanDigits rest).2)
    else none

/-- The scanner on an optional fraction: a point followed by one or more digits. -/
def scanFrac (s : GoString) : Option (GoString × GoString) :=
  match s with
  | c :: rest =>
    if c.toNat = 0x2E then
      if (spanDigits rest).1 = [] then none
      else some (c :: (spanDigits rest).1, (spanDigits rest).2)
    else some ([], s)
  | [] => some ([], s)

/-- The scanner on an optional exponent: `e` or `E`, an optional sign, one or more
digits. -/
def scanExp (s : GoString) : Option (GoString × GoString) :=
  match s with
  | c :: rest =>
    if c.toNat = 0x65 ∨ c.toNat = 0x45 then
      match rest with
      | g :: rest1 =>
        if g.toNat = 0x2B ∨ g.toNat = 0x2D then
          if (spanDigits rest1).1 = [] then none
          else some (c :: g :: (spanDigits rest1).1, (spanDigits rest1).2)
        else if (spanDigits rest).1 = [] then none
        else some (c :: (spanDigits rest).1, (spanDigits rest).2)
      | [] => none
    else some ([], s)
  | [] => some ([], s)

/-- The scanner on a number literal: its text, and the input after it. -/
def scanNumber (s : GoString) : Option (GoString × GoString) :=
  match s with
  | [] => none
  | c :: rest =>
    match scanInt (if c.toNat = 0x2D then rest else c :: rest) with
    | none => none
    | some (ip, r1) =>
      match scanFrac r1 with
      | none => none
      | some (fp, r2) =>
        match scanExp r2 with
        | none => none
        | some (ep, r3) =>
          some ((if c.toNat = 0x2D then [c] else []) ++ ip ++ fp ++ ep, r3)

/-- The constant `maxNestingDepth` of the scanner. -/
def maxNestingDepth : Nat := 10000

mutual
/-- The scanner on one JSON value, with leading white space: the value and the input
after it.  `depth` is the number of arrays and objects that may still be opened. -/
def parseValue : Nat → Nat → GoString → Option (JSON × GoString)
  | 0, _, _ => none
  | fuel + 1, depth, s =>
    match skipSpace s with
    | [] => none
    | c :: rest =>
      if c.toNat = 0x5B then
        if depth = 0 then none
        else
          match skipSpace rest with
          | [] => none
          | d :: rest1 =>
            if d.toNat = 0x5D then some (JSON.arr [], rest1)
            else parseItems fuel (depth - 1) rest []
      else if c.toNat = 0x7B then
        if depth = 0 then none
        else
          match skipSpace rest with
          | [] => none
          | d :: rest1 =>
            if d.toNat = 0x7D then some (JSON.obj [], rest1)
            else parseMembers fuel (depth - 1) rest []
      else if c.toNat = 0x22 then
        (scanString rest).map (fun p => (JSON.str p.1, p.2))
      else if c.toNat = 0x2D ∨ isDigit c then
        (scanNumber (c :: rest)).map (fun p => (JSON.num p.1, p.2))
      else if (c :: rest).take 4 = [0x74, 0x72, 0x75, 0x65] then
        some (JSON.bool true, (c :: rest).drop 4)
      else if (c :: rest).take 5 = [0x66, 0x61, 0x6C, 0x73, 0x65] then
        some (JSON.bool false, (c :: rest).drop 5)
      else if (c :: rest).take 4 = [0x6E, 0x75, 0x6C, 0x6C] then
        some (JSON.null, (c :: rest).drop 4)
      else none
/-- The scanner on the items of an array, after the opening bracket or a comma. -/
def parseItems : Nat → Nat → GoString → List JSON → Option (JSON × GoString)
  | 0, _, _, _ => none
  | fuel + 1, depth, s, acc =>
    match parseValue fuel depth s with
    | none => none
    | some (v, rest) =>
      match skipSpace rest with
      | [] => none
      | c :: rest1 =>
        if c.toNat = 0x2C then parseItems fuel depth rest1 (acc ++ [v])
        else if c.toNat = 0x5D then some (JSON.arr (acc ++ [v]), rest1)
        else none
/-- The scanner on the members of an object, after the opening brace or a comma. -/
def parseMembers : Nat → Nat → GoString → List (GoString × JSON) → Option (JSON × GoString)
  | 0, _, _, _ => none
  | fuel + 1, depth, s, acc =>
    match skipSpace s with
    | [] => none
    | q :: rest =>
      if q.toNat = 0x22 then
        match scanString rest with
        | none => none
        | some (key, rest1) =>
          match skipSpace rest1 with
          | [] => none
          | c :: rest2 =>
            if c.toNat = 0x3A then
              match parseValue fuel depth rest2 with
              | none => none
              | some (v, rest3) =>
                match skipSpace rest3 with
                | [] => none
                | d :: rest4 =>
                  if d.toNat = 0x2C then parseMembers fuel depth rest4 (acc ++ [(key, v)])
                  else if d.toNat = 0x7D then some (JSON.obj (acc ++ [(key, v)]), rest4)
                  else none
            else none
      else none
end

/-- The function `checkValid` together with the reading of the text: the value of a
JSON text, which may be followed by white space only. -/
def parseJSON (s : GoString) : Option JSON :=
  match parseValue (2 * s.length + 2) maxNestingDepth s with
  | none => none
  | some (v, rest) => if skipSpace rest = [] then some v else none

/-- The value of a hexadecimal digit. -/
def hexVal (c : UInt8) : Option Nat :=
  if 48 ≤ c.toNat ∧ c.toNat ≤ 57 then some (c.toNat - 48)
  else if 97 ≤ c.toNat ∧ c.toNat ≤ 102 then some (c.toNat - 87)
  else if 65 ≤ c.toNat ∧ c.toNat ≤ 70 then some (c.toNat - 55)
  else none

/-- The function `getu4`: the value of a leading `\uXXXX` escape, `none` for -1. -/
def getu4 (s : GoString) : Option Nat :=
  match s with
  | b :: u :: h1 :: h2 :: h3 :: h4 :: _ =>
    if b.toNat = 0x5C ∧ u.toNat = 0x75 then
      match hexVal h1, hexVal h2, hexVal h3, hexVal h4 with
      | some a, some b, some c, some d => some (a * 4096 + b * 256 + c * 16 + d)
      | _, _, _, _ => none
    else none
  | _ => none

/-- The function `utf16.DecodeRune` on the values of two escapes, the second possibly
missing. -/
def utf16DecodeRune (r1 : Nat) (r2 : Option Nat) : Nat :=
  match r2 with
  | none => 0xFFFD
  | some r2 =>
    if 0xD800 ≤ r1 ∧ r1 < 0xDC00 ∧ 0xDC00 ≤ r2 ∧ r2 < 0xE000 then
      (r1 - 0xD800) * 1024 + (r2 - 0xDC00) + 0x10000
    else 0xFFFD

/-- The loop of `unquoteBytes` over the body of a string literal: escapes are decoded,
ASCII is copied and everything else is read as a rune and written back as UTF-8. -/
def unquoteLoop : Nat → GoString → Option GoString
  | _, [] => some []
  | 0, _ :: _ => none
  | fuel + 1, c :: rest =>
    if c.toNat = 0x5C then
      match rest with
      | [] => none
      | e :: rest1 =>
        if e.toNat = 0x75 then
          match getu4 (c :: e :: rest1) with
          | none => none
          | some rr =>
            if 0xD800 ≤ rr ∧ rr < 0xE000 then
              if utf16DecodeRune rr (getu4 (rest1.drop 4)) ≠ 0xFFFD then
                (unquoteLoop fuel (rest1.drop 10)).map
                  (fun t => EncodeRune (utf16DecodeRune rr (getu4 (rest1.drop 4))) ++ t)
              else (unquoteLoop fuel (rest1.drop 4)).map (fun t => EncodeRune 0xFFFD ++ t)
            else (unquoteLoop fuel (rest1.drop 4)).map (fun t => EncodeRune rr ++ t)
        else if e.toNat = 0x22 ∨ e.toNat = 0x5C ∨ e.toNat = 0x2F ∨ e.toNat = 0x27 then
          (unquoteLoop fuel rest1).map (fun t => e :: t)
        else if e.toNat = 0x62 then (unquoteLoop fuel rest1).map (fun t => 0x08 :: t)
        else if e.toNat = 0x66 then (unquoteLoop fuel rest1).map (fun t => 0x0C :: t)
        else if e.toNat = 0x6E then (unquoteLoop fuel rest1).map (fun t => 0x0A :: t)
        else if e.toNat = 0x72 then (unquoteLoop fuel rest1).map (fun t => 0x0D :: t)
        else if e.toNat = 0x74 then (unquoteLoop fuel rest1).map (fun t => 0x09 :: t)
        else none
    else if c.toNat = 0x22 ∨ c.toNat < 0x20 then none
    else if c.toNat < 0x80 then (unquoteLoop fuel rest).map (fun t => c :: t)
    else
      (unquoteLoop fuel (rest.drop ((DecodeRune (c :: rest)).2 - 1))).map
        (fun t => EncodeRune (DecodeRune (c :: rest)).1 ++ t)

/-- The function `unquoteBytes` on the body of a string literal. -/
def unquote (body : GoString) : Option GoString := unquoteLoop body.length body

/-- ASCII upper case of a byte. -/
def upperASCII (c : UInt8) : UInt8 :=
  if 97 ≤ c.toNat ∧ c.toNat ≤ 122 then UInt8.ofNat (c.toNat - 32) else c

/-- Whether an object key names the struct field with the given JSON name: equal up to
the case of ASCII letters (none of the names of `Task` holds a letter with a non-ASCII
case variant). -/
def foldEq (key name : GoString) : Bool := key.map upperASCII = name.map upperASCII

/-- The errors of `json.Unmarshal`: a text that is not JSON, a JSON value that does not
fit the Go type it is stored into, and an error returned by `Time.UnmarshalJSON`. -/
inductive JsonError where
  | malformed
  | mismatch
  | badTime
deriving DecidableEq, Repr

/-- The method `saveError` of the decoder: the first error is kept. -/
def saveError (saved : Option JsonError) (e : JsonError) : Option JsonError :=
  match saved with
  | none => some e
  | some e0 => some e0

/-- The zero `time.Time`, as JSON writes it. -/
def zeroTime : Time := ⟨lit "0001-01-01T00:00:00Z"⟩

/-- The zero `Task`. -/
def zeroTask : Task := ⟨0, [], false, zeroTime⟩

/-- Storing one object member into a `Task`.  `parseTime` stands for the parser of
`Time.UnmarshalJSON`, applied to the text between the quotes.  A value of the wrong kind
is recorded with `saveError` and skipped; an error of `Time.UnmarshalJSON` ends the
decoding. -/
def decodeMember (parseTime : GoString → Option Time) (st : Task × Option JsonError)
    (m : GoString × JSON) : Except JsonError (Task × Option JsonError) :=
  match unquote m.1 with
  | none => .error .malformed
  | some key =>
    if foldEq key (lit "id") then
      match m.2 with
      | .null => .ok st
      | .num text =>
        match Atoi text with
        | some n => .ok ({ st.1 with ID := n }, st.2)
        | none => .ok (st.1, saveError st.2 .mismatch)
      | _ => .ok (st.1, saveError st.2 .mismatch)
    else if foldEq key (lit "text") then
      match m.2 with
      | .null => .ok st
      | .str body =>
        match unquote body with
        | some s => .ok ({ st.1 with Text := s }, st.2)
        | none => .error .malformed
      | _ => .ok (st.1, saveError st.2 .mismatch)
    else if foldEq key (lit "done") then
      match m.2 with
      | .null => .ok st
      | .bool b => .ok ({ st.1 with Done := b }, st.2)
      | _ => .ok (st.1, saveError st.2 .mismatch)
    else if foldEq key (lit "when") then
      match m.2 with
      | .null => .ok st
      | .str body =>
        match parseTime body with
        | some w => .ok ({ st.1 with When := w }, st.2)
        | none => .error .badTime
      | _ => .error .badTime
    else .ok st

/-- Storing the members of an object, in order. -/
def decodeMembers (parseTime : GoString → Option Time) :
    List (GoString × JSON) → Task × Option JsonError → Except JsonError (Task × Option JsonError)
  | [], st => .ok st
  | m :: rest, st =>
    match decodeMember parseTime st m with
    | .error e => .error e
    | .ok st1 => decodeMembers parseTime rest st1

/-- Storing one array item into a fresh `Task`. -/
def decodeTask (parseTime : GoString → Option Time) (v : JSON) (saved : Option JsonError) :
    Except JsonError (Task × Option JsonError) :=
  match v with
  | .obj members => decodeMembers parseTime members (zeroTask, saved)
  | .null => .ok (zeroTask, saved)
  | _ => .ok (zeroTask, saveError saved .mismatch)

/-- Storing the items of an array into a slice of `Task`. -/
def decodeItems (parseTime : GoString → Option Time) :
    List JSON → Option JsonError → Except JsonError (List Task × Option JsonError)
  | [], saved => .ok ([], saved)
  | v :: rest, saved =>
    match decodeTask parseTime v saved with
    | .error e => .error e
    | .ok (t, saved1) =>
      match decodeItems parseTime rest saved1 with
      | .error e => .error e
      | .ok (ts, saved2) => .ok (t :: ts, saved2)

/-- The call `json.Unmarshal(b, &tasks)` with `tasks` a nil `[]Task`. -/
def Unmarshal (parseTime : GoString → Option Time) (b : GoString) :
    Except JsonError (List Task) :=
  match parseJSON b with
  | none => .error .malformed
  | some (.arr items) =>
    match decodeItems parseTime items none with
    | .error e => .error e
    | .ok (ts, none) => .ok ts
    | .ok (_, some e) => .error e
  | some .null => .ok []
  | some _ => .error .mismatch

/-- The function `loadTasks`: `file` is `none` when the file does not exist and holds
its bytes otherwise. -/
def loadTasks (parseTime : GoString → Option Time) (file : Option GoString) :
    Except JsonError (List Task) :=
  match file with
  | none => .ok []
  | some b => if b.length = 0 then .ok [] else Unmarshal parseTime b

/-- A byte that the scanner passes through inside a string literal. -/
def plainByte (b : UInt8) : Bool :=
  0x20 ≤ b.toNat && b.toNat != 0x22 && b.toNat != 0x5C

/-- A byte of an RFC 3339 time: a digit or one of `-`, `:`, `T`, `Z`, `+`, `.`. -/
def isTimeByte (b : UInt8) : Bool :=
  isDigit b || b.toNat = 0x2D || b.toNat = 0x3A || b.toNat = 0x54 || b.toNat = 0x5A
    || b.toNat = 0x2B || b.toNat = 0x2E

/-- The text of a `Time` is made of the bytes of an RFC 3339 time, as it is for every
text that `Time.MarshalJSON` writes. -/
def Time.wellFormed (t : Time) : Bool := t.rfc3339.all isTimeByte

/-- The JSON value that `saveTasks` writes for one task. -/
def taskJSON (t : Task) : JSON :=
  JSON.obj [(lit "id", JSON.num (fmtD t.ID)), (lit "text", JSON.str (stringBody t.Text)),
    (lit "done", JSON.bool t.Done), (lit "when", JSON.str t.When.rfc3339)]

/-- A task as it is after `saveTasks` and `loadTasks`: the text is coerced to valid
UTF-8 and the time is read back by `parseTime`. -/
def reloaded (parseTime : GoString → Option Time) (t : Task) : Task :=
  ⟨t.ID, toValidUTF8 t.Text, t.Done, (parseTime t.When.rfc3339).getD zeroTime⟩

/-- A parser of times that accepts every text; used for concrete stores. -/
def anyTime (s : GoString) : Option Time := some ⟨s⟩

/-- One invocation in a session of `add` and `rm` commands. -/
inductive Op where
  | add (args : List GoString) (now : Time)
  | rm (args : List GoString)
deriving DecidableEq, Repr

/-- The outcome of one invocation on the loaded store. -/
def Op.run (op : Op) (store : List Task) : Outcome :=
  match op with
  | .add args now => cmdAdd args now store
  | .rm args => cmdRm args store

/-- What an invocation did to the ids of the store. -/
inductive Event where
  | assigned (id : Int)
  | removed (id : Int)
deriving DecidableEq, Repr

/-- The events of one invocation, read off the stores before and after it: `add` assigns
the ids of the tasks that follow the old ones in the saved store, `rm` removes the ids of
the old tasks that are missing from the saved store. -/
def Op.events (op : Op) (store : List Task) : List Event :=
  match (op.run store).saved with
  | none => []
  | some s =>
    match op with
    | .add _ _ => (s.drop store.length).map (fun t => Event.assigned t.ID)
    | .rm _ => (store.filter (fun t => decide (t ∉ s))).map (fun t => Event.removed t.ID)

/-- The events of a session, in order, each invocation loading what the one before
saved. -/
def trace : List Task → List Op → List Event
  | _, [] => []
  | store, op :: ops => op.events store ++ trace ((op.run store).storeAfter store) ops

/-- Whether the later event assigns the id that the earlier event removed. -/
def reuses (e1 e2 : Event) : Bool :=
  match e1, e2 with
  | .removed r, .assigned a => decide (r = a)
  | _, _ => false

/-- No id assigned by an `add` equals the id of a task removed earlier in the trace. -/
def NoReuse (tr : List Event) : Prop :=
  tr.Pairwise (fun e1 e2 => reuses e1 e2 = false)

/-- Whether an invocation removes a task that holds the largest id of the store. -/
def Op.removesMax (op : Op) (store : List Task) : Bool :=
  (op.events store).any (fun e =>
    match e with
    | .removed r => store.all (fun t => decide (t.ID ≤ r))
    | .assigned _ => false)

/-- Whether no invocation of the session removes a task holding the largest id of the
store it runs on. -/
def keepsMax : List Task → List Op → Bool
  | _, [] => true
  | store, op :: ops =>
    !(op.removesMax store) && keepsMax ((op.run store).storeAfter store) ops

/-- A task with the given id, text and flag, created at a fixed time; used for concrete
stores. -/
def mkTask (id : Int) (text : String) (done : Bool) : Task :=
  ⟨id, lit text, done, ⟨lit "2024-05-01T10:00:00Z"⟩⟩

/-- The verb `%-3d` of package `fmt` applied to an `int`: the decimal text, padded with
spaces on the right to a width of 3. -/
def fmtDLeft3 (x : Int) : GoString :=
  fmtD x ++ List.replicate (3 - (fmtD x).length) 0x20

/-- One call of `fmt.Printf("%-3d  [%s]   %s\n", t.ID, done, t.Text)` in `cmdList`. -/
def listRow (t : Task) : GoString :=
  fmtDLeft3 t.ID ++ lit "  [" ++ (if t.Done then lit "x" else lit " ") ++ lit "]   "
    ++ t.Text ++ lit "\n"

/-- The loop of `cmdList`: one row per task, in order. -/
def listRows : List Task → GoString
  | [] => []
  | t :: rest => listRow t ++ listRows rest

/-- The header line that `cmdList` prints. -/
def listHeader : GoString := lit "ID  Done  Task\n"

/-- The separator line that `cmdList` prints: 31 dashes. -/
def listSeparator : GoString := lit "-------------------------------\n"

/-- The function `cmdList`, from the return of `loadTasks` on.  It ignores its
arguments and never calls `saveTasks`. -/
def cmdList (_args : List GoString) (tasks : List Task) : Outcome :=
  if tasks.length = 0 then ⟨none, none, lit "no tasks\n"⟩
  else ⟨none, none, listHeader ++ listSeparator ++ listRows tasks⟩

/-- The value of a string of decimal digits, by positional notation. -/
def decimalValue (ds : GoString) : Nat :=
  Nat.ofDigits 10 (ds.reverse.map (fun c => c.toNat - 48))

/-- A text that denotes a positive integer within the range of `int`: an optional plus
sign followed by one or more decimal digits whose value is at least 1 and at most the
largest `int`.  Every other text is non-numeric, empty, zero, negative or out of
range. -/
def isPositiveIntText (s : GoString) : Bool :=
  let ds := if s.head? = some 43 then s.tail else s
  !ds.isEmpty && ds.all (fun c => decide (48 ≤ c.toNat ∧ c.toNat ≤ 57))
    && decide (1 ≤ decimalValue ds) && decide ((decimalValue ds : Int) ≤ maxInt)

/-- Whether an object member can be stored into a `Task`: a member named `id`, `text`,
`done` or `when` (in any letter case) holds null or a value of the kind of its field, an
integer number within `int`, a string, a boolean, a time that `parseTime` accepts; a
member with another name holds anything. -/
def memberFits (parseTime : GoString → Option Time) (m : GoString × JSON) : Bool :=
  match unquote m.1 with
  | none => false
  | some key =>
    if foldEq key (lit "id") then
      match m.2 with
      | .null => true
      | .num text => (Atoi text).isSome
      | _ => false
    else if foldEq key (lit "text") then
      match m.2 with
      | .null => true
      | .str body => (unquote body).isSome
      | _ => false
    else if foldEq key (lit "done") then
      match m.2 with
      | .null => true
      | .bool _ => true
      | _ => false
    else if foldEq key (lit "when") then
      match m.2 with
      | .null => true
      | .str body => (parseTime body).isSome
      | _ => false
    else true

/-- Whether an array item can be stored into a `Task`: null, or an object all of whose
members fit. -/
def itemFits (parseTime : GoString → Option Time) (v : JSON) : Bool :=
  match v with
  | .obj members => members.all (memberFits parseTime)
  | .null => true
  | _ => false

/-- Whether a JSON value can be stored into a `[]Task`: null, or an array all of whose
items fit. -/
def sliceFits (parseTime : GoString → Option Time) (v : JSON) : Bool :=
  match v with
  | .arr items => items.all (itemFits parseTime)
  | .null => true
  | _ => false


/-- The function `cmdDone` with the file it reads: the checks of the arguments come
first, then `loadTasks`, whose error is returned as it is, then the rest of the command
on the loaded slice. -/
def cmdDoneFile (parseTime : GoString → Option Time) (file : Option GoString)
    (args : List GoString) : Except JsonError Outcome :=
  match args with
  | [arg] =>
    match parseID arg with
    | .error e => .ok ⟨some e, none, []⟩
    | .ok _ =>
      match loadTasks parseTime file with
      | .error e => .error e
      | .ok tasks => .ok (cmdDone args tasks)
  | _ => .ok ⟨some (lit "usage: todo done <id>"), none, []⟩

/-- The function `cmdRm` with the file it reads: the checks of the arguments come first,
then `loadTasks`, whose error is returned as it is, then the rest of the command on the
loaded slice. -/
def cmdRmFile (parseTime : GoString → Option Time) (file : Option GoString)
    (args : List GoString) : Except JsonError Outcome :=
  match args with
  | [arg] =>
    match parseID arg with
    | .error e => .ok ⟨some e, none, []⟩
    | .ok _ =>
      match loadTasks parseTime file with
      | .error e => .error e
      | .ok tasks => .ok (cmdRm args tasks)
  | _ => .ok ⟨some (lit "usage: todo rm <id>"), none, []⟩

/-! ## Theorems -/

/-! ### Machine integers -/

theorem wrapInt_of_inRange (x : Int) (h1 : minInt ≤ x) (h2 : x ≤ maxInt) : wrapInt x = x := by
  unfold wrapInt
  unfold minInt at h1
  unfold maxInt at h2
  omega

/-! ### `nextID` -/

theorem nextIDLoop_ge (tasks : List Task) (m0 : Int) : m0 ≤ nextIDLoop m0 tasks := by
  induction tasks generalizing m0 with
  | nil => simp [nextIDLoop]
  | cons t rest ih =>
    simp only [nextIDLoop]
    by_cases hgt : t.ID > m0
    · rw [if_pos hgt]
      have := ih t.ID
      omega
    · rw [if_neg hgt]
      exact ih m0

theorem nextIDLoop_upper (tasks : List Task) (m0 : Int) :
    ∀ t ∈ tasks, t.ID ≤ nextIDLoop m0 tasks := by
  induction tasks generalizing m0 with
  | nil => simp
  | cons t rest ih =>
    intro u hu
    simp only [nextIDLoop]
    rcases List.mem_cons.mp hu with rfl | hu
    · by_cases hgt : u.ID > m0
      · rw [if_pos hgt]
        exact nextIDLoop_ge rest u.ID
      · rw [if_neg hgt]
        have := nextIDLoop_ge rest m0
        omega
    · exact ih _ u hu

theorem nextIDLoop_attained (tasks : List Task) (m0 : Int) :
    nextIDLoop m0 tasks = m0 ∨ ∃ t ∈ tasks, t.ID = nextIDLoop m0 tasks := by
  induction tasks generalizing m0 with
  | nil => simp [nextIDLoop]
  | cons t rest ih =>
    simp only [nextIDLoop]
    rcases ih (if t.ID > m0 then t.ID else m0) with h | ⟨u, hu, hEq⟩
    · by_cases hgt : t.ID > m0
      · right
        refine ⟨t, List.mem_cons_self _ _, ?_⟩
        rw [h, if_pos hgt]
      · left
        rw [h, if_neg hgt]
    · right
      exact ⟨u, List.mem_cons_of_mem _ hu, hEq⟩

/-- The loop of `nextID` returns the larger of `0` and the largest id. -/
theorem nextIDLoop_isMax (tasks : List Task) (m : Int) (hm : IsMaxID tasks m) :
    nextIDLoop 0 tasks = if 0 ≤ m then m else 0 := by
  obtain ⟨⟨t, ht, rfl⟩, hle⟩ := hm
  have h1 := nextIDLoop_upper tasks 0 t ht
  have h0 := nextIDLoop_ge tasks 0
  rcases nextIDLoop_attained tasks 0 with h | ⟨u, hu, hEq⟩
  · split <;> omega
  · have := hle u hu
    split <;> omega

/-- Without overflow `nextID` is one more than the result of its loop, which is at least
`0` and at least every id. -/
theorem nextID_eq_loop (tasks : List Task) (hlt : ∀ t ∈ tasks, t.ID < maxInt) :
    nextID tasks = nextIDLoop 0 tasks + 1 := by
  unfold nextID
  have h0 := nextIDLoop_ge tasks 0
  have hup : nextIDLoop 0 tasks < maxInt := by
    rcases nextIDLoop_attained tasks 0 with h | ⟨u, hu, hEq⟩
    · rw [h]; decide
    · rw [← hEq]; exact hlt u hu
  apply wrapInt_of_inRange
  · unfold minInt; omega
  · omega

/-- Claim C1, as the code has it: for every task list whose ids are all below the largest
machine int, `nextID` returns 1 for the empty list, one more than the largest id when
that id is not negative, and 1 when every id is negative (the loop starts from 0). -/
theorem nextID_spec (tasks : List Task) (hlt : ∀ t ∈ tasks, t.ID < maxInt) :
    (tasks = [] → nextID tasks = 1) ∧
    (∀ m, IsMaxID tasks m → 0 ≤ m → nextID tasks = m + 1) ∧
    (∀ m, IsMaxID tasks m → m < 0 → nextID tasks = 1) := by
  refine ⟨?_, ?_, ?_⟩
  · rintro rfl; decide
  · intro m hm h0
    rw [nextID_eq_loop tasks hlt, nextIDLoop_isMax tasks m hm, if_pos h0]
  · intro m hm h0
    rw [nextID_eq_loop tasks hlt, nextIDLoop_isMax tasks m hm, if_neg (by omega)]
    rfl

/-- Witness of `nextID_spec` on the store with ids 3 and 7. -/
theorem nextID_spec_witness :
    (∀ t ∈ [mkTask 3 "a" false, mkTask 7 "b" true], t.ID < maxInt) ∧
    nextID [mkTask 3 "a" false, mkTask 7 "b" true] = 7 + 1 :=
  ⟨by decide,
   (nextID_spec [mkTask 3 "a" false, mkTask 7 "b" true] (by decide)).2.1 7
     ⟨⟨mkTask 7 "b" true, by decide, rfl⟩, by decide⟩ (by decide)⟩

/-- Claim C1 fails as stated: on a list whose only id is -5 the largest id is -5 and
`nextID` returns 1, not -4; on a list holding the largest machine int `nextID` wraps
around to the smallest int. -/
theorem nextID_not_max_plus_one :
    (IsMaxID [mkTask (-5) "a" false] (-5) ∧ nextID [mkTask (-5) "a" false] = 1 ∧
      nextID [mkTask (-5) "a" false] ≠ -5 + 1) ∧
    (IsMaxID [mkTask maxInt "a" false] maxInt ∧ nextID [mkTask maxInt "a" false] = minInt ∧
      nextID [mkTask maxInt "a" false] ≠ maxInt + 1) := by
  refine ⟨⟨⟨⟨_, List.mem_singleton.mpr rfl, rfl⟩, ?_⟩, by decide, by decide⟩,
    ⟨⟨⟨_, List.mem_singleton.mpr rfl, rfl⟩, ?_⟩, by decide, by decide⟩⟩
  · intro t ht; rw [List.mem_singleton.mp ht]; decide
  · intro t ht; rw [List.mem_singleton.mp ht]; decide



/-! ### Bytes -/

theorem toNat_ofNat_lt (n : Nat) (h : n < 256) : (UInt8.ofNat n).toNat = n := by
  show (BitVec.ofNat 8 n).toNat = n
  rw [BitVec.toNat_ofNat]
  omega

theorem ofNat_toNat (b : UInt8) : UInt8.ofNat b.toNat = b := by
  cases b with
  | mk v =>
    show UInt8.mk (BitVec.ofNat 8 v.toNat) = UInt8.mk v
    rw [BitVec.ofNat_toNat, BitVec.setWidth_eq]

theorem toNat_lt (b : UInt8) : b.toNat < 256 := by
  cases b with
  | mk v => exact v.isLt

theorem eq_of_toNat_eq (a b : UInt8) (h : a.toNat = b.toNat) : a = b := by
  rw [← ofNat_toNat a, ← ofNat_toNat b, h]

theorem eq_ofNat_of_toNat (a : UInt8) (n : Nat) (h : a.toNat = n) : a = UInt8.ofNat n := by
  rw [← h, ofNat_toNat]

/-! ### Decimal text -/

theorem digitsAux_acc (fuel n : Nat) (acc : GoString) :
    digitsAux fuel n acc = digitsAux fuel n [] ++ acc := by
  induction fuel generalizing n acc with
  | zero => rfl
  | succ fuel ih =>
    simp only [digitsAux]
    by_cases h : n / 10 = 0
    · simp [h]
    · simp only [h, if_false]
      rw [ih (n / 10) (_ :: acc), ih (n / 10) [_]]
      simp

theorem digitsVal_append_single (xs : GoString) (d : UInt8) :
    digitsVal (xs ++ [d]) = digitsVal xs * 10 + (d.toNat - 48) := by
  simp [digitsVal, List.foldl_append]

/-- The decimal text of `n`: it starts with a digit, which is not `0` unless `n = 0`,
it holds digits only and its value is `n`. -/
theorem digitsAux_spec (fuel : Nat) : ∀ n : Nat, n < fuel →
    ∃ d ds, digitsAux fuel n [] = d :: ds ∧ isDigit d = true ∧ ds.all isDigit = true ∧
      (n ≠ 0 → d.toNat ≠ 48) ∧ (n = 0 → ds = []) ∧ digitsVal (d :: ds) = n := by
  induction fuel with
  | zero => intro n hn; omega
  | succ fuel ih =>
    intro n hn
    simp only [digitsAux]
    by_cases h : n / 10 = 0
    · have hlt : n < 10 := by omega
      have hmod : n % 10 = n := Nat.mod_eq_of_lt hlt
      have hd : (UInt8.ofNat (48 + n)).toNat = 48 + n := toNat_ofNat_lt _ (by omega)
      refine ⟨UInt8.ofNat (48 + n), [], by simp [h, hmod], ?_, rfl, ?_, fun _ => rfl, ?_⟩
      · simp only [isDigit, hd, Bool.and_eq_true, decide_eq_true_eq]; omega
      · intro hn0; rw [hd]; omega
      · simp [digitsVal, hd]
    · simp only [h, if_false]
      rw [digitsAux_acc]
      obtain ⟨d, ds, hEq, hd, hds, hnz, -, hval⟩ := ih (n / 10) (by omega)
      have hlast : (UInt8.ofNat (48 + n % 10)).toNat = 48 + n % 10 :=
        toNat_ofNat_lt _ (by omega)
      refine ⟨d, ds ++ [UInt8.ofNat (48 + n % 10)], by rw [hEq]; rfl, hd, ?_, ?_, ?_, ?_⟩
      · rw [List.all_append, hds]
        simp only [List.all_cons, List.all_nil, Bool.and_true, Bool.true_and, isDigit, hlast,
          Bool.and_eq_true, decide_eq_true_eq]
        omega
      · intro _; exact hnz h
      · intro hn0; omega
      · have : d :: (ds ++ [UInt8.ofNat (48 + n % 10)])
            = (d :: ds) ++ [UInt8.ofNat (48 + n % 10)] := rfl
        rw [this, digitsVal_append_single, hval, hlast]
        omega

theorem fmtNat_spec (n : Nat) :
    ∃ d ds, fmtNat n = d :: ds ∧ isDigit d = true ∧ ds.all isDigit = true ∧
      (n ≠ 0 → d.toNat ≠ 48) ∧ (n = 0 → ds = []) ∧ digitsVal (d :: ds) = n :=
  digitsAux_spec (n + 1) n (Nat.lt_succ_self n)

theorem isDigit_toNat (d : UInt8) (h : isDigit d = true) : 48 ≤ d.toNat ∧ d.toNat ≤ 57 := by
  simpa [isDigit] using h

/-- The function `strconv.Atoi` reads back the decimal text of every `int`. -/
theorem Atoi_fmtD (x : Int) (h1 : minInt ≤ x) (h2 : x ≤ maxInt) : Atoi (fmtD x) = some x := by
  obtain ⟨d, ds, hEq, hd, hds, -, -, hval⟩ := fmtNat_spec x.natAbs
  have hdn := isDigit_toNat d hd
  have hne45 : d ≠ 45 := by
    intro h; rw [h] at hdn; revert hdn; decide
  have hne43 : d ≠ 43 := by
    intro h; rw [h] at hdn; revert hdn; decide
  have hall : (d :: ds).all isDigit = true := by
    simp only [List.all_cons, hd, hds, Bool.and_self]
  unfold fmtD
  by_cases hneg : x < 0
  · simp only [hneg, if_true, Atoi, List.head?_cons, List.tail_cons, true_or, hEq]
    simp only [hall, List.isEmpty_cons, Bool.not_true, Bool.or_self, Bool.false_eq_true,
      if_false, hval]
    have hx : -((x.natAbs : Nat) : Int) = x := by omega
    rw [hx]
    simp [h1, h2]
  · simp only [hneg, if_false, Atoi, hEq, List.head?_cons, Option.some.injEq, hne45, hne43,
      or_self, if_false]
    simp only [hall, List.isEmpty_cons, Bool.not_true, Bool.or_self, Bool.false_eq_true,
      if_false, hval]
    have hx : ((x.natAbs : Nat) : Int) = x := by omega
    rw [hx]
    simp [h1, h2]

/-- The function `parseID` accepts the decimal text of every positive `int`. -/
theorem parseID_fmtD (x : Int) (h1 : 0 < x) (h2 : x ≤ maxInt) : parseID (fmtD x) = .ok x := by
  unfold parseID
  rw [Atoi_fmtD x (by unfold minInt; omega) h2]
  simp only
  rw [if_neg (by omega)]
/-! ### The loop of `cmdRm` -/

/-- State of the loop of `cmdRm` after the first `k` iterations: the slice `newTasks`
holds the tasks among the first `k` whose id differs, the backing array is untouched from
index `k` on, and `found` tells whether one of the first `k` tasks matched. -/
theorem rmLoop_upto (id : Int) (tasks : List Task) (k : Nat) (hk : k ≤ tasks.length) :
    ((List.range k).foldl (rmStep id) ⟨tasks, 0, false⟩).newTasks
        = (tasks.take k).filter (fun t => decide (t.ID ≠ id)) ∧
    ((List.range k).foldl (rmStep id) ⟨tasks, 0, false⟩).buf.drop k = tasks.drop k ∧
    ((List.range k).foldl (rmStep id) ⟨tasks, 0, false⟩).n ≤ k ∧
    ((List.range k).foldl (rmStep id) ⟨tasks, 0, false⟩).buf.length = tasks.length ∧
    ((List.range k).foldl (rmStep id) ⟨tasks, 0, false⟩).found
        = (tasks.take k).any (fun t => decide (t.ID = id)) := by
  induction k with
  | zero => simp [RmState.newTasks]
  | succ k ih =>
    have hk' : k < tasks.length := by omega
    obtain ⟨h1, h2, h3, h4, h5⟩ := ih (by omega)
    rw [List.range_succ, List.foldl_append]
    generalize (List.range k).foldl (rmStep id) ⟨tasks, 0, false⟩ = st at h1 h2 h3 h4 h5
    have hget : st.buf[k]? = some tasks[k] := by
      have := List.getElem?_drop st.buf k 0
      rw [h2, List.getElem?_drop] at this
      simp only [Nat.add_zero] at this
      rw [← this]
      exact List.getElem?_eq_getElem hk'
    have htake : tasks.take (k + 1) = tasks.take k ++ [tasks[k]] := by
      rw [List.take_succ, List.getElem?_eq_getElem hk']; rfl
    have hdrop : ∀ l : List Task, l.drop (k + 1) = (l.drop k).drop 1 := by
      intro l; rw [List.drop_drop, Nat.add_comm]
    simp only [List.foldl_cons, List.foldl_nil, rmStep, hget]
    by_cases hid : tasks[k].ID = id
    · simp only [hid, if_true]
      refine ⟨?_, ?_, ?_, h4, ?_⟩
      · rw [htake, List.filter_append]
        simp [RmState.newTasks, hid] at h1 ⊢
        exact h1
      · rw [hdrop, hdrop tasks, h2]
      · omega
      · rw [htake, List.any_append]; simp [hid]
    · simp only [hid, if_false]
      refine ⟨?_, ?_, ?_, ?_, ?_⟩
      · rw [htake, List.filter_append, ← h1]
        simp only [RmState.newTasks]
        rw [List.take_succ, List.set_take,
          List.set_eq_of_length_le (by rw [List.length_take]; exact Nat.min_le_left _ _),
          List.getElem?_set_self (by omega)]
        simp [hid]
      · rw [List.drop_set_of_lt _ _ (by omega), hdrop, hdrop tasks, h2]
      · omega
      · simp only [List.length_set]; exact h4
      · rw [htake, List.any_append, ← h5]; simp [hid]

/-- The loop of `cmdRm` keeps, in order, exactly the tasks whose id differs from `id`. -/
theorem rmLoop_newTasks (id : Int) (tasks : List Task) :
    (rmLoop id tasks).newTasks = tasks.filter (fun t => decide (t.ID ≠ id)) := by
  have := (rmLoop_upto id tasks tasks.length (Nat.le_refl _)).1
  rw [List.take_length] at this
  exact this

/-- The flag `found` of `cmdRm` tells whether some task has the id. -/
theorem rmLoop_found (id : Int) (tasks : List Task) :
    (rmLoop id tasks).found = tasks.any (fun t => decide (t.ID = id)) := by
  have := (rmLoop_upto id tasks tasks.length (Nat.le_refl _)).2.2.2.2
  rw [List.take_length] at this
  exact this
/-! ### `parseID` -/

/-- A value returned by `Atoi` fits an `int`. -/
theorem Atoi_inRange (s : GoString) (x : Int) (h : Atoi s = some x) :
    minInt ≤ x ∧ x ≤ maxInt := by
  unfold Atoi at h
  simp only at h
  split_ifs at h with h1 h2 h3 h4 h5
  all_goals (injection h with h; subst h; assumption)

/-- An id accepted by `parseID` is positive and fits an `int`. -/
theorem parseID_ok_pos (arg : GoString) (id : Int) (h : parseID arg = .ok id) :
    0 < id ∧ id ≤ maxInt := by
  unfold parseID at h
  cases hA : Atoi arg with
  | none => rw [hA] at h; cases h
  | some x =>
    rw [hA] at h
    simp only at h
    split at h
    · cases h
    · injection h with h
      subst h
      exact ⟨by omega, (Atoi_inRange arg _ hA).2⟩

/-! ### The loop of `cmdDone` -/

/-- The flag `found` of `cmdDone` tells whether some task has the id. -/
theorem doneLoop_found (id : Int) (tasks : List Task) :
    (doneLoop id tasks).2 = tasks.any (fun t => decide (t.ID = id)) := by
  induction tasks with
  | nil => rfl
  | cons t rest ih =>
    by_cases h : t.ID = id
    · simp [doneLoop, h]
    · simp [doneLoop, h, ih]

/-- When an id is present, the loop of `cmdDone` rewrites exactly the first task that has
it, setting its `Done` field and nothing else. -/
theorem doneLoop_split (id : Int) (tasks : List Task) (h : ∃ t ∈ tasks, t.ID = id) :
    ∃ front t back, tasks = front ++ t :: back ∧ (∀ u ∈ front, u.ID ≠ id) ∧ t.ID = id ∧
      doneLoop id tasks = (front ++ { t with Done := true } :: back, true) := by
  induction tasks with
  | nil => obtain ⟨t, ht, _⟩ := h; cases ht
  | cons a rest ih =>
    by_cases ha : a.ID = id
    · exact ⟨[], a, rest, rfl, by simp, ha, by simp [doneLoop, ha]⟩
    · have h' : ∃ t ∈ rest, t.ID = id := by
        obtain ⟨t, ht, hEq⟩ := h
        rcases List.mem_cons.mp ht with rfl | ht
        · exact absurd hEq ha
        · exact ⟨t, ht, hEq⟩
      obtain ⟨front, t, back, hsplit, hfront, ht, hloop⟩ := ih h'
      refine ⟨a :: front, t, back, by rw [hsplit]; rfl, ?_, ht, ?_⟩
      · intro u hu
        rcases List.mem_cons.mp hu with rfl | hu
        · exact ha
        · exact hfront u hu
      · simp [doneLoop, ha, hloop]

/-- When no task has the id, the loop of `cmdDone` changes nothing and reports
`found = false`. -/
theorem doneLoop_absent (id : Int) (tasks : List Task) (h : ∀ t ∈ tasks, t.ID ≠ id) :
    doneLoop id tasks = (tasks, false) := by
  induction tasks with
  | nil => rfl
  | cons a rest ih =>
    have ha : a.ID ≠ id := h a (List.mem_cons_self _ _)
    have := ih (fun t ht => h t (List.mem_cons_of_mem _ ht))
    simp [doneLoop, ha, this]

/-- The loop of `cmdDone` leaves the sequence of ids as it is. -/
theorem doneLoop_ids (id : Int) (tasks : List Task) :
    (doneLoop id tasks).1.map (fun t => t.ID) = tasks.map (fun t => t.ID) := by
  induction tasks with
  | nil => rfl
  | cons a rest ih =>
    by_cases ha : a.ID = id
    · simp [doneLoop, ha]
    · simp [doneLoop, ha, ih]

/-- Running the loop of `cmdDone` a second time with the same id changes nothing more. -/
theorem doneLoop_idem (id : Int) (tasks : List Task) :
    doneLoop id (doneLoop id tasks).1 = doneLoop id tasks := by
  induction tasks with
  | nil => rfl
  | cons a rest ih =>
    by_cases ha : a.ID = id
    · simp [doneLoop, ha]
    · simp only [doneLoop, ha, if_false]
      rw [ih]

/-! ### What `saveTasks` returns -/

theorem marshalerError_none (tasks : List Task) (h : ∀ t ∈ tasks, t.When.writable = true) :
    marshalerError tasks = none := by
  induction tasks with
  | nil => rfl
  | cons t rest ih =>
    have ht := h t (List.mem_cons_self _ _)
    unfold Time.writable at ht
    unfold marshalerError
    cases hm : t.When.MarshalJSON with
    | error e => simp [hm] at ht
    | ok b => exact ih (fun u hu => h u (List.mem_cons_of_mem _ hu))

theorem marshalerError_some (tasks : List Task) (h : ¬ ∀ t ∈ tasks, t.When.writable = true) :
    ∃ e, marshalerError tasks
      = some (lit "json: error calling MarshalJSON for type time.Time: " ++ e) := by
  induction tasks with
  | nil => exact absurd (fun t ht => by cases ht) h
  | cons t rest ih =>
    unfold marshalerError
    cases hm : t.When.MarshalJSON with
    | error e => exact ⟨e, rfl⟩
    | ok b =>
      apply ih
      intro hrest
      apply h
      intro u hu
      rcases List.mem_cons.mp hu with rfl | hu
      · simp only [Time.writable, hm]
      · exact hrest u hu

/-- When `Time.MarshalJSON` accepts every time, `saveTasks` writes the encoded slice. -/
theorem saveTasks_ok (tasks : List Task) (h : ∀ t ∈ tasks, t.When.writable = true) :
    saveTasks tasks = .ok (indentBytes tasks) := by
  simp only [saveTasks, MarshalIndent, marshalerError_none tasks h]

/-- When `Time.MarshalJSON` refuses a time, `saveTasks` returns the error of the
encoder. -/
theorem saveTasks_error (tasks : List Task) (h : ¬ ∀ t ∈ tasks, t.When.writable = true) :
    ∃ e, saveTasks tasks
      = .error (lit "json: error calling MarshalJSON for type time.Time: " ++ e) := by
  obtain ⟨e, he⟩ := marshalerError_some tasks h
  exact ⟨e, by simp only [saveTasks, MarshalIndent, he]⟩

/-- What `saveTasks` writes is the encoded slice, and then every time was accepted. -/
theorem saveTasks_eq_ok (tasks : List Task) (b : GoString) (h : saveTasks tasks = .ok b) :
    b = indentBytes tasks ∧ ∀ t ∈ tasks, t.When.writable = true := by
  by_cases hw : ∀ t ∈ tasks, t.When.writable = true
  · rw [saveTasks_ok tasks hw] at h
    injection h with h
    exact ⟨h.symm, hw⟩
  · obtain ⟨e, he⟩ := saveTasks_error tasks hw
    rw [he] at h
    cases h

/-! ### The commands, case by case -/

theorem cmdDone_parsed (arg : GoString) (id : Int) (tasks : List Task)
    (hp : parseID arg = .ok id) :
    cmdDone [arg] tasks =
      if (doneLoop id tasks).2 = false then
        ⟨some (lit "task " ++ fmtD id ++ lit " not found"), none, []⟩
      else
        saveThen (saveTasks (doneLoop id tasks).1)
          ⟨none, some (doneLoop id tasks).1, lit "marked " ++ fmtD id ++ lit " done\n"⟩ := by
  simp only [cmdDone, hp]

theorem cmdRm_parsed (arg : GoString) (id : Int) (tasks : List Task)
    (hp : parseID arg = .ok id) :
    cmdRm [arg] tasks =
      if (rmLoop id tasks).found = false then
        ⟨some (lit "task " ++ fmtD id ++ lit " not found"), none, []⟩
      else
        saveThen (saveTasks (rmLoop id tasks).newTasks)
          ⟨none, some (rmLoop id tasks).newTasks, lit "removed " ++ fmtD id ++ lit "\n"⟩ := by
  simp only [cmdRm, hp]

theorem saveThen_ok (r : Except GoString GoString) (b : GoString) (rest : Outcome)
    (h : r = .ok b) : saveThen r rest = rest := by
  rw [h]
  rfl

theorem saveThen_error (r : Except GoString GoString) (e : GoString) (rest : Outcome)
    (h : r = .error e) : saveThen r rest = ⟨some e, none, []⟩ := by
  rw [h]
  rfl

/-- When a command saved after its call of `saveTasks`, the call succeeded and the
command went on to the rest. -/
theorem saveThen_saved (r : Except GoString GoString) (rest : Outcome) (l : List Task)
    (h : (saveThen r rest).saved = some l) :
    (∃ b, r = .ok b) ∧ saveThen r rest = rest := by
  cases r with
  | error e => cases h
  | ok b => exact ⟨⟨b, rfl⟩, rfl⟩

/-- When `cmdDone` saves, it was given one argument that parses to an id some task has,
and it saves the result of its loop. -/
theorem cmdDone_saved (args : List GoString) (tasks ts' : List Task)
    (h : (cmdDone args tasks).saved = some ts') :
    ∃ arg id, args = [arg] ∧ parseID arg = .ok id ∧ (doneLoop id tasks).2 = true ∧
      ts' = (doneLoop id tasks).1 := by
  unfold cmdDone at h
  split at h
  · rename_i arg
    split at h
    · cases h
    · rename_i id hp
      split at h
      · cases h
      · rename_i hf
        obtain ⟨-, hrest⟩ := saveThen_saved _ _ _ h
        rw [hrest] at h
        refine ⟨arg, id, rfl, hp, by simpa using hf, ?_⟩
        simp only [Option.some.injEq] at h
        exact h.symm
  · cases h

/-- When `cmdRm` saves, it was given one argument that parses to an id some task has,
and it saves the tasks whose id differs. -/
theorem cmdRm_saved (args : List GoString) (tasks ts' : List Task)
    (h : (cmdRm args tasks).saved = some ts') :
    ∃ arg id, args = [arg] ∧ parseID arg = .ok id ∧ (∃ t ∈ tasks, t.ID = id) ∧
      ts' = tasks.filter (fun t => decide (t.ID ≠ id)) := by
  unfold cmdRm at h
  split at h
  · rename_i arg
    split at h
    · cases h
    · rename_i id hp
      split at h
      · cases h
      · rename_i hf
        obtain ⟨-, hrest⟩ := saveThen_saved _ _ _ h
        rw [hrest] at h
        refine ⟨arg, id, rfl, hp, ?_, ?_⟩
        · rw [rmLoop_found] at hf
          simpa using hf
        · simp only [Option.some.injEq] at h
          rw [← h, rmLoop_newTasks]
  · cases h

/-- When `cmdAdd` saves, it saves the loaded tasks followed by the new task. -/
theorem cmdAdd_saved (args : List GoString) (now : Time) (tasks ts' : List Task)
    (h : (cmdAdd args now tasks).saved = some ts') :
    args ≠ [] ∧ ts' = tasks ++ [⟨nextID tasks, Join args (lit " "), false, now⟩] := by
  unfold cmdAdd at h
  split at h
  · cases h
  · rename_i hlen
    simp only at h
    obtain ⟨-, hrest⟩ := saveThen_saved _ _ _ h
    rw [hrest] at h
    simp only [Option.some.injEq] at h
    refine ⟨?_, h.symm⟩
    rintro rfl
    exact hlen rfl

/-- The three commands save only what `saveTasks` accepts: a saved store is one that
`saveTasks` wrote, so `Time.MarshalJSON` accepts every time in it. -/
theorem saved_writable (args : List GoString) (now : Time) (tasks ts' : List Task)
    (h : (cmdAdd args now tasks).saved = some ts' ∨ (cmdDone args tasks).saved = some ts' ∨
      (cmdRm args tasks).saved = some ts') :
    saveTasks ts' = .ok (indentBytes ts') := by
  rcases h with h | h | h
  · obtain ⟨-, hts⟩ := cmdAdd_saved args now tasks ts' h
    unfold cmdAdd at h
    split at h
    · cases h
    · simp only at h
      obtain ⟨⟨b, hb⟩, -⟩ := saveThen_saved _ _ _ h
      rw [hts, hb, (saveTasks_eq_ok _ b hb).1]
  · obtain ⟨arg, id, rfl, hp, hf, hts⟩ := cmdDone_saved args tasks ts' h
    rw [cmdDone_parsed arg id tasks hp, hf] at h
    simp only [Bool.true_eq_false, if_false] at h
    obtain ⟨⟨b, hb⟩, -⟩ := saveThen_saved _ _ _ h
    rw [hts, hb, (saveTasks_eq_ok _ b hb).1]
  · obtain ⟨arg, id, rfl, hp, hmem, hts⟩ := cmdRm_saved args tasks ts' h
    have hf : (rmLoop id tasks).found = true := by
      rw [rmLoop_found]
      simpa using hmem
    rw [cmdRm_parsed arg id tasks hp, hf] at h
    simp only [Bool.true_eq_false, if_false] at h
    obtain ⟨⟨b, hb⟩, -⟩ := saveThen_saved _ _ _ h
    rw [hts, ← rmLoop_newTasks, hb, (saveTasks_eq_ok _ b hb).1]

/-! ### The id invariant (claim C2) -/

theorem idInv_add (tasks : List Task) (text : GoString) (now : Time) (h : IdInv tasks)
    (hlt : ∀ t ∈ tasks, t.ID < maxInt) :
    IdInv (tasks ++ [⟨nextID tasks, text, false, now⟩]) := by
  have hid := nextID_eq_loop tasks hlt
  have h0 := nextIDLoop_ge tasks 0
  have hup := nextIDLoop_upper tasks 0
  obtain ⟨hnd, hpos⟩ := h
  constructor
  · rw [List.map_append, List.nodup_append]
    refine ⟨hnd, by simp, ?_⟩
    intro a ha hb
    simp only [List.map_cons, List.map_nil, List.mem_singleton] at hb
    obtain ⟨t, ht, rfl⟩ := List.mem_map.mp ha
    have := hup t ht
    omega
  · intro t ht
    rcases List.mem_append.mp ht with ht | ht
    · exact hpos t ht
    · rw [List.mem_singleton.mp ht]
      show 0 < nextID tasks
      omega

theorem idInv_of_ids_eq (tasks ts' : List Task) (h : IdInv tasks)
    (hids : ts'.map (fun t => t.ID) = tasks.map (fun t => t.ID)) : IdInv ts' := by
  obtain ⟨hnd, hpos⟩ := h
  refine ⟨by rw [hids]; exact hnd, ?_⟩
  intro t ht
  have : t.ID ∈ tasks.map (fun t => t.ID) := by
    rw [← hids]; exact List.mem_map_of_mem _ ht
  obtain ⟨u, hu, hEq⟩ := List.mem_map.mp this
  rw [← hEq]
  exact hpos u hu

theorem idInv_filter (tasks : List Task) (p : Task → Bool) (h : IdInv tasks) :
    IdInv (tasks.filter p) := by
  obtain ⟨hnd, hpos⟩ := h
  refine ⟨?_, fun t ht => hpos t (List.mem_of_mem_filter ht)⟩
  exact hnd.sublist ((List.filter_sublist tasks).map _)

/-- Claim C2, as the code has it: for every store whose ids are distinct and positive,
the store written by `done` or `rm` again has distinct and positive ids, and so has the
store written by `add` when every id is below the largest machine int. -/
theorem idInv_preserved (tasks ts' : List Task) (args : List GoString) (now : Time)
    (h : IdInv tasks)
    (hsaved : ((∀ t ∈ tasks, t.ID < maxInt) ∧ (cmdAdd args now tasks).saved = some ts') ∨
      (cmdDone args tasks).saved = some ts' ∨ (cmdRm args tasks).saved = some ts') :
    IdInv ts' := by
  rcases hsaved with ⟨hlt, hs⟩ | hs | hs
  · obtain ⟨_, rfl⟩ := cmdAdd_saved args now tasks ts' hs
    exact idInv_add tasks _ now h hlt
  · obtain ⟨arg, id, _, _, _, rfl⟩ := cmdDone_saved args tasks ts' hs
    exact idInv_of_ids_eq tasks _ h (doneLoop_ids id tasks)
  · obtain ⟨arg, id, _, _, _, rfl⟩ := cmdRm_saved args tasks ts' hs
    exact idInv_filter tasks _ h

/-- Witness of `idInv_preserved`: removing task 1 from the store with ids 1 and 2. -/
theorem idInv_preserved_witness :
    IdInv [mkTask 1 "a" false, mkTask 2 "b" false] ∧
    (cmdRm [lit "1"] [mkTask 1 "a" false, mkTask 2 "b" false]).saved
      = some [mkTask 2 "b" false] ∧
    IdInv [mkTask 2 "b" false] :=
  have hinv : IdInv [mkTask 1 "a" false, mkTask 2 "b" false] := by
    unfold IdInv; decide
  have hrm : (cmdRm [lit "1"] [mkTask 1 "a" false, mkTask 2 "b" false]).saved
      = some [mkTask 2 "b" false] := by decide
  ⟨hinv, hrm,
    idInv_preserved [mkTask 1 "a" false, mkTask 2 "b" false] [mkTask 2 "b" false]
      [lit "1"] ⟨[]⟩ hinv (Or.inr (Or.inr hrm))⟩

/-- Claim C2 fails as stated: the store holding one task whose id is the largest machine
int has distinct and positive ids, `add` succeeds on it, and the store it writes holds
the negative id `minInt`. -/
theorem idInv_broken_by_add :
    IdInv [mkTask maxInt "a" false] ∧
    cmdAdd [lit "b"] ⟨lit "2024-05-01T10:00:00Z"⟩ [mkTask maxInt "a" false]
      = ⟨none, some [mkTask maxInt "a" false, mkTask minInt "b" false],
          lit "added -9223372036854775808: b\n"⟩ ∧
    ¬ IdInv [mkTask maxInt "a" false, mkTask minInt "b" false] := by
  refine ⟨by unfold IdInv; decide, by decide, ?_⟩
  unfold IdInv
  decide
/-! ### `add` (claims C4 and C8) -/

/-- With at least one argument `cmdAdd` makes the new task and calls `saveTasks` on the
loaded tasks followed by it. -/
theorem cmdAdd_args (tasks : List Task) (args : List GoString) (now : Time)
    (hargs : args ≠ []) :
    cmdAdd args now tasks =
      saveThen (saveTasks (tasks ++ [⟨nextID tasks, Join args (lit " "), false, now⟩]))
        ⟨none, some (tasks ++ [⟨nextID tasks, Join args (lit " "), false, now⟩]),
          lit "added " ++ fmtD (nextID tasks) ++ lit ": " ++ Join args (lit " ")
            ++ lit "\n"⟩ := by
  have hlen : ¬ args.length = 0 := by
    intro h
    exact hargs (List.length_eq_zero.mp h)
  simp only [cmdAdd, hlen, if_false]

theorem writable_append (tasks : List Task) (t : Task) :
    (∀ u ∈ tasks ++ [t], u.When.writable = true) ↔
      (∀ u ∈ tasks, u.When.writable = true) ∧ t.When.writable = true := by
  constructor
  · intro h
    exact ⟨fun u hu => h u (List.mem_append_left _ hu),
      h t (List.mem_append_right _ (List.mem_singleton.mpr rfl))⟩
  · rintro ⟨h1, h2⟩ u hu
    rcases List.mem_append.mp hu with hu | hu
    · exact h1 u hu
    · rw [List.mem_singleton.mp hu]
      exact h2

/-- With at least one argument, and times that `Time.MarshalJSON` accepts, `cmdAdd`
saves the loaded tasks followed by the new task and reports it. -/
theorem cmdAdd_nonempty (tasks : List Task) (args : List GoString) (now : Time)
    (hargs : args ≠ []) (hw : ∀ t ∈ tasks, t.When.writable = true)
    (hnow : now.writable = true) :
    cmdAdd args now tasks =
      ⟨none, some (tasks ++ [⟨nextID tasks, Join args (lit " "), false, now⟩]),
        lit "added " ++ fmtD (nextID tasks) ++ lit ": " ++ Join args (lit " ") ++ lit "\n"⟩ := by
  rw [cmdAdd_args tasks args now hargs]
  exact saveThen_ok _ _ _
    (saveTasks_ok _ ((writable_append tasks ⟨_, _, _, now⟩).mpr ⟨hw, hnow⟩))

/-- With at least one argument and a time that `Time.MarshalJSON` refuses, in the store
or as the current time, `cmdAdd` returns the error of the encoder and saves nothing. -/
theorem cmdAdd_unwritable (tasks : List Task) (args : List GoString) (now : Time)
    (hargs : args ≠ [])
    (hw : ¬ ((∀ t ∈ tasks, t.When.writable = true) ∧ now.writable = true)) :
    ∃ e, cmdAdd args now tasks
      = ⟨some (lit "json: error calling MarshalJSON for type time.Time: " ++ e), none, []⟩ := by
  rw [cmdAdd_args tasks args now hargs]
  obtain ⟨e, he⟩ := saveTasks_error
    (tasks ++ [⟨nextID tasks, Join args (lit " "), false, now⟩])
    (fun h => hw ((writable_append tasks ⟨_, _, _, now⟩).mp h))
  exact ⟨e, saveThen_error _ _ _ he⟩

theorem encoder_error_ne_usage (e : GoString) :
    lit "json: error calling MarshalJSON for type time.Time: " ++ e
      ≠ lit "usage: todo add \"task text\"" := by
  intro h
  have h1 : lit "json: error calling MarshalJSON for type time.Time: "
      = 106 :: lit "son: error calling MarshalJSON for type time.Time: " := by decide
  have h2 : lit "usage: todo add \"task text\"" = 117 :: lit "sage: todo add \"task text\"" := by
    decide
  rw [h1, h2, List.cons_append] at h
  injection h with h _
  revert h
  decide

/-- Claim C8, as the code has it: `add` fails with the usage error, without saving,
exactly when the argument list is empty; the joined text is neither trimmed nor tested,
so with every non-empty argument list `add` goes on to `saveTasks`, and when
`Time.MarshalJSON` accepts the times of the store and the current time, `add` returns an
error, or saves nothing, exactly when the argument list is empty. -/
theorem cmdAdd_fails_iff_no_args (tasks : List Task) (args : List GoString) (now : Time) :
    (cmdAdd [] now tasks = ⟨some (lit "usage: todo add \"task text\""), none, []⟩) ∧
    ((cmdAdd args now tasks).err = some (lit "usage: todo add \"task text\"") ↔ args = []) ∧
    (args ≠ [] →
      cmdAdd args now tasks =
        saveThen (saveTasks (tasks ++ [⟨nextID tasks, Join args (lit " "), false, now⟩]))
          ⟨none, some (tasks ++ [⟨nextID tasks, Join args (lit " "), false, now⟩]),
            lit "added " ++ fmtD (nextID tasks) ++ lit ": " ++ Join args (lit " ")
              ++ lit "\n"⟩) ∧
    ((∀ t ∈ tasks, t.When.writable = true) → now.writable = true →
      ((cmdAdd args now tasks).err ≠ none ↔ args = []) ∧
      ((cmdAdd args now tasks).saved = none ↔ args = [])) := by
  refine ⟨rfl, ?_, cmdAdd_args tasks args now, ?_⟩
  · by_cases h : args = []
    · subst h; simp [cmdAdd]
    · by_cases hw : (∀ t ∈ tasks, t.When.writable = true) ∧ now.writable = true
      · simp [cmdAdd_nonempty tasks args now h hw.1 hw.2, h]
      · obtain ⟨e, he⟩ := cmdAdd_unwritable tasks args now h hw
        simp only [he, Option.some.injEq, h, iff_false]
        exact encoder_error_ne_usage e
  · intro hw hnow
    by_cases h : args = []
    · subst h; simp [cmdAdd]
    · simp [cmdAdd_nonempty tasks args now h hw hnow, h]

/-- Witness of `cmdAdd_fails_iff_no_args`: one argument on a store holding task 1. -/
theorem cmdAdd_fails_iff_no_args_witness :
    [lit "b"] ≠ [] ∧ (∀ t ∈ [mkTask 1 "a" false], t.When.writable = true) ∧
    (⟨lit "2024-05-01T10:00:00Z"⟩ : Time).writable = true ∧
    (cmdAdd [lit "b"] ⟨lit "2024-05-01T10:00:00Z"⟩ [mkTask 1 "a" false]).err = none ∧
    (cmdAdd [lit "b"] ⟨lit "2024-05-01T10:00:00Z"⟩ [mkTask 1 "a" false]).saved
      = some [mkTask 1 "a" false, mkTask 2 "b" false] ∧
    cmdAdd [lit "b"] ⟨lit "2024-05-01T10:00:00Z"⟩ [mkTask 1 "a" false]
      = saveThen (saveTasks ([mkTask 1 "a" false]
            ++ [⟨nextID [mkTask 1 "a" false], Join [lit "b"] (lit " "), false,
                ⟨lit "2024-05-01T10:00:00Z"⟩⟩]))
          ⟨none, some ([mkTask 1 "a" false]
            ++ [⟨nextID [mkTask 1 "a" false], Join [lit "b"] (lit " "), false,
                ⟨lit "2024-05-01T10:00:00Z"⟩⟩]),
            lit "added " ++ fmtD (nextID [mkTask 1 "a" false]) ++ lit ": "
              ++ Join [lit "b"] (lit " ") ++ lit "\n"⟩ ∧
    (((cmdAdd [lit "b"] ⟨lit "2024-05-01T10:00:00Z"⟩ [mkTask 1 "a" false]).err ≠ none
        ↔ [lit "b"] = []) ∧
      ((cmdAdd [lit "b"] ⟨lit "2024-05-01T10:00:00Z"⟩ [mkTask 1 "a" false]).saved = none
        ↔ [lit "b"] = [])) :=
  ⟨by decide, by decide, by decide, by decide, by decide,
   (cmdAdd_fails_iff_no_args [mkTask 1 "a" false] [lit "b"] ⟨lit "2024-05-01T10:00:00Z"⟩).2.2.1
     (by decide),
   (cmdAdd_fails_iff_no_args [mkTask 1 "a" false] [lit "b"] ⟨lit "2024-05-01T10:00:00Z"⟩).2.2.2
     (by decide) (by decide)⟩

/-- Claim C8 fails as stated: with the single argument "" and with the single argument
"   ", whose joined text is empty after trimming, `add` succeeds and saves a task with
that text. -/
theorem cmdAdd_accepts_blank_text :
    cmdAdd [lit ""] ⟨lit "2024-05-01T10:00:00Z"⟩ []
      = ⟨none, some [mkTask 1 "" false], lit "added 1: \n"⟩ ∧
    cmdAdd [lit "   "] ⟨lit "2024-05-01T10:00:00Z"⟩ [mkTask 1 "" false]
      = ⟨none, some [mkTask 1 "" false, mkTask 2 "   " false], lit "added 2:    \n"⟩ := by
  constructor <;> decide

/-! ### `done` (claims C5, C7 and C10) -/

theorem doneLoop_writable (id : Int) (tasks : List Task) :
    (∀ u ∈ (doneLoop id tasks).1, u.When.writable = true) ↔
      ∀ u ∈ tasks, u.When.writable = true := by
  induction tasks with
  | nil => rfl
  | cons a rest ih =>
    by_cases ha : a.ID = id
    · simp [doneLoop, ha]
    · simp [doneLoop, ha, ih]

/-- Claim C5, as the code has it: for every store and every positive id (an `int`) that
some task has, `parseID` accepts the decimal text of the id, and for every argument that
`parseID` reads as this id: when `Time.MarshalJSON` accepts every time of the store,
`done` succeeds and writes the old sequence with the first task of that id replaced by
itself with `Done = true`, every other task, and the id, text and time of the marked
task, being as before; when it refuses a time of the store, `done` returns the error of
the encoder and writes nothing. -/
theorem cmdDone_marks_first (tasks : List Task) (id : Int)
    (hpos : 0 < id) (hmax : id ≤ maxInt) (hmem : ∃ t ∈ tasks, t.ID = id) :
    parseID (fmtD id) = .ok id ∧
    ∀ arg, parseID arg = .ok id →
      ∃ front t back, tasks = front ++ t :: back ∧ (∀ u ∈ front, u.ID ≠ id) ∧ t.ID = id ∧
        ((∀ u ∈ tasks, u.When.writable = true) →
          cmdDone [arg] tasks =
            ⟨none, some (front ++ ⟨t.ID, t.Text, true, t.When⟩ :: back),
              lit "marked " ++ fmtD id ++ lit " done\n"⟩ ∧
          saveTasks (front ++ ⟨t.ID, t.Text, true, t.When⟩ :: back)
            = .ok (indentBytes (front ++ ⟨t.ID, t.Text, true, t.When⟩ :: back))) ∧
        ((¬ ∀ u ∈ tasks, u.When.writable = true) →
          (∃ e, cmdDone [arg] tasks
            = ⟨some (lit "json: error calling MarshalJSON for type time.Time: " ++ e),
                none, []⟩) ∧
          (cmdDone [arg] tasks).storeAfter tasks = tasks) := by
  refine ⟨parseID_fmtD id hpos hmax, ?_⟩
  intro arg hp
  obtain ⟨front, t, back, hsplit, hfront, ht, hloop⟩ := doneLoop_split id tasks hmem
  have hres : (doneLoop id tasks).1 = front ++ ⟨t.ID, t.Text, true, t.When⟩ :: back := by
    rw [hloop]
  have hcmd : cmdDone [arg] tasks
      = saveThen (saveTasks (doneLoop id tasks).1)
          ⟨none, some (doneLoop id tasks).1, lit "marked " ++ fmtD id ++ lit " done\n"⟩ := by
    rw [cmdDone_parsed arg id tasks hp, hloop]
    simp
  refine ⟨front, t, back, hsplit, hfront, ht, ?_, ?_⟩
  · intro hw
    have hs := saveTasks_ok _ ((doneLoop_writable id tasks).mpr hw)
    refine ⟨?_, by rw [← hres]; exact hs⟩
    rw [hcmd, saveThen_ok _ _ _ hs, hres]
  · intro hw
    obtain ⟨e, he⟩ := saveTasks_error (doneLoop id tasks).1
      (fun h => hw ((doneLoop_writable id tasks).mp h))
    have hfail := saveThen_error _ _
      ⟨none, some (doneLoop id tasks).1, lit "marked " ++ fmtD id ++ lit " done\n"⟩ he
    refine ⟨⟨e, by rw [hcmd, hfail]⟩, ?_⟩
    rw [hcmd, hfail]
    rfl

/-- Witness of `cmdDone_marks_first`: `done 2` on a store where two tasks share id 2,
and `done 1` on a store whose task has a zone offset of 24 hours. -/
theorem cmdDone_marks_first_witness :
    (0 : Int) < 2 ∧ (2 : Int) ≤ maxInt ∧
    (∃ t ∈ [mkTask 1 "a" false, mkTask 2 "b" false, mkTask 2 "c" false], t.ID = 2) ∧
    (∀ u ∈ [mkTask 1 "a" false, mkTask 2 "b" false, mkTask 2 "c" false],
      u.When.writable = true) ∧
    cmdDone [lit "2"] [mkTask 1 "a" false, mkTask 2 "b" false, mkTask 2 "c" false]
      = ⟨none, some [mkTask 1 "a" false, mkTask 2 "b" true, mkTask 2 "c" false],
          lit "marked 2 done\n"⟩ ∧
    (¬ ∀ u ∈ [(⟨1, lit "a", false, ⟨lit "2024-05-01T10:00:00+24:00"⟩⟩ : Task)],
      u.When.writable = true) ∧
    cmdDone [lit "1"] [⟨1, lit "a", false, ⟨lit "2024-05-01T10:00:00+24:00"⟩⟩]
      = ⟨some (lit "json: error calling MarshalJSON for type time.Time: Time.MarshalJSON: timezone hour outside of range [0,23]"),
          none, []⟩ ∧
    (parseID (fmtD 2) = .ok 2 ∧
      ∀ arg, parseID arg = .ok 2 →
        ∃ front t back,
          [mkTask 1 "a" false, mkTask 2 "b" false, mkTask 2 "c" false] = front ++ t :: back ∧
          (∀ u ∈ front, u.ID ≠ 2) ∧ t.ID = 2 ∧
          ((∀ u ∈ [mkTask 1 "a" false, mkTask 2 "b" false, mkTask 2 "c" false],
              u.When.writable = true) →
            cmdDone [arg] [mkTask 1 "a" false, mkTask 2 "b" false, mkTask 2 "c" false] =
              ⟨none, some (front ++ ⟨t.ID, t.Text, true, t.When⟩ :: back),
                lit "marked " ++ fmtD 2 ++ lit " done\n"⟩ ∧
            saveTasks (front ++ ⟨t.ID, t.Text, true, t.When⟩ :: back)
              = .ok (indentBytes (front ++ ⟨t.ID, t.Text, true, t.When⟩ :: back))) ∧
          ((¬ ∀ u ∈ [mkTask 1 "a" false, mkTask 2 "b" false, mkTask 2 "c" false],
              u.When.writable = true) →
            (∃ e, cmdDone [arg] [mkTask 1 "a" false, mkTask 2 "b" false, mkTask 2 "c" false]
              = ⟨some (lit "json: error calling MarshalJSON for type time.Time: " ++ e),
                  none, []⟩) ∧
            (cmdDone [arg] [mkTask 1 "a" false, mkTask 2 "b" false,
                mkTask 2 "c" false]).storeAfter
              [mkTask 1 "a" false, mkTask 2 "b" false, mkTask 2 "c" false]
              = [mkTask 1 "a" false, mkTask 2 "b" false, mkTask 2 "c" false])) :=
  ⟨by decide, by decide, ⟨mkTask 2 "b" false, by decide, rfl⟩, by decide, by decide,
   by decide, by decide,
   cmdDone_marks_first _ 2 (by decide) (by decide) ⟨mkTask 2 "b" false, by decide, rfl⟩⟩

/-- Claim C5 fails as stated: in a store whose task has id 0, the id 0 is one that some
task has, yet `done 0` fails with the invalid id error and saves nothing; and in a store
whose task has id 1 and a time with a zone offset of 24 hours, which `loadTasks` reads
from the file without error, `done 1` fails with the error of the encoder and saves
nothing. -/
theorem cmdDone_rejects_present_zero :
    ((∃ t ∈ [mkTask 0 "a" false], t.ID = 0) ∧
      fmtD 0 = lit "0" ∧
      cmdDone [lit "0"] [mkTask 0 "a" false] = ⟨some (lit "invalid id: 0"), none, []⟩) ∧
    (loadTasks anyTime (some (lit "[\x7b\"id\":1,\"text\":\"a\",\"done\":false,\"when\":\"2024-05-01T10:00:00+24:00\"\x7d]"))
        = .ok [⟨1, lit "a", false, ⟨lit "2024-05-01T10:00:00+24:00"⟩⟩] ∧
      cmdDone [lit "1"] [⟨1, lit "a", false, ⟨lit "2024-05-01T10:00:00+24:00"⟩⟩]
        = ⟨some (lit "json: error calling MarshalJSON for type time.Time: Time.MarshalJSON: timezone hour outside of range [0,23]"),
            none, []⟩) :=
  ⟨⟨⟨mkTask 0 "a" false, by decide, rfl⟩, by decide, by decide⟩, by decide, by decide⟩
/-- Claim C7: for every store and every positive id (an `int`) that no task has,
`parseID` accepts the decimal text of the id, and for every argument that `parseID`
reads as this id `done` and `rm` both fail with the error "task <id> not found" and
neither saves, so the stored file stays as it was. -/
theorem cmd_not_found (tasks : List Task) (id : Int)
    (hpos : 0 < id) (hmax : id ≤ maxInt) (habs : ∀ t ∈ tasks, t.ID ≠ id) :
    parseID (fmtD id) = .ok id ∧
    ∀ arg, parseID arg = .ok id →
      cmdDone [arg] tasks = ⟨some (lit "task " ++ fmtD id ++ lit " not found"), none, []⟩ ∧
      cmdRm [arg] tasks = ⟨some (lit "task " ++ fmtD id ++ lit " not found"), none, []⟩ ∧
      (cmdDone [arg] tasks).storeAfter tasks = tasks ∧
      (cmdRm [arg] tasks).storeAfter tasks = tasks := by
  refine ⟨parseID_fmtD id hpos hmax, ?_⟩
  intro arg hp
  have hd : cmdDone [arg] tasks
      = ⟨some (lit "task " ++ fmtD id ++ lit " not found"), none, []⟩ := by
    rw [cmdDone_parsed arg id tasks hp, doneLoop_absent id tasks habs]
    simp
  have hr : cmdRm [arg] tasks
      = ⟨some (lit "task " ++ fmtD id ++ lit " not found"), none, []⟩ := by
    have hf : (rmLoop id tasks).found = false := by
      rw [rmLoop_found]
      simpa using habs
    rw [cmdRm_parsed arg id tasks hp, hf]
    simp
  refine ⟨hd, hr, ?_, ?_⟩
  · rw [hd]; rfl
  · rw [hr]; rfl

/-- Witness of `cmd_not_found`: id 99 on a store with ids 1 and 2, and on the empty
store. -/
theorem cmd_not_found_witness :
    (0 : Int) < 99 ∧ (99 : Int) ≤ maxInt ∧
    (∀ t ∈ [mkTask 1 "buy milk" true, mkTask 2 "call mom" false], t.ID ≠ 99) ∧
    cmdDone [lit "99"] [mkTask 1 "buy milk" true, mkTask 2 "call mom" false]
      = ⟨some (lit "task 99 not found"), none, []⟩ ∧
    cmdRm [lit "99"] [] = ⟨some (lit "task 99 not found"), none, []⟩ ∧
    (parseID (fmtD 99) = .ok 99 ∧
      ∀ arg, parseID arg = .ok 99 →
        cmdDone [arg] [mkTask 1 "buy milk" true, mkTask 2 "call mom" false]
          = ⟨some (lit "task " ++ fmtD 99 ++ lit " not found"), none, []⟩ ∧
        cmdRm [arg] [mkTask 1 "buy milk" true, mkTask 2 "call mom" false]
          = ⟨some (lit "task " ++ fmtD 99 ++ lit " not found"), none, []⟩ ∧
        (cmdDone [arg] [mkTask 1 "buy milk" true, mkTask 2 "call mom" false]).storeAfter
          [mkTask 1 "buy milk" true, mkTask 2 "call mom" false]
          = [mkTask 1 "buy milk" true, mkTask 2 "call mom" false] ∧
        (cmdRm [arg] [mkTask 1 "buy milk" true, mkTask 2 "call mom" false]).storeAfter
          [mkTask 1 "buy milk" true, mkTask 2 "call mom" false]
          = [mkTask 1 "buy milk" true, mkTask 2 "call mom" false]) :=
  ⟨by decide, by decide, by decide, by decide, by decide,
   cmd_not_found [mkTask 1 "buy milk" true, mkTask 2 "call mom" false] 99
     (by decide) (by decide) (by decide)⟩

/-- Claim C10: whenever a call of `done` succeeds and saves a store, the same call on
that store succeeds again, with no error, and saves the very same store; in it the first
task with the id still has `Done = true`. -/
theorem cmdDone_twice (tasks s1 : List Task) (args : List GoString)
    (h : (cmdDone args tasks).saved = some s1) :
    (cmdDone args tasks).err = none ∧
    (cmdDone args s1).err = none ∧
    (cmdDone args s1).saved = some s1 ∧
    cmdDone args s1 = cmdDone args tasks ∧
    ∃ arg id, args = [arg] ∧ parseID arg = .ok id ∧
      ∃ front t back, s1 = front ++ t :: back ∧ (∀ u ∈ front, u.ID ≠ id) ∧ t.ID = id ∧
        t.Done = true := by
  obtain ⟨arg, id, rfl, hp, hfound, hs1⟩ := cmdDone_saved args tasks s1 h
  subst hs1
  have hmem : ∃ t ∈ tasks, t.ID = id := by
    rw [doneLoop_found] at hfound
    simpa using hfound
  obtain ⟨front, t, back, hsplit, hfront, ht, hloop⟩ := doneLoop_split id tasks hmem
  have h2 : cmdDone [arg] (doneLoop id tasks).1 = cmdDone [arg] tasks := by
    rw [cmdDone_parsed arg id _ hp, cmdDone_parsed arg id tasks hp, doneLoop_idem]
  have hs := saved_writable [arg] ⟨[]⟩ tasks _ (Or.inr (Or.inl h))
  have h1 : cmdDone [arg] tasks
      = ⟨none, some (doneLoop id tasks).1, lit "marked " ++ fmtD id ++ lit " done\n"⟩ := by
    rw [cmdDone_parsed arg id tasks hp, hfound, saveThen_ok _ _ _ hs]
    simp
  refine ⟨by rw [h1], by rw [h2, h1], by rw [h2, h1], h2, arg, id, rfl, hp, ?_⟩
  refine ⟨front, ⟨t.ID, t.Text, true, t.When⟩, back, ?_, hfront, ht, rfl⟩
  rw [hloop]

/-- Witness of `cmdDone_twice`: `done 1` on a store with ids 1 and 2. -/
theorem cmdDone_twice_witness :
    (cmdDone [lit "1"] [mkTask 1 "buy milk" false, mkTask 2 "call mom" false]).saved
      = some [mkTask 1 "buy milk" true, mkTask 2 "call mom" false] ∧
    (cmdDone [lit "1"] [mkTask 1 "buy milk" true, mkTask 2 "call mom" false]).err = none ∧
    (cmdDone [lit "1"] [mkTask 1 "buy milk" true, mkTask 2 "call mom" false]).saved
      = some [mkTask 1 "buy milk" true, mkTask 2 "call mom" false] :=
  have h : (cmdDone [lit "1"] [mkTask 1 "buy milk" false, mkTask 2 "call mom" false]).saved
      = some [mkTask 1 "buy milk" true, mkTask 2 "call mom" false] := by decide
  ⟨h, (cmdDone_twice _ _ [lit "1"] h).2.1, (cmdDone_twice _ _ [lit "1"] h).2.2.1⟩

/-! ### `rm` (claim C6) -/

theorem filter_ne_of_nodup (front back : List Task) (t : Task)
    (hnd : ((front ++ t :: back).map (fun u => u.ID)).Nodup) :
    (front ++ t :: back).filter (fun u => decide (u.ID ≠ t.ID)) = front ++ back ∧
    ∀ u ∈ front ++ back, u.ID ≠ t.ID := by
  have hne : ∀ u ∈ front ++ back, u.ID ≠ t.ID := by
    rw [List.map_append, List.map_cons] at hnd
    have hperm : (front.map (fun u => u.ID) ++ t.ID :: back.map (fun u => u.ID)).Perm
        (t.ID :: (front.map (fun u => u.ID) ++ back.map (fun u => u.ID))) :=
      List.perm_middle
    have hnd' := (hperm.nodup_iff).mp hnd
    rw [List.nodup_cons] at hnd'
    intro u hu hEq
    apply hnd'.1
    rw [← hEq, ← List.map_append]
    exact List.mem_map_of_mem _ hu
  refine ⟨?_, hne⟩
  rw [List.filter_append, List.filter_cons]
  simp only [ne_eq, not_true_eq_false, decide_False, Bool.false_eq_true, if_false]
  rw [← List.filter_append]
  apply List.filter_eq_self.mpr
  intro u hu
  simpa using hne u hu

/-- Claim C6, as the code has it: for every store with distinct ids and every positive
id (an `int`) that some task has, `parseID` accepts the decimal text of the id, and for
every argument that `parseID` reads as this id: when `Time.MarshalJSON` accepts the time
of every other task, `rm` succeeds and writes the old sequence with exactly the task of
that id deleted, the tasks before and after it being kept unchanged and in order and
the length going down by one; when it refuses the time of another task, `rm` returns the
error of the encoder and writes nothing. -/
theorem cmdRm_deletes (tasks : List Task) (id : Int)
    (hnd : (tasks.map (fun t => t.ID)).Nodup)
    (hpos : 0 < id) (hmax : id ≤ maxInt) (hmem : ∃ t ∈ tasks, t.ID = id) :
    parseID (fmtD id) = .ok id ∧
    ∀ arg, parseID arg = .ok id →
      ∃ front t back, tasks = front ++ t :: back ∧ t.ID = id ∧
        (∀ u ∈ front ++ back, u.ID ≠ id) ∧
        (front ++ back).length + 1 = tasks.length ∧
        ((∀ u ∈ front ++ back, u.When.writable = true) →
          cmdRm [arg] tasks =
            ⟨none, some (front ++ back), lit "removed " ++ fmtD id ++ lit "\n"⟩ ∧
          saveTasks (front ++ back) = .ok (indentBytes (front ++ back))) ∧
        ((¬ ∀ u ∈ front ++ back, u.When.writable = true) →
          (∃ e, cmdRm [arg] tasks
            = ⟨some (lit "json: error calling MarshalJSON for type time.Time: " ++ e),
                none, []⟩) ∧
          (cmdRm [arg] tasks).storeAfter tasks = tasks) := by
  refine ⟨parseID_fmtD id hpos hmax, ?_⟩
  intro arg hp
  obtain ⟨t, ht, hid⟩ := hmem
  obtain ⟨front, back, hsplit⟩ := List.append_of_mem ht
  subst hsplit
  subst hid
  obtain ⟨hfilter, hne⟩ := filter_ne_of_nodup front back t hnd
  have hf : (rmLoop t.ID (front ++ t :: back)).found = true := by
    rw [rmLoop_found]
    simp
  have hcmd : cmdRm [arg] (front ++ t :: back)
      = saveThen (saveTasks (front ++ back))
          ⟨none, some (front ++ back), lit "removed " ++ fmtD t.ID ++ lit "\n"⟩ := by
    rw [cmdRm_parsed arg t.ID _ hp, hf, rmLoop_newTasks, hfilter]
    simp
  refine ⟨front, t, back, rfl, rfl, hne,
    by simp only [List.length_append, List.length_cons]; omega, ?_, ?_⟩
  · intro hw
    have hs := saveTasks_ok _ hw
    exact ⟨by rw [hcmd, saveThen_ok _ _ _ hs], hs⟩
  · intro hw
    obtain ⟨e, he⟩ := saveTasks_error (front ++ back) hw
    have hfail := saveThen_error _ _
      ⟨none, some (front ++ back), lit "removed " ++ fmtD t.ID ++ lit "\n"⟩ he
    refine ⟨⟨e, by rw [hcmd, hfail]⟩, ?_⟩
    rw [hcmd, hfail]
    rfl

/-- Witness of `cmdRm_deletes`: `rm 2` on a store with ids 1, 2 and 3, and `rm 2` on a
store whose other task has a zone offset of 24 hours. -/
theorem cmdRm_deletes_witness :
    ([mkTask 1 "a" false, mkTask 2 "b" true, mkTask 3 "c" false].map (fun t => t.ID)).Nodup ∧
    (0 : Int) < 2 ∧ (2 : Int) ≤ maxInt ∧
    (∃ t ∈ [mkTask 1 "a" false, mkTask 2 "b" true, mkTask 3 "c" false], t.ID = 2) ∧
    (∀ u ∈ [mkTask 1 "a" false, mkTask 3 "c" false], u.When.writable = true) ∧
    cmdRm [lit "2"] [mkTask 1 "a" false, mkTask 2 "b" true, mkTask 3 "c" false]
      = ⟨none, some [mkTask 1 "a" false, mkTask 3 "c" false], lit "removed 2\n"⟩ ∧
    cmdRm [lit "2"] [⟨1, lit "a", false, ⟨lit "2024-05-01T10:00:00+24:00"⟩⟩, mkTask 2 "b" true]
      = ⟨some (lit "json: error calling MarshalJSON for type time.Time: Time.MarshalJSON: timezone hour outside of range [0,23]"),
          none, []⟩ ∧
    (parseID (fmtD 2) = .ok 2 ∧
      ∀ arg, parseID arg = .ok 2 →
        ∃ front t back,
          [mkTask 1 "a" false, mkTask 2 "b" true, mkTask 3 "c" false] = front ++ t :: back ∧
          t.ID = 2 ∧ (∀ u ∈ front ++ back, u.ID ≠ 2) ∧
          (front ++ back).length + 1
            = [mkTask 1 "a" false, mkTask 2 "b" true, mkTask 3 "c" false].length ∧
          ((∀ u ∈ front ++ back, u.When.writable = true) →
            cmdRm [arg] [mkTask 1 "a" false, mkTask 2 "b" true, mkTask 3 "c" false] =
              ⟨none, some (front ++ back), lit "removed " ++ fmtD 2 ++ lit "\n"⟩ ∧
            saveTasks (front ++ back) = .ok (indentBytes (front ++ back))) ∧
          ((¬ ∀ u ∈ front ++ back, u.When.writable = true) →
            (∃ e, cmdRm [arg] [mkTask 1 "a" false, mkTask 2 "b" true, mkTask 3 "c" false]
              = ⟨some (lit "json: error calling MarshalJSON for type time.Time: " ++ e),
                  none, []⟩) ∧
            (cmdRm [arg] [mkTask 1 "a" false, mkTask 2 "b" true,
                mkTask 3 "c" false]).storeAfter
              [mkTask 1 "a" false, mkTask 2 "b" true, mkTask 3 "c" false]
              = [mkTask 1 "a" false, mkTask 2 "b" true, mkTask 3 "c" false])) :=
  ⟨by decide, by decide, by decide, ⟨mkTask 2 "b" true, by decide, rfl⟩, by decide,
   by decide, by decide,
   cmdRm_deletes _ 2 (by decide) (by decide) (by decide)
     ⟨mkTask 2 "b" true, by decide, rfl⟩⟩

/-- Claim C6 fails as stated: in a store whose single task has id 0 the ids are distinct
and the id 0 is present, yet `rm 0` fails with the invalid id error and saves nothing;
and in a store with the distinct ids 1 and 2 whose task 1 has a time with a zone offset
of 24 hours, which `loadTasks` reads from the file without error, `rm 2` fails with the
error of the encoder and saves nothing. -/
theorem cmdRm_rejects_present_zero :
    (([mkTask 0 "a" false].map (fun t => t.ID)).Nodup ∧
      (∃ t ∈ [mkTask 0 "a" false], t.ID = 0) ∧
      fmtD 0 = lit "0" ∧
      cmdRm [lit "0"] [mkTask 0 "a" false] = ⟨some (lit "invalid id: 0"), none, []⟩) ∧
    (loadTasks anyTime (some (lit "[\x7b\"id\":1,\"text\":\"a\",\"done\":false,\"when\":\"2024-05-01T10:00:00+24:00\"\x7d,\x7b\"id\":2,\"text\":\"b\",\"done\":true,\"when\":\"2024-05-01T10:00:00Z\"\x7d]"))
        = .ok [⟨1, lit "a", false, ⟨lit "2024-05-01T10:00:00+24:00"⟩⟩, mkTask 2 "b" true] ∧
      cmdRm [lit "2"]
          [⟨1, lit "a", false, ⟨lit "2024-05-01T10:00:00+24:00"⟩⟩, mkTask 2 "b" true]
        = ⟨some (lit "json: error calling MarshalJSON for type time.Time: Time.MarshalJSON: timezone hour outside of range [0,23]"),
            none, []⟩) :=
  ⟨⟨by decide, ⟨mkTask 0 "a" false, by decide, rfl⟩, by decide, by decide⟩,
   by set_option maxRecDepth 8000 in decide, by decide⟩

/-! ### Sessions of `add` and `rm` (claim C3) -/

theorem nextIDLoop_append (m0 : Int) (l : List Task) (t : Task) :
    nextIDLoop m0 (l ++ [t])
      = if t.ID > nextIDLoop m0 l then t.ID else nextIDLoop m0 l := by
  induction l generalizing m0 with
  | nil => rfl
  | cons a rest ih =>
    rw [List.cons_append]
    simp only [nextIDLoop]
    exact ih _

/-- The loop of `nextID` over a part of the store is bounded by the loop over the
store. -/
theorem nextIDLoop_le_of_subset (l l' : List Task) (h : ∀ t ∈ l', t ∈ l) :
    nextIDLoop 0 l' ≤ nextIDLoop 0 l := by
  rcases nextIDLoop_attained l' 0 with h0 | ⟨u, hu, hEq⟩
  · rw [h0]; exact nextIDLoop_ge l 0
  · rw [← hEq]; exact nextIDLoop_upper l 0 u (h u hu)

/-- A failed or argument-less `add` has no event and leaves the store; a successful
one assigns `nextID` of the store and appends one task with that id. -/
theorem add_step (args : List GoString) (now : Time) (store : List Task) :
    ((Op.add args now).events store = [] ∧
      ((Op.add args now).run store).storeAfter store = store) ∨
    ((Op.add args now).events store = [Event.assigned (nextID store)] ∧
      ∃ t : Task, t.ID = nextID store ∧
        ((Op.add args now).run store).storeAfter store = store ++ [t]) := by
  by_cases h : args = []
  · left
    subst h
    constructor <;> rfl
  · by_cases hw : (∀ t ∈ store, t.When.writable = true) ∧ now.writable = true
    · right
      have ht := cmdAdd_nonempty store args now h hw.1 hw.2
      constructor
      · simp only [Op.events, Op.run, ht, List.drop_left, List.map_cons, List.map_nil]
      · exact ⟨⟨nextID store, Join args (lit " "), false, now⟩, rfl,
          by simp only [Op.run, ht, Outcome.storeAfter, Option.getD_some]⟩
    · left
      obtain ⟨e, he⟩ := cmdAdd_unwritable store args now h hw
      constructor
      · simp only [Op.events, Op.run, he]
      · simp only [Op.run, he, Outcome.storeAfter, Option.getD_none]

/-- A failed `rm` has no event and leaves the store; a successful one for id `id`
keeps the tasks whose id differs, and all its events are removals of `id`, which some
task of the store has. -/
theorem rm_step (args : List GoString) (store : List Task) :
    ((Op.rm args).events store = [] ∧
      ((Op.rm args).run store).storeAfter store = store) ∨
    (∃ id : Int, (∃ t ∈ store, t.ID = id) ∧
      (∀ e ∈ (Op.rm args).events store, e = Event.removed id) ∧
      ((Op.rm args).events store ≠ []) ∧
      ((Op.rm args).run store).storeAfter store
        = store.filter (fun t => decide (t.ID ≠ id))) := by
  cases hs : (cmdRm args store).saved with
  | none =>
    left
    constructor
    · simp only [Op.events, Op.run, hs]
    · simp only [Op.run, Outcome.storeAfter, hs, Option.getD_none]
  | some s =>
    right
    obtain ⟨arg, id, -, -, hmem, rfl⟩ := cmdRm_saved args store s hs
    refine ⟨id, hmem, ?_, ?_, ?_⟩
    · intro e he
      simp only [Op.events, Op.run, hs, List.mem_map, List.mem_filter,
        decide_eq_true_eq] at he
      obtain ⟨t, ⟨ht, hnot⟩, rfl⟩ := he
      have : t.ID = id := by
        by_contra hne
        exact hnot ⟨ht, hne⟩
      rw [this]
    · obtain ⟨t, ht, hid⟩ := hmem
      have hin : Event.removed t.ID ∈ (Op.rm args).events store := by
        simp only [Op.events, Op.run, hs, List.mem_map, List.mem_filter,
          decide_eq_true_eq]
        refine ⟨t, ⟨ht, ?_⟩, rfl⟩
        intro hmem'
        exact hmem'.2 hid
      intro hnil
      rw [hnil] at hin
      cases hin
    · simp only [Op.run, Outcome.storeAfter, hs, Option.getD_some]

/-- The invariant behind claim C3: in a session that never removes a task holding the
largest id and cannot overflow, every id assigned later is above the current largest id,
and no removed id is assigned again. -/
theorem trace_noReuse_from (ops : List Op) :
    ∀ store : List Task,
      nextIDLoop 0 store + (ops.length : Int) < maxInt →
      keepsMax store ops = true →
      NoReuse (trace store ops) ∧
      ∀ e ∈ trace store ops, ∀ a, e = Event.assigned a → nextIDLoop 0 store < a := by
  induction ops with
  | nil =>
    intro store _ _
    exact ⟨List.Pairwise.nil, by intro e he; cases he⟩
  | cons op ops ih =>
    intro store hb hk
    simp only [keepsMax, Bool.and_eq_true, Bool.not_eq_true'] at hk
    obtain ⟨hmax, hk'⟩ := hk
    simp only [List.length_cons, Nat.cast_add, Nat.cast_one] at hb
    have hlt : ∀ t ∈ store, t.ID < maxInt := by
      intro t ht
      have := nextIDLoop_upper store 0 t ht
      omega
    cases op with
    | add args now =>
      rcases add_step args now store with ⟨hev, hst⟩ | ⟨hev, t, hid, hst⟩
      · simp only [trace, hev, hst, List.nil_append]
        rw [hst] at hk'
        exact ih store (by omega) hk'
      · have hnext := nextID_eq_loop store hlt
        have hloop : nextIDLoop 0 (store ++ [t]) = nextIDLoop 0 store + 1 := by
          rw [nextIDLoop_append, hid, hnext, if_pos (by omega)]
        rw [hst] at hk'
        obtain ⟨ih1, ih2⟩ := ih (store ++ [t]) (by omega) hk'
        simp only [trace, hev, hst, List.singleton_append]
        constructor
        · refine List.Pairwise.cons ?_ ih1
          intro e _
          rfl
        · intro e he a ha
          rcases List.mem_cons.mp he with rfl | he
          · injection ha with ha
            omega
          · have := ih2 e he a ha
            omega
    | rm args =>
      rcases rm_step args store with ⟨hev, hst⟩ | ⟨id, ⟨t, ht, hid⟩, hev, hne, hst⟩
      · simp only [trace, hev, hst, List.nil_append]
        rw [hst] at hk'
        exact ih store (by omega) hk'
      · rw [hst] at hk'
        have hle : nextIDLoop 0 (store.filter (fun t => decide (t.ID ≠ id)))
            ≤ nextIDLoop 0 store :=
          nextIDLoop_le_of_subset store _ (fun u hu => List.mem_of_mem_filter hu)
        obtain ⟨ih1, ih2⟩ := ih _ (by omega) hk'
        -- some task with a larger id stays in the store
        have hbig : ∃ u ∈ store, id < u.ID := by
          obtain ⟨e, he⟩ := List.exists_mem_of_ne_nil _ hne
          have hfalse := hmax
          simp only [Op.removesMax, List.any_eq_false] at hfalse
          have := hfalse e he
          rw [hev e he] at this
          simp only [List.all_eq_true, decide_eq_true_eq, Bool.not_eq_true,
            not_forall] at this
          simpa using this
        obtain ⟨u, hu, hgt⟩ := hbig
        have hkeep : nextIDLoop 0 store
            ≤ nextIDLoop 0 (store.filter (fun t => decide (t.ID ≠ id))) := by
          rcases nextIDLoop_attained store 0 with h0 | ⟨v, hv, hEq⟩
          · rw [h0]; exact nextIDLoop_ge _ 0
          · have hvu := nextIDLoop_upper store 0 u hu
            have hvne : v.ID ≠ id := by omega
            rw [← hEq]
            exact nextIDLoop_upper _ 0 v (List.mem_filter.mpr ⟨hv, by simpa using hvne⟩)
        have hidle : id ≤ nextIDLoop 0 store := by
          rw [← hid]; exact nextIDLoop_upper store 0 t ht
        simp only [trace, hst]
        constructor
        · refine List.pairwise_append.mpr ⟨?_, ih1, ?_⟩
          · refine List.Pairwise.imp_of_mem ?_ (List.pairwise_of_forall (R := fun _ _ => True)
              (l := (Op.rm args).events store) (fun _ _ => trivial))
            intro e1 e2 h1 h2 _
            rw [hev e1 h1, hev e2 h2]
            rfl
          · intro e1 h1 e2 h2
            rw [hev e1 h1]
            cases e2 with
            | removed r => rfl
            | assigned a =>
              have := ih2 _ h2 a rfl
              simp only [reuses, decide_eq_false_iff_not]
              omega
        · intro e he a ha
          rcases List.mem_append.mp he with he | he
          · rw [hev e he] at ha
            cases ha
          · have := ih2 e he a ha
            omega

/-- Claim C3, as the code has it: for every session of fewer than 2^63 - 1 `add` and
`rm` invocations starting from the empty store in which no `rm` removes a task holding
the largest id of the store it runs on, the id that `add` assigns is never the id of a
task removed earlier. -/
theorem freed_id_not_reused (ops : List Op) (hlen : (ops.length : Int) < maxInt)
    (hkeep : keepsMax [] ops = true) : NoReuse (trace [] ops) :=
  (trace_noReuse_from ops [] (by simpa [nextIDLoop] using hlen) hkeep).1

/-- Claim C3 fails as stated: from the empty store, `add a`, `rm 1`, `add b` assigns
id 1, removes the task with id 1 and assigns id 1 again. -/
theorem freed_id_reused :
    trace [] [Op.add [lit "a"] ⟨lit "2024-05-01T10:00:00Z"⟩, Op.rm [lit "1"],
        Op.add [lit "b"] ⟨lit "2024-05-02T10:00:00Z"⟩]
      = [Event.assigned 1, Event.removed 1, Event.assigned 1] ∧
    ¬ NoReuse (trace [] [Op.add [lit "a"] ⟨lit "2024-05-01T10:00:00Z"⟩, Op.rm [lit "1"],
        Op.add [lit "b"] ⟨lit "2024-05-02T10:00:00Z"⟩]) := by
  have h : trace [] [Op.add [lit "a"] ⟨lit "2024-05-01T10:00:00Z"⟩, Op.rm [lit "1"],
        Op.add [lit "b"] ⟨lit "2024-05-02T10:00:00Z"⟩]
      = [Event.assigned 1, Event.removed 1, Event.assigned 1] := by decide
  refine ⟨h, ?_⟩
  rw [h]
  unfold NoReuse
  decide

/-- Witness of `freed_id_not_reused`: `add a`, `add b`, `rm 1`, `add c` never removes
the largest id, and the last `add` assigns 3. -/
theorem freed_id_not_reused_witness :
    keepsMax [] [Op.add [lit "a"] ⟨lit "2024-05-01T10:00:00Z"⟩,
        Op.add [lit "b"] ⟨lit "2024-05-01T11:00:00Z"⟩, Op.rm [lit "1"],
        Op.add [lit "c"] ⟨lit "2024-05-01T12:00:00Z"⟩] = true ∧
    trace [] [Op.add [lit "a"] ⟨lit "2024-05-01T10:00:00Z"⟩,
        Op.add [lit "b"] ⟨lit "2024-05-01T11:00:00Z"⟩, Op.rm [lit "1"],
        Op.add [lit "c"] ⟨lit "2024-05-01T12:00:00Z"⟩]
      = [Event.assigned 1, Event.assigned 2, Event.removed 1, Event.assigned 3] ∧
    NoReuse (trace [] [Op.add [lit "a"] ⟨lit "2024-05-01T10:00:00Z"⟩,
        Op.add [lit "b"] ⟨lit "2024-05-01T11:00:00Z"⟩, Op.rm [lit "1"],
        Op.add [lit "c"] ⟨lit "2024-05-01T12:00:00Z"⟩]) :=
  ⟨by decide, by decide, freed_id_not_reused _ (by decide) (by decide)⟩

/-! ### UTF-8 -/

theorem ofNat_eq_of_toNat (n : Nat) (b : UInt8) (h : n = b.toNat) : UInt8.ofNat n = b := by
  rw [h, ofNat_toNat]

/-- A byte sequence that `DecodeRune` accepts as a rune of two to four bytes: the sequence
is what `EncodeRune` writes for that rune, all its bytes are at least 0x80, and it is
decoded the same way whatever follows it. -/
theorem DecodeRune_valid (p0 : UInt8) (rest : GoString) (h80 : 0x80 ≤ p0.toNat)
    (hok : ¬((DecodeRune (p0 :: rest)).1 = RuneError ∧ (DecodeRune (p0 :: rest)).2 = 1)) :
    ∃ chunk tail, p0 :: rest = chunk ++ tail ∧
      chunk.length = (DecodeRune (p0 :: rest)).2 ∧ 2 ≤ chunk.length ∧
      EncodeRune (DecodeRune (p0 :: rest)).1 = chunk ∧
      (∀ b ∈ chunk, 0x80 ≤ b.toNat) ∧
      ∀ tail', DecodeRune (chunk ++ tail') = DecodeRune (p0 :: rest) := by
  have hp := toNat_lt p0
  have hlt : ¬ p0.toNat < 0x80 := by omega
  by_cases hrange : p0.toNat < 0xC2 ∨ 0xF4 < p0.toNat
  · exfalso; apply hok; simp [DecodeRune, hlt, hrange]
  cases rest with
  | nil => exfalso; apply hok; simp [DecodeRune, hlt, hrange]
  | cons b1 rest1 =>
    have hb1 := toNat_lt b1
    by_cases hacc : b1.toNat
          < (if p0.toNat = 0xE0 then 0xA0 else if p0.toNat = 0xF0 then 0x90 else 0x80)
        ∨ (if p0.toNat = 0xED then 0x9F else if p0.toNat = 0xF4 then 0x8F else 0xBF)
          < b1.toNat
    · exfalso; apply hok; simp [DecodeRune, hlt, hrange, hacc]
    by_cases h2 : p0.toNat < 0xE0
    · -- two bytes
      have hdec : ∀ t, DecodeRune (p0 :: b1 :: t)
          = (p0.toNat % 32 * 64 + b1.toNat % 64, 2) := by
        intro t; simp [DecodeRune, hlt, hrange, hacc, h2]
      have hacc' : 0x80 ≤ b1.toNat ∧ b1.toNat ≤ 0xBF := by
        have h1 : ¬ p0.toNat = 0xE0 := by omega
        have h3 : ¬ p0.toNat = 0xF0 := by omega
        have h4 : ¬ p0.toNat = 0xED := by omega
        have h5 : ¬ p0.toNat = 0xF4 := by omega
        simp only [h1, h3, h4, h5, if_false] at hacc
        omega
      refine ⟨[p0, b1], rest1, rfl, by rw [hdec]; rfl, by simp, ?_, ?_, ?_⟩
      · rw [hdec]
        have hr1 : ¬ (p0.toNat % 32 * 64 + b1.toNat % 64 ≤ 0x7F) := by omega
        have hr2 : p0.toNat % 32 * 64 + b1.toNat % 64 ≤ 0x7FF := by omega
        simp only [EncodeRune, hr1, hr2, if_true, if_false]
        rw [ofNat_eq_of_toNat _ p0 (by omega), ofNat_eq_of_toNat _ b1 (by omega)]
      · intro b hb
        simp only [List.mem_cons, List.mem_singleton, List.not_mem_nil, or_false] at hb
        rcases hb with rfl | rfl <;> omega
      · intro t
        show DecodeRune (p0 :: b1 :: t) = _
        rw [hdec, hdec]
    cases rest1 with
    | nil => exfalso; apply hok; simp [DecodeRune, hlt, hrange, hacc, h2]
    | cons b2 rest2 =>
      have hb2 := toNat_lt b2
      by_cases hc2 : b2.toNat < 0x80 ∨ 0xBF < b2.toNat
      · exfalso; apply hok; simp [DecodeRune, hlt, hrange, hacc, h2, hc2]
      by_cases h3 : p0.toNat < 0xF0
      · -- three bytes
        have hdec : ∀ t, DecodeRune (p0 :: b1 :: b2 :: t)
            = (p0.toNat % 16 * 4096 + b1.toNat % 64 * 64 + b2.toNat % 64, 3) := by
          intro t; simp [DecodeRune, hlt, hrange, hacc, h2, hc2, h3]
        have hacc' : 0x80 ≤ b1.toNat ∧ b1.toNat ≤ 0xBF ∧
            (p0.toNat = 0xE0 → 0xA0 ≤ b1.toNat) ∧ (p0.toNat = 0xED → b1.toNat ≤ 0x9F) := by
          have h3' : ¬ p0.toNat = 0xF0 := by omega
          have h5 : ¬ p0.toNat = 0xF4 := by omega
          simp only [h3', h5, if_false] at hacc
          split_ifs at hacc <;> omega
        refine ⟨[p0, b1, b2], rest2, rfl, by rw [hdec]; rfl, by simp, ?_, ?_, ?_⟩
        · rw [hdec]
          have hr1 : ¬ (p0.toNat % 16 * 4096 + b1.toNat % 64 * 64 + b2.toNat % 64 ≤ 0x7F) := by
            omega
          have hr2 : ¬ (p0.toNat % 16 * 4096 + b1.toNat % 64 * 64 + b2.toNat % 64 ≤ 0x7FF) := by
            omega
          have hr3 : ¬ (0x10FFFF < p0.toNat % 16 * 4096 + b1.toNat % 64 * 64 + b2.toNat % 64 ∨
              (0xD800 ≤ p0.toNat % 16 * 4096 + b1.toNat % 64 * 64 + b2.toNat % 64 ∧
                p0.toNat % 16 * 4096 + b1.toNat % 64 * 64 + b2.toNat % 64 ≤ 0xDFFF)) := by
            omega
          have hr4 : p0.toNat % 16 * 4096 + b1.toNat % 64 * 64 + b2.toNat % 64 ≤ 0xFFFF := by
            omega
          simp only [EncodeRune, hr1, hr2, hr3, hr4, if_true, if_false]
          rw [ofNat_eq_of_toNat _ p0 (by omega), ofNat_eq_of_toNat _ b1 (by omega),
            ofNat_eq_of_toNat _ b2 (by omega)]
        · intro b hb
          simp only [List.mem_cons, List.mem_singleton, List.not_mem_nil, or_false] at hb
          rcases hb with rfl | rfl | rfl <;> omega
        · intro t
          show DecodeRune (p0 :: b1 :: b2 :: t) = _
          rw [hdec, hdec]
      cases rest2 with
      | nil => exfalso; apply hok; simp [DecodeRune, hlt, hrange, hacc, h2, hc2, h3]
      | cons b3 rest3 =>
        have hb3 := toNat_lt b3
        by_cases hc3 : b3.toNat < 0x80 ∨ 0xBF < b3.toNat
        · exfalso; apply hok; simp [DecodeRune, hlt, hrange, hacc, h2, hc2, h3, hc3]
        have hdec : ∀ t, DecodeRune (p0 :: b1 :: b2 :: b3 :: t)
            = (p0.toNat % 8 * 262144 + b1.toNat % 64 * 4096 + b2.toNat % 64 * 64
                + b3.toNat % 64, 4) := by
          intro t; simp [DecodeRune, hlt, hrange, hacc, h2, hc2, h3, hc3]
        have hacc' : 0x80 ≤ b1.toNat ∧ b1.toNat ≤ 0xBF ∧
            (p0.toNat = 0xF0 → 0x90 ≤ b1.toNat) ∧ (p0.toNat = 0xF4 → b1.toNat ≤ 0x8F) := by
          have h1 : ¬ p0.toNat = 0xE0 := by omega
          have h4 : ¬ p0.toNat = 0xED := by omega
          simp only [h1, h4, if_false] at hacc
          split_ifs at hacc <;> omega
        refine ⟨[p0, b1, b2, b3], rest3, rfl, by rw [hdec]; rfl, by simp, ?_, ?_, ?_⟩
        · rw [hdec]
          generalize hr : p0.toNat % 8 * 262144 + b1.toNat % 64 * 4096 + b2.toNat % 64 * 64
                + b3.toNat % 64 = r
          have hr1 : ¬ (r ≤ 0x7F) := by omega
          have hr2 : ¬ (r ≤ 0x7FF) := by omega
          have hr3 : ¬ (0x10FFFF < r ∨ (0xD800 ≤ r ∧ r ≤ 0xDFFF)) := by omega
          have hr4 : ¬ (r ≤ 0xFFFF) := by omega
          simp only [EncodeRune, hr1, hr2, hr3, hr4, if_false]
          rw [ofNat_eq_of_toNat _ p0 (by omega), ofNat_eq_of_toNat _ b1 (by omega),
            ofNat_eq_of_toNat _ b2 (by omega), ofNat_eq_of_toNat _ b3 (by omega)]
        · intro b hb
          simp only [List.mem_cons, List.mem_singleton, List.not_mem_nil, or_false] at hb
          rcases hb with rfl | rfl | rfl | rfl <;> omega
        · intro t
          show DecodeRune (p0 :: b1 :: b2 :: b3 :: t) = _
          rw [hdec, hdec]
/-! ### JSON strings -/

theorem scanString_cons (c : UInt8) (rest : GoString) :
    scanString (c :: rest) =
    if c.toNat = 0x22 then some ([], rest)
    else if c.toNat = 0x5C then
      match rest with
      | [] => none
      | e :: rest1 =>
        if e.toNat = 0x75 then
          match rest1 with
          | h1 :: h2 :: h3 :: h4 :: rest2 =>
            if isHex h1 && isHex h2 && isHex h3 && isHex h4 then
              (scanString rest2).map (fun p => (c :: e :: h1 :: h2 :: h3 :: h4 :: p.1, p.2))
            else none
          | _ => none
        else if e.toNat = 0x22 ∨ e.toNat = 0x5C ∨ e.toNat = 0x2F ∨ e.toNat = 0x62
            ∨ e.toNat = 0x66 ∨ e.toNat = 0x6E ∨ e.toNat = 0x72 ∨ e.toNat = 0x74 then
          (scanString rest1).map (fun p => (c :: e :: p.1, p.2))
        else none
    else if c.toNat < 0x20 then none
    else (scanString rest).map (fun p => (c :: p.1, p.2)) := by
  rw [scanString.eq_def]
  rfl

theorem unquoteLoop_cons (fuel : Nat) (c : UInt8) (rest : GoString) :
    unquoteLoop (fuel + 1) (c :: rest) =
    if c.toNat = 0x5C then
      match rest with
      | [] => none
      | e :: rest1 =>
        if e.toNat = 0x75 then
          match getu4 (c :: e :: rest1) with
          | none => none
          | some rr =>
            if 0xD800 ≤ rr ∧ rr < 0xE000 then
              if utf16DecodeRune rr (getu4 (rest1.drop 4)) ≠ 0xFFFD then
                (unquoteLoop fuel (rest1.drop 10)).map
                  (fun t => EncodeRune (utf16DecodeRune rr (getu4 (rest1.drop 4))) ++ t)
              else (unquoteLoop fuel (rest1.drop 4)).map (fun t => EncodeRune 0xFFFD ++ t)
            else (unquoteLoop fuel (rest1.drop 4)).map (fun t => EncodeRune rr ++ t)
        else if e.toNat = 0x22 ∨ e.toNat = 0x5C ∨ e.toNat = 0x2F ∨ e.toNat = 0x27 then
          (unquoteLoop fuel rest1).map (fun t => e :: t)
        else if e.toNat = 0x62 then (unquoteLoop fuel rest1).map (fun t => 0x08 :: t)
        else if e.toNat = 0x66 then (unquoteLoop fuel rest1).map (fun t => 0x0C :: t)
        else if e.toNat = 0x6E then (unquoteLoop fuel rest1).map (fun t => 0x0A :: t)
        else if e.toNat = 0x72 then (unquoteLoop fuel rest1).map (fun t => 0x0D :: t)
        else if e.toNat = 0x74 then (unquoteLoop fuel rest1).map (fun t => 0x09 :: t)
        else none
    else if c.toNat = 0x22 ∨ c.toNat < 0x20 then none
    else if c.toNat < 0x80 then (unquoteLoop fuel rest).map (fun t => c :: t)
    else
      (unquoteLoop fuel (rest.drop ((DecodeRune (c :: rest)).2 - 1))).map
        (fun t => EncodeRune (DecodeRune (c :: rest)).1 ++ t) := by
  rw [unquoteLoop.eq_def]
  rfl

theorem unquoteLoop_nil (fuel : Nat) : unquoteLoop fuel [] = some [] := by
  cases fuel <;> rfl

theorem appendStringLoop_nil (fuel : Nat) : appendStringLoop fuel [] = [] := by
  cases fuel <;> rfl

theorem toValidLoop_nil (fuel : Nat) : toValidLoop fuel [] = [] := by
  cases fuel <;> rfl

theorem scanString_plain (chunk : GoString) (h : chunk.all plainByte = true)
    (tail : GoString) :
    scanString (chunk ++ tail) = (scanString tail).map (fun p => (chunk ++ p.1, p.2)) := by
  induction chunk with
  | nil => simp
  | cons b rest ih =>
    simp only [List.all_cons, Bool.and_eq_true] at h
    obtain ⟨hb, hrest⟩ := h
    simp only [plainByte, Bool.and_eq_true, decide_eq_true_eq, bne_iff_ne, ne_eq] at hb
    obtain ⟨⟨h1, h2⟩, h3⟩ := hb
    have h4 : ¬ b.toNat < 0x20 := by omega
    rw [List.cons_append, scanString_cons]
    simp only [h2, h3, h4, if_false, ih hrest, Option.map_map]
    rfl

theorem hexVal_hexDigit : ∀ k, k < 16 → hexVal (hexDigit k) = some k := by decide

theorem isHex_hexDigit : ∀ k, k < 16 → isHex (hexDigit k) = true := by decide

/-- The escape of U+FFFD is read back as the three bytes of U+FFFD. -/
theorem unquoteLoop_fffd (fuel : Nat) (tail : GoString) :
    unquoteLoop (fuel + 1) ([0x5C, 0x75, 0x66, 0x66, 0x66, 0x64] ++ tail)
      = (unquoteLoop fuel tail).map (fun t => [0xEF, 0xBF, 0xBD] ++ t) := by
  rfl

theorem scanString_fffd (tail : GoString) :
    scanString ([0x5C, 0x75, 0x66, 0x66, 0x66, 0x64] ++ tail)
      = (scanString tail).map (fun p => ([0x5C, 0x75, 0x66, 0x66, 0x66, 0x64] ++ p.1, p.2)) := by
  rfl

/-- What the decoder makes of the escape written for an ASCII byte is that byte. -/
theorem unquoteLoop_escapeByte (b : UInt8) (hb : b.toNat < 0x80) (fuel : Nat)
    (tail : GoString) :
    unquoteLoop (fuel + 1) (escapeByte b ++ tail)
      = (unquoteLoop fuel tail).map (fun t => b :: t) := by
  unfold escapeByte
  by_cases hs : htmlSafe b = true
  · simp only [hs, if_true, List.singleton_append]
    simp only [htmlSafe, Bool.and_eq_true, decide_eq_true_eq, bne_iff_ne, ne_eq] at hs
    rw [unquoteLoop_cons]
    have h1 : ¬ b.toNat = 0x5C := by omega
    have h2 : ¬ (b.toNat = 0x22 ∨ b.toNat < 0x20) := by omega
    simp only [h1, h2, hb, if_true, if_false]
  · have hs' : htmlSafe b = false := by simpa using hs
    simp only [hs', Bool.false_eq_true, if_false]
    by_cases h1 : b.toNat = 0x5C ∨ b.toNat = 0x22
    · simp only [h1, if_true]
      rw [List.cons_append, List.cons_append, unquoteLoop_cons]
      have h3 : ¬ b.toNat = 0x75 := by omega
      have h4 : b.toNat = 0x22 ∨ b.toNat = 0x5C ∨ b.toNat = 0x2F ∨ b.toNat = 0x27 := by omega
      simp only [h3, h4, if_true, if_false]
      rfl
    · simp only [h1, if_false]
      by_cases h8 : b.toNat = 0x08
      · have : b = 0x08 := eq_of_toNat_eq _ _ h8
        subst this
        rfl
      by_cases hC : b.toNat = 0x0C
      · have : b = 0x0C := eq_of_toNat_eq _ _ hC
        subst this
        rfl
      by_cases hA : b.toNat = 0x0A
      · have : b = 0x0A := eq_of_toNat_eq _ _ hA
        subst this
        rfl
      by_cases hD : b.toNat = 0x0D
      · have : b = 0x0D := eq_of_toNat_eq _ _ hD
        subst this
        rfl
      by_cases h9 : b.toNat = 0x09
      · have : b = 0x09 := eq_of_toNat_eq _ _ h9
        subst this
        rfl
      simp only [h8, hC, hA, hD, h9, if_false]
      rw [List.cons_append, List.cons_append, unquoteLoop_cons]
      have hget : getu4 ((0x5C : UInt8) :: 0x75 :: (0x30 :: 0x30 :: hexDigit (b.toNat / 16)
          :: hexDigit (b.toNat % 16) :: ([] ++ tail))) = some b.toNat := by
        simp only [getu4]
        rw [hexVal_hexDigit _ (by omega), hexVal_hexDigit _ (by omega)]
        have h30 : hexVal 0x30 = some 0 := by decide
        have hc : (0x5C : UInt8).toNat = 0x5C ∧ (0x75 : UInt8).toNat = 0x75 := by decide
        simp only [h30, hc, and_self, if_true]
        congr 1
        omega
      have henc : EncodeRune b.toNat = [b] := by
        have : b.toNat ≤ 0x7F := by omega
        simp only [EncodeRune, this, if_true, ofNat_toNat]
      have hsur : ¬ (0xD800 ≤ b.toNat ∧ b.toNat < 0xE000) := by omega
      have hc1 : (0x5C : UInt8).toNat = 0x5C := by decide
      have hc2 : (0x75 : UInt8).toNat = 0x75 := by decide
      simp only [List.cons_append, hc1, hc2, if_true, hget, hsur, if_false, henc]
      rfl

theorem scanString_escapeByte (b : UInt8) (hb : b.toNat < 0x80) (tail : GoString) :
    scanString (escapeByte b ++ tail)
      = (scanString tail).map (fun p => (escapeByte b ++ p.1, p.2)) := by
  unfold escapeByte
  by_cases hs : htmlSafe b = true
  · simp only [hs, if_true]
    apply scanString_plain
    simp only [htmlSafe, Bool.and_eq_true, decide_eq_true_eq, bne_iff_ne, ne_eq] at hs
    simp only [List.all_cons, List.all_nil, Bool.and_true, plainByte, Bool.and_eq_true,
      decide_eq_true_eq, bne_iff_ne, ne_eq]
    omega
  · have hs' : htmlSafe b = false := by simpa using hs
    simp only [hs', Bool.false_eq_true, if_false]
    by_cases h1 : b.toNat = 0x5C ∨ b.toNat = 0x22
    · simp only [h1, if_true]
      rw [List.cons_append, List.cons_append, scanString_cons]
      have h3 : ¬ b.toNat = 0x75 := by omega
      have h4 : b.toNat = 0x22 ∨ b.toNat = 0x5C ∨ b.toNat = 0x2F ∨ b.toNat = 0x62
          ∨ b.toNat = 0x66 ∨ b.toNat = 0x6E ∨ b.toNat = 0x72 ∨ b.toNat = 0x74 := by omega
      have hc1 : ¬ (0x5C : UInt8).toNat = 0x22 := by decide
      have hc2 : (0x5C : UInt8).toNat = 0x5C := by decide
      simp only [hc1, hc2, h3, h4, if_true, if_false]
      rfl
    · simp only [h1, if_false]
      by_cases h8 : b.toNat = 0x08
      · simp [h8, scanString_cons, UInt8.size]
      by_cases hC : b.toNat = 0x0C
      · simp [hC, scanString_cons, UInt8.size]
      by_cases hA : b.toNat = 0x0A
      · simp [hA, scanString_cons, UInt8.size]
      by_cases hD : b.toNat = 0x0D
      · simp [hD, scanString_cons, UInt8.size]
      by_cases h9 : b.toNat = 0x09
      · simp [h9, scanString_cons, UInt8.size]
      simp only [h8, hC, hA, hD, h9, if_false]
      rw [List.cons_append, List.cons_append, scanString_cons]
      have hc1 : ¬ (0x5C : UInt8).toNat = 0x22 := by decide
      have hc2 : (0x5C : UInt8).toNat = 0x5C := by decide
      have hc3 : (0x75 : UInt8).toNat = 0x75 := by decide
      have hc4 : isHex 0x30 = true := by decide
      have hc5 : ¬ (92 : Nat) = 34 := by decide
      simp only [hc1, hc2, hc3, hc5, if_true, if_false, List.cons_append, hc4,
        isHex_hexDigit _ (show b.toNat / 16 < 16 by omega),
        isHex_hexDigit _ (show b.toNat % 16 < 16 by omega), Bool.and_self, List.nil_append]

theorem escapeByte_length_pos (b : UInt8) : 1 ≤ (escapeByte b).length := by
  unfold escapeByte
  split_ifs <;> simp

theorem DecodeRune_ascii (b : UInt8) (rest : GoString) (hb : b.toNat < 0x80) :
    DecodeRune (b :: rest) = (b.toNat, 1) := by
  simp [DecodeRune, hb]

/-- A valid rune of two to four bytes at the head of `b :: rest`, in the form the loops
over a string need it. -/
theorem valid_split (b : UInt8) (rest : GoString) (h80 : 0x80 ≤ b.toNat)
    (hok : ¬((DecodeRune (b :: rest)).1 = RuneError ∧ (DecodeRune (b :: rest)).2 = 1)) :
    ∃ ctail tail, rest = ctail ++ tail ∧
      (DecodeRune (b :: rest)).2 = ctail.length + 1 ∧
      EncodeRune (DecodeRune (b :: rest)).1 = b :: ctail ∧
      (∀ x ∈ ctail, 0x80 ≤ x.toNat) ∧
      ∀ t, DecodeRune (b :: (ctail ++ t)) = DecodeRune (b :: rest) := by
  obtain ⟨chunk, tail, hsplit, hlen, h2, henc, hge, hstable⟩ := DecodeRune_valid b rest h80 hok
  cases chunk with
  | nil => simp at h2
  | cons c ctail =>
    rw [List.cons_append] at hsplit
    injection hsplit with hc hrest
    subst hc
    refine ⟨ctail, tail, hrest, ?_, henc, ?_, ?_⟩
    · rw [← hlen]; rfl
    · intro x hx; exact hge x (List.mem_cons_of_mem _ hx)
    · intro t; exact hstable t

/-- Decoding the body that `appendString` writes gives the string coerced to valid
UTF-8. -/
theorem unquoteLoop_appendStringLoop (f : Nat) :
    ∀ (s : GoString) (fuel : Nat), (appendStringLoop f s).length ≤ fuel →
      unquoteLoop fuel (appendStringLoop f s) = some (toValidLoop f s) := by
  induction f with
  | zero =>
    intro s fuel _
    cases s with
    | nil => rw [appendStringLoop_nil, toValidLoop_nil, unquoteLoop_nil]
    | cons b rest => exact unquoteLoop_nil fuel
  | succ f ih =>
    intro s fuel hfuel
    cases s with
    | nil => rw [appendStringLoop_nil, toValidLoop_nil, unquoteLoop_nil]
    | cons b rest =>
      rw [appendStringLoop] at hfuel ⊢
      rw [toValidLoop]
      by_cases hb : b.toNat < 0x80
      · simp only [hb, if_true] at hfuel ⊢
        have hpos := escapeByte_length_pos b
        rw [List.length_append] at hfuel
        obtain ⟨k, rfl⟩ : ∃ k, fuel = k + 1 := ⟨fuel - 1, by omega⟩
        rw [unquoteLoop_escapeByte b hb, ih rest k (by omega), DecodeRune_ascii b rest hb]
        have hne : ¬ b.toNat = RuneError := by
          unfold RuneError; omega
        simp [hne]
      · simp only [hb, if_false] at hfuel ⊢
        by_cases hinv : (DecodeRune (b :: rest)).1 = RuneError ∧ (DecodeRune (b :: rest)).2 = 1
        · simp only [hinv, and_self, if_true] at hfuel ⊢
          rw [List.length_append] at hfuel
          obtain ⟨k, rfl⟩ : ∃ k, fuel = k + 1 := ⟨fuel - 1, by simp at hfuel; omega⟩
          rw [unquoteLoop_fffd, ih rest k (by simp at hfuel; omega)]
          rfl
        · rw [if_neg hinv] at hfuel ⊢
          rw [if_neg hinv]
          obtain ⟨ctail, tail, hrest, hsize, henc, hge, hstable⟩ :=
            valid_split b rest (by omega) hinv
          have hdrop : rest.drop ((DecodeRune (b :: rest)).2 - 1) = tail := by
            rw [hsize, hrest]; simp
          have htake : (b :: rest).take (DecodeRune (b :: rest)).2 = b :: ctail := by
            rw [hsize, hrest]; simp
          rw [hdrop, htake] at hfuel ⊢
          by_cases hsep : (DecodeRune (b :: rest)).1 = 0x2028 ∨ (DecodeRune (b :: rest)).1 = 0x2029
          · rw [if_pos hsep] at hfuel ⊢
            rw [List.length_append] at hfuel
            obtain ⟨k, rfl⟩ : ∃ k, fuel = k + 1 := ⟨fuel - 1, by simp at hfuel; omega⟩
            have hk : (appendStringLoop f tail).length ≤ k := by simp at hfuel; omega
            rw [← henc]
            rcases hsep with h | h
            · rw [h]
              show unquoteLoop (k + 1) ([0x5C, 0x75, 0x32, 0x30, 0x32, 0x38]
                ++ appendStringLoop f tail) = _
              have : unquoteLoop (k + 1) ([0x5C, 0x75, 0x32, 0x30, 0x32, 0x38]
                  ++ appendStringLoop f tail)
                  = (unquoteLoop k (appendStringLoop f tail)).map
                      (fun t => EncodeRune 0x2028 ++ t) := rfl
              rw [this, ih tail k hk]
              rfl
            · rw [h]
              show unquoteLoop (k + 1) ([0x5C, 0x75, 0x32, 0x30, 0x32, 0x39]
                ++ appendStringLoop f tail) = _
              have : unquoteLoop (k + 1) ([0x5C, 0x75, 0x32, 0x30, 0x32, 0x39]
                  ++ appendStringLoop f tail)
                  = (unquoteLoop k (appendStringLoop f tail)).map
                      (fun t => EncodeRune 0x2029 ++ t) := rfl
              rw [this, ih tail k hk]
              rfl
          · rw [if_neg hsep] at hfuel ⊢
            rw [List.length_append] at hfuel
            obtain ⟨k, rfl⟩ : ∃ k, fuel = k + 1 := ⟨fuel - 1, by simp at hfuel; omega⟩
            have hk : (appendStringLoop f tail).length ≤ k := by simp at hfuel; omega
            rw [List.cons_append, unquoteLoop_cons]
            have h1 : ¬ b.toNat = 0x5C := by omega
            have h2 : ¬ (b.toNat = 0x22 ∨ b.toNat < 0x20) := by omega
            simp only [h1, h2, hb, if_false]
            rw [hstable, hsize, henc]
            have : (ctail ++ appendStringLoop f tail).drop (ctail.length + 1 - 1)
                = appendStringLoop f tail := by simp
            rw [this, ih tail k hk]
            rfl

theorem unquote_stringBody (s : GoString) : unquote (stringBody s) = some (toValidUTF8 s) :=
  unquoteLoop_appendStringLoop s.length s _ (Nat.le_refl _)

/-- The scanner reads the body that `appendString` writes up to the closing quote. -/
theorem scanString_appendStringLoop (f : Nat) :
    ∀ (s tail : GoString),
      scanString (appendStringLoop f s ++ 0x22 :: tail) = some (appendStringLoop f s, tail) := by
  have hquote : ∀ tail : GoString, scanString (0x22 :: tail) = some ([], tail) := by
    intro tail
    rw [scanString_cons, if_pos (by decide)]
  induction f with
  | zero =>
    intro s tail
    cases s with
    | nil => rw [appendStringLoop_nil]; exact hquote tail
    | cons b rest => exact hquote tail
  | succ f ih =>
    intro s tail
    cases s with
    | nil => rw [appendStringLoop_nil]; exact hquote tail
    | cons b rest =>
      rw [appendStringLoop]
      by_cases hb : b.toNat < 0x80
      · simp only [hb, if_true]
        rw [List.append_assoc, scanString_escapeByte b hb, ih rest tail]
        rfl
      · simp only [hb, if_false]
        by_cases hinv : (DecodeRune (b :: rest)).1 = RuneError ∧ (DecodeRune (b :: rest)).2 = 1
        · simp only [hinv, and_self, if_true]
          rw [List.append_assoc, scanString_fffd, ih rest tail]
          rfl
        · rw [if_neg hinv]
          obtain ⟨ctail, tl, hrest, hsize, henc, hge, hstable⟩ :=
            valid_split b rest (by omega) hinv
          have hdrop : rest.drop ((DecodeRune (b :: rest)).2 - 1) = tl := by
            rw [hsize, hrest]; simp
          have htake : (b :: rest).take (DecodeRune (b :: rest)).2 = b :: ctail := by
            rw [hsize, hrest]; simp
          rw [hdrop, htake]
          by_cases hsep : (DecodeRune (b :: rest)).1 = 0x2028 ∨ (DecodeRune (b :: rest)).1 = 0x2029
          · rw [if_pos hsep]
            have hchunk : ∀ c : UInt8, isHex c = true → ∀ t : GoString,
                scanString ([0x5C, 0x75, 0x32, 0x30, 0x32, c] ++ t)
                  = (scanString t).map (fun p => ([0x5C, 0x75, 0x32, 0x30, 0x32, c] ++ p.1, p.2)) := by
              intro c hc t
              rw [List.cons_append, scanString_cons]
              have hc1 : ¬ (0x5C : UInt8).toNat = 0x22 := by decide
              have hc2 : (0x5C : UInt8).toNat = 0x5C := by decide
              have hc3 : (0x75 : UInt8).toNat = 0x75 := by decide
              have hc4 : isHex 0x30 = true := by decide
              have hc5 : isHex 0x32 = true := by decide
              have hc6 : ¬ (92 : Nat) = 34 := by decide
              simp only [hc1, hc2, hc3, hc4, hc5, hc6, hc, if_true, if_false, List.cons_append,
                Bool.and_self, List.nil_append]
            rw [List.append_assoc, hchunk _ (isHex_hexDigit _ (by omega)), ih tl tail]
            rfl
          · rw [if_neg hsep]
            have hplain : (b :: ctail).all plainByte = true := by
              rw [List.all_eq_true]
              intro x hx
              have hx80 : 0x80 ≤ x.toNat := by
                rcases List.mem_cons.mp hx with rfl | hx
                · omega
                · exact hge x hx
              simp only [plainByte, Bool.and_eq_true, decide_eq_true_eq, bne_iff_ne, ne_eq]
              omega
            rw [List.append_assoc, scanString_plain _ hplain, ih tl tail]
            rfl

theorem scanString_stringBody (s tail : GoString) :
    scanString (stringBody s ++ 0x22 :: tail) = some (stringBody s, tail) :=
  scanString_appendStringLoop s.length s tail

theorem DecodeRune_size_pos (b : UInt8) (rest : GoString) : 1 ≤ (DecodeRune (b :: rest)).2 := by
  by_cases hb : b.toNat < 0x80
  · rw [DecodeRune_ascii b rest hb]
  · by_cases hinv : (DecodeRune (b :: rest)).1 = RuneError ∧ (DecodeRune (b :: rest)).2 = 1
    · rw [hinv.2]
    · obtain ⟨ctail, tl, -, hsize, -⟩ := valid_split b rest (by omega) hinv
      omega

/-- Coercion to valid UTF-8 leaves a valid string as it is. -/
theorem toValidLoop_of_valid (f : Nat) :
    ∀ s : GoString, validLoop f s = true → toValidLoop f s = s := by
  induction f with
  | zero =>
    intro s h
    cases s with
    | nil => rfl
    | cons b rest => simp [validLoop] at h
  | succ f ih =>
    intro s h
    cases s with
    | nil => rfl
    | cons b rest =>
      rw [validLoop] at h
      rw [toValidLoop]
      by_cases hinv : (DecodeRune (b :: rest)).1 = RuneError ∧ (DecodeRune (b :: rest)).2 = 1
      · rw [if_pos hinv] at h; cases h
      · rw [if_neg hinv] at h
        rw [if_neg hinv, ih _ h]
        have hpos := DecodeRune_size_pos b rest
        obtain ⟨k, hk⟩ : ∃ k, (DecodeRune (b :: rest)).2 = k + 1 :=
          ⟨(DecodeRune (b :: rest)).2 - 1, by omega⟩
        rw [hk]
        simp

theorem toValidUTF8_of_valid (s : GoString) (h : ValidString s = true) : toValidUTF8 s = s :=
  toValidLoop_of_valid s.length s h

/-! ### The loops over a string never run out of fuel -/

theorem drop_length_le (n : Nat) (rest : GoString) : (rest.drop n).length ≤ rest.length := by
  rw [List.length_drop]; omega

/-- With at least as much fuel as bytes, `appendStringLoop` does not depend on the
fuel. -/
theorem appendStringLoop_fuel (f : Nat) :
    ∀ s : GoString, s.length ≤ f → appendStringLoop (f + 1) s = appendStringLoop f s := by
  induction f with
  | zero =>
    intro s h
    cases s with
    | nil => rfl
    | cons b rest => simp at h
  | succ f ih =>
    intro s h
    cases s with
    | nil => rfl
    | cons b rest =>
      have hrest : rest.length ≤ f := by simpa using h
      have hdrop : ∀ n, (rest.drop n).length ≤ f :=
        fun n => Nat.le_trans (drop_length_le n rest) hrest
      rw [appendStringLoop, appendStringLoop, ih rest hrest, ih _ (hdrop _)]

/-- With at least as much fuel as bytes, `toValidLoop` does not depend on the fuel. -/
theorem toValidLoop_fuel (f : Nat) :
    ∀ s : GoString, s.length ≤ f → toValidLoop (f + 1) s = toValidLoop f s := by
  induction f with
  | zero =>
    intro s h
    cases s with
    | nil => rfl
    | cons b rest => simp at h
  | succ f ih =>
    intro s h
    cases s with
    | nil => rfl
    | cons b rest =>
      have hrest : rest.length ≤ f := by simpa using h
      have hdrop : ∀ n, (rest.drop n).length ≤ f :=
        fun n => Nat.le_trans (drop_length_le n rest) hrest
      rw [toValidLoop, toValidLoop, ih rest hrest, ih _ (hdrop _)]

/-- With at least as much fuel as bytes, `validLoop` does not depend on the fuel. -/
theorem validLoop_fuel (f : Nat) :
    ∀ s : GoString, s.length ≤ f → validLoop (f + 1) s = validLoop f s := by
  induction f with
  | zero =>
    intro s h
    cases s with
    | nil => rfl
    | cons b rest => simp at h
  | succ f ih =>
    intro s h
    cases s with
    | nil => rfl
    | cons b rest =>
      have hrest : rest.length ≤ f := by simpa using h
      have hdrop : ∀ n, (rest.drop n).length ≤ f :=
        fun n => Nat.le_trans (drop_length_le n rest) hrest
      rw [validLoop, validLoop, ih _ (hdrop _)]

theorem appendStringLoop_of_le (f : Nat) :
    ∀ s : GoString, s.length ≤ f → appendStringLoop f s = stringBody s := by
  induction f with
  | zero =>
    intro s h
    have : s.length = 0 := by omega
    unfold stringBody
    rw [this]
  | succ f ih =>
    intro s h
    by_cases h' : s.length ≤ f
    · rw [appendStringLoop_fuel f s h', ih s h']
    · have : s.length = f + 1 := by omega
      unfold stringBody
      rw [this]

theorem toValidLoop_of_le (f : Nat) :
    ∀ s : GoString, s.length ≤ f → toValidLoop f s = toValidUTF8 s := by
  induction f with
  | zero =>
    intro s h
    have : s.length = 0 := by omega
    unfold toValidUTF8
    rw [this]
  | succ f ih =>
    intro s h
    by_cases h' : s.length ≤ f
    · rw [toValidLoop_fuel f s h', ih s h']
    · have : s.length = f + 1 := by omega
      unfold toValidUTF8
      rw [this]

theorem validLoop_of_le (f : Nat) :
    ∀ s : GoString, s.length ≤ f → validLoop f s = ValidString s := by
  induction f with
  | zero =>
    intro s h
    have : s.length = 0 := by omega
    unfold ValidString
    rw [this]
  | succ f ih =>
    intro s h
    by_cases h' : s.length ≤ f
    · rw [validLoop_fuel f s h', ih s h']
    · have : s.length = f + 1 := by omega
      unfold ValidString
      rw [this]

/-- The loop of `appendString`, free of fuel: the body written for `b :: rest` is what
is written for its first rune, followed by the body written for the bytes after that
rune. -/
theorem stringBody_cons (b : UInt8) (rest : GoString) :
    stringBody (b :: rest) =
      if b.toNat < 0x80 then escapeByte b ++ stringBody rest
      else if (DecodeRune (b :: rest)).1 = RuneError ∧ (DecodeRune (b :: rest)).2 = 1 then
        [0x5C, 0x75, 0x66, 0x66, 0x66, 0x64] ++ stringBody rest
      else if (DecodeRune (b :: rest)).1 = 0x2028 ∨ (DecodeRune (b :: rest)).1 = 0x2029 then
        [0x5C, 0x75, 0x32, 0x30, 0x32, hexDigit ((DecodeRune (b :: rest)).1 % 16)]
          ++ stringBody (rest.drop ((DecodeRune (b :: rest)).2 - 1))
      else
        (b :: rest).take (DecodeRune (b :: rest)).2
          ++ stringBody (rest.drop ((DecodeRune (b :: rest)).2 - 1)) := by
  have h1 := appendStringLoop_of_le rest.length rest (Nat.le_refl _)
  have h2 := appendStringLoop_of_le rest.length
    (rest.drop ((DecodeRune (b :: rest)).2 - 1)) (drop_length_le _ rest)
  conv => lhs; unfold stringBody
  rw [List.length_cons, appendStringLoop, h1, h2]

/-- The coercion to valid UTF-8, free of fuel: an invalid byte becomes U+FFFD, a valid
rune is kept. -/
theorem toValidUTF8_cons (b : UInt8) (rest : GoString) :
    toValidUTF8 (b :: rest) =
      if (DecodeRune (b :: rest)).1 = RuneError ∧ (DecodeRune (b :: rest)).2 = 1 then
        [0xEF, 0xBF, 0xBD] ++ toValidUTF8 rest
      else
        (b :: rest).take (DecodeRune (b :: rest)).2
          ++ toValidUTF8 (rest.drop ((DecodeRune (b :: rest)).2 - 1)) := by
  have h1 := toValidLoop_of_le rest.length rest (Nat.le_refl _)
  have h2 := toValidLoop_of_le rest.length
    (rest.drop ((DecodeRune (b :: rest)).2 - 1)) (drop_length_le _ rest)
  conv => lhs; unfold toValidUTF8
  rw [List.length_cons, toValidLoop, h1, h2]

/-- The function `utf8.ValidString`, free of fuel: a string is valid when its first rune
is and the bytes after that rune are. -/
theorem ValidString_cons (b : UInt8) (rest : GoString) :
    ValidString (b :: rest) =
      if (DecodeRune (b :: rest)).1 = RuneError ∧ (DecodeRune (b :: rest)).2 = 1 then false
      else ValidString (rest.drop ((DecodeRune (b :: rest)).2 - 1)) := by
  have h2 := validLoop_of_le rest.length
    (rest.drop ((DecodeRune (b :: rest)).2 - 1)) (drop_length_le _ rest)
  conv => lhs; unfold ValidString
  rw [List.length_cons, validLoop, h2]
/-! ### Reading back what `saveTasks` writes -/

theorem skipSpace_of_not_space (c : UInt8) (rest : GoString) (h : isSpace c = false) :
    skipSpace (c :: rest) = c :: rest := by
  simp [skipSpace, h]

theorem skipSpace_spaces (ws : GoString) (hws : ws.all isSpace = true) (c : UInt8)
    (rest : GoString) (h : isSpace c = false) :
    skipSpace (ws ++ c :: rest) = c :: rest := by
  induction ws with
  | nil => exact skipSpace_of_not_space c rest h
  | cons w ws ih =>
    simp only [List.all_cons, Bool.and_eq_true] at hws
    simp only [List.cons_append, skipSpace, hws.1, if_true]
    exact ih hws.2

theorem spanDigits_append (ds : GoString) (hds : ds.all isDigit = true) (c : UInt8)
    (rest : GoString) (hc : isDigit c = false) :
    spanDigits (ds ++ c :: rest) = (ds, c :: rest) := by
  induction ds with
  | nil => simp [spanDigits, hc]
  | cons d ds ih =>
    simp only [List.all_cons, Bool.and_eq_true] at hds
    rw [List.cons_append, spanDigits]
    simp only [hds.1, if_true]
    rw [ih hds.2]

/-- The scanner reads the decimal text of an `int` as one number literal when a comma
follows. -/
theorem scanNumber_fmtD (x : Int) (rest : GoString) :
    scanNumber (fmtD x ++ 0x2C :: rest) = some (fmtD x, 0x2C :: rest) := by
  obtain ⟨d, ds, hEq, hd, hds, hnz, hz, -⟩ := fmtNat_spec x.natAbs
  have hdn := isDigit_toNat d hd
  have hcomma : isDigit 0x2C = false := by decide
  have hint : scanInt (d :: ds ++ 0x2C :: rest) = some (d :: ds, 0x2C :: rest) := by
    by_cases h0 : d.toNat = 0x30
    · have hn : x.natAbs = 0 := by
        by_contra hne
        exact hnz hne h0
      rw [hz hn]
      simp [scanInt, h0]
    · simp only [List.cons_append, scanInt, h0, if_false, hd, if_true,
        spanDigits_append ds hds 0x2C rest hcomma]
  have hfrac : scanFrac (0x2C :: rest) = some ([], 0x2C :: rest) := by
    have : ¬ (0x2C : UInt8).toNat = 0x2E := by decide
    simp only [scanFrac, this, if_false]
  have hexp : scanExp (0x2C :: rest) = some ([], 0x2C :: rest) := by
    have : ¬ ((0x2C : UInt8).toNat = 0x65 ∨ (0x2C : UInt8).toNat = 0x45) := by decide
    simp only [scanExp, this, if_false]
  unfold fmtD
  by_cases hneg : x < 0
  · have h45 : (45 : UInt8).toNat = 0x2D := by decide
    simp only [hneg, if_true, hEq, List.cons_append, scanNumber, h45]
    have := hint
    simp only [List.cons_append] at this
    simp only [this, hfrac, hexp, List.append_nil, List.singleton_append, List.nil_append]
  · have hd45 : ¬ d.toNat = 0x2D := by omega
    simp only [hneg, if_false, hEq, List.cons_append, scanNumber, hd45]
    have := hint
    simp only [List.cons_append] at this
    simp only [this, hfrac, hexp, List.append_nil, List.nil_append]

theorem parseValue_succ (fuel depth : Nat) (s : GoString) :
    parseValue (fuel + 1) depth s =
    match skipSpace s with
    | [] => none
    | c :: rest =>
      if c.toNat = 0x5B then
        if depth = 0 then none
        else
          match skipSpace rest with
          | [] => none
          | d :: rest1 =>
            if d.toNat = 0x5D then some (JSON.arr [], rest1)
            else parseItems fuel (depth - 1) rest []
      else if c.toNat = 0x7B then
        if depth = 0 then none
        else
          match skipSpace rest with
          | [] => none
          | d :: rest1 =>
            if d.toNat = 0x7D then some (JSON.obj [], rest1)
            else parseMembers fuel (depth - 1) rest []
      else if c.toNat = 0x22 then
        (scanString rest).map (fun p => (JSON.str p.1, p.2))
      else if c.toNat = 0x2D ∨ isDigit c then
        (scanNumber (c :: rest)).map (fun p => (JSON.num p.1, p.2))
      else if (c :: rest).take 4 = [0x74, 0x72, 0x75, 0x65] then
        some (JSON.bool true, (c :: rest).drop 4)
      else if (c :: rest).take 5 = [0x66, 0x61, 0x6C, 0x73, 0x65] then
        some (JSON.bool false, (c :: rest).drop 5)
      else if (c :: rest).take 4 = [0x6E, 0x75, 0x6C, 0x6C] then
        some (JSON.null, (c :: rest).drop 4)
      else none := by
  rw [parseValue]
  try rfl

/-- Reading a number value that follows a space and is followed by a comma. -/
theorem parseValue_num (fuel depth : Nat) (x : Int) (rest : GoString) :
    parseValue (fuel + 1) depth (0x20 :: (fmtD x ++ 0x2C :: rest))
      = some (JSON.num (fmtD x), 0x2C :: rest) := by
  obtain ⟨d, ds, hEq, hd, hds, -, -, -⟩ := fmtNat_spec x.natAbs
  have hdn := isDigit_toNat d hd
  have hsp : isSpace 0x20 = true := by decide
  rw [parseValue_succ]
  have hnum := scanNumber_fmtD x rest
  unfold fmtD at hnum ⊢
  by_cases hneg : x < 0
  · simp only [hneg, if_true, List.cons_append] at hnum ⊢
    have hskip : skipSpace (0x20 :: 45 :: (fmtNat x.natAbs ++ 0x2C :: rest))
        = 45 :: (fmtNat x.natAbs ++ 0x2C :: rest) := by
      simp only [skipSpace, hsp, if_true]
      exact skipSpace_of_not_space _ _ (by decide)
    rw [hskip]
    have h4 : (45 : UInt8).toNat = 0x2D := by decide
    simp [UInt8.size, hnum]
  · simp only [hneg, if_false, hEq, List.cons_append] at hnum ⊢
    have hnsp : isSpace d = false := by
      simp only [isSpace, Bool.or_eq_false_iff, decide_eq_false_iff_not]
      omega
    have hskip : skipSpace (0x20 :: d :: (ds ++ 0x2C :: rest))
        = d :: (ds ++ 0x2C :: rest) := by
      simp only [skipSpace, hsp, if_true]
      exact skipSpace_of_not_space _ _ hnsp
    rw [hskip]
    have h1 : ¬ d.toNat = 0x5B := by omega
    have h2 : ¬ d.toNat = 0x7B := by omega
    have h3 : ¬ d.toNat = 0x22 := by omega
    simp only [h1, h2, h3, if_false, hd, or_true, if_true, hnum, Option.map_some']

/-- Reading a string value that follows a space. -/
theorem parseValue_str (fuel depth : Nat) (body rest : GoString)
    (h : scanString (body ++ 0x22 :: rest) = some (body, rest)) :
    parseValue (fuel + 1) depth (0x20 :: 0x22 :: (body ++ 0x22 :: rest))
      = some (JSON.str body, rest) := by
  rw [parseValue_succ]
  have hskip : skipSpace (0x20 :: 0x22 :: (body ++ 0x22 :: rest))
      = 0x22 :: (body ++ 0x22 :: rest) := by
    have hsp : isSpace 0x20 = true := by decide
    simp only [skipSpace, hsp, if_true]
    exact skipSpace_of_not_space _ _ (by decide)
  rw [hskip]
  have h3 : (0x22 : UInt8).toNat = 0x22 := by decide
  simp [UInt8.size, h]

/-- Reading a boolean value that follows a space. -/
theorem parseValue_bool (fuel depth : Nat) (b : Bool) (rest : GoString) :
    parseValue (fuel + 1) depth (0x20 :: ((if b then lit "true" else lit "false") ++ rest))
      = some (JSON.bool b, rest) := by
  rw [parseValue_succ]
  have hsp : isSpace 0x20 = true := by decide
  cases b with
  | true =>
    have hl : lit "true" = [0x74, 0x72, 0x75, 0x65] := by decide
    simp only [if_true, hl, List.cons_append, List.nil_append]
    have hskip : skipSpace (0x20 :: 0x74 :: 0x72 :: 0x75 :: 0x65 :: rest)
        = 0x74 :: 0x72 :: 0x75 :: 0x65 :: rest := by
      simp only [skipSpace, hsp, if_true]
      exact skipSpace_of_not_space 0x74 _ (by decide)
    rw [hskip]
    have h3 : (0x74 : UInt8).toNat = 0x74 := by decide
    have h4 : isDigit 0x74 = false := by decide
    simp [UInt8.size, h4]
  | false =>
    have hl : lit "false" = [0x66, 0x61, 0x6C, 0x73, 0x65] := by decide
    simp only [Bool.false_eq_true, if_false, hl, List.cons_append, List.nil_append]
    have hskip : skipSpace (0x20 :: 0x66 :: 0x61 :: 0x6C :: 0x73 :: 0x65 :: rest)
        = 0x66 :: 0x61 :: 0x6C :: 0x73 :: 0x65 :: rest := by
      simp only [skipSpace, hsp, if_true]
      exact skipSpace_of_not_space 0x66 _ (by decide)
    rw [hskip]
    have h3 : (0x66 : UInt8).toNat = 0x66 := by decide
    have h4 : isDigit 0x66 = false := by decide
    simp [UInt8.size, h4]

theorem scanString_key (key : GoString) (hkey : key.all plainByte = true) (rest : GoString) :
    scanString (key ++ 0x22 :: rest) = some (key, rest) := by
  rw [scanString_plain key hkey, scanString_cons, if_pos (by decide)]
  simp

/-- One member of an object, followed by a comma: the scanner goes on with the next
member. -/
theorem parseMembers_comma (F d : Nat) (ws key vrest rest : GoString) (v : JSON)
    (acc : List (GoString × JSON))
    (hws : ws.all isSpace = true) (hkey : key.all plainByte = true)
    (hval : parseValue F d (0x20 :: vrest) = some (v, 0x2C :: rest)) :
    parseMembers (F + 1) d (ws ++ 0x22 :: (key ++ 0x22 :: 0x3A :: 0x20 :: vrest)) acc
      = parseMembers F d rest (acc ++ [(key, v)]) := by
  rw [parseMembers, skipSpace_spaces ws hws 0x22 _ (by decide)]
  have h1 : skipSpace (0x3A :: 0x20 :: vrest) = 0x3A :: 0x20 :: vrest :=
    skipSpace_of_not_space 0x3A _ (by decide)
  have h2 : skipSpace (0x2C :: rest) = 0x2C :: rest :=
    skipSpace_of_not_space 0x2C _ (by decide)
  simp [UInt8.size, scanString_key key hkey, h1, hval, h2]

/-- The last member of an object, followed by white space and the closing brace. -/
theorem parseMembers_close (F d : Nat) (ws key vrest ws2 rest : GoString) (v : JSON)
    (acc : List (GoString × JSON))
    (hws : ws.all isSpace = true) (hkey : key.all plainByte = true)
    (hws2 : ws2.all isSpace = true)
    (hval : parseValue F d (0x20 :: vrest) = some (v, ws2 ++ 0x7D :: rest)) :
    parseMembers (F + 1) d (ws ++ 0x22 :: (key ++ 0x22 :: 0x3A :: 0x20 :: vrest)) acc
      = some (JSON.obj (acc ++ [(key, v)]), rest) := by
  rw [parseMembers, skipSpace_spaces ws hws 0x22 _ (by decide)]
  have h1 : skipSpace (0x3A :: 0x20 :: vrest) = 0x3A :: 0x20 :: vrest :=
    skipSpace_of_not_space 0x3A _ (by decide)
  have h2 : skipSpace (ws2 ++ 0x7D :: rest) = 0x7D :: rest :=
    skipSpace_spaces ws2 hws2 0x7D _ (by decide)
  simp [UInt8.size, scanString_key key hkey, h1, hval, h2]

theorem plainByte_of_isTimeByte (b : UInt8) (h : isTimeByte b = true) : plainByte b = true := by
  simp only [isTimeByte, isDigit, Bool.or_eq_true, Bool.and_eq_true, decide_eq_true_eq] at h
  simp only [plainByte, Bool.and_eq_true, decide_eq_true_eq, bne_iff_ne, ne_eq]
  omega

theorem time_plain (w : Time) (h : w.wellFormed = true) : w.rfc3339.all plainByte = true := by
  rw [List.all_eq_true]
  intro b hb
  exact plainByte_of_isTimeByte b (List.all_eq_true.mp h b hb)

/-- The text of one task, with what follows it, byte by byte. -/
theorem marshalTask_append (t : Task) (after : GoString) :
    marshalTask t ++ after =
      0x20 :: 0x20 :: 0x7B :: 0x0A :: 0x20 :: 0x20 :: 0x20 :: 0x20 :: 0x22 ::
        (lit "id" ++ 0x22 :: 0x3A :: 0x20 ::
          (fmtD t.ID ++ 0x2C :: 0x0A :: 0x20 :: 0x20 :: 0x20 :: 0x20 :: 0x22 ::
            (lit "text" ++ 0x22 :: 0x3A :: 0x20 :: 0x22 ::
              (stringBody t.Text ++ 0x22 :: 0x2C :: 0x0A :: 0x20 :: 0x20 :: 0x20 :: 0x20 :: 0x22 ::
                (lit "done" ++ 0x22 :: 0x3A :: 0x20 ::
                  ((if t.Done then lit "true" else lit "false") ++
                    0x2C :: 0x0A :: 0x20 :: 0x20 :: 0x20 :: 0x20 :: 0x22 ::
                      (lit "when" ++ 0x22 :: 0x3A :: 0x20 :: 0x22 ::
                        (t.When.rfc3339 ++ 0x22 :: 0x0A :: 0x20 :: 0x20 :: 0x7D :: after)))))))) := by
  have l1 : lit "  \x7b\n    \"id\": "
      = 0x20 :: 0x20 :: 0x7B :: 0x0A :: 0x20 :: 0x20 :: 0x20 :: 0x20 :: 0x22 ::
          (lit "id" ++ [0x22, 0x3A, 0x20]) := by decide
  have l2 : lit ",\n    \"text\": "
      = 0x2C :: 0x0A :: 0x20 :: 0x20 :: 0x20 :: 0x20 :: 0x22 ::
          (lit "text" ++ [0x22, 0x3A, 0x20]) := by decide
  have l3 : lit ",\n    \"done\": "
      = 0x2C :: 0x0A :: 0x20 :: 0x20 :: 0x20 :: 0x20 :: 0x22 ::
          (lit "done" ++ [0x22, 0x3A, 0x20]) := by decide
  have l4 : lit ",\n    \"when\": \""
      = 0x2C :: 0x0A :: 0x20 :: 0x20 :: 0x20 :: 0x20 :: 0x22 ::
          (lit "when" ++ [0x22, 0x3A, 0x20, 0x22]) := by decide
  have l5 : lit "\"\n  \x7d" = [0x22, 0x0A, 0x20, 0x20, 0x7D] := by decide
  unfold marshalTask appendString
  rw [l1, l2, l3, l4, l5]
  simp only [List.append_assoc, List.cons_append, List.nil_append]

/-- The scanner reads the text of one task as the object `taskJSON`. -/
theorem parseValue_task (F d : Nat) (t : Task) (ws after : GoString)
    (hws : ws.all isSpace = true) (htime : t.When.wellFormed = true) :
    parseValue (F + 6) (d + 1) (ws ++ (marshalTask t ++ after)) = some (taskJSON t, after) := by
  rw [marshalTask_append, parseValue_succ]
  have hws' : (ws ++ [0x20, 0x20]).all isSpace = true := by
    rw [List.all_append, hws]; decide
  have hskip0 : ∀ X : GoString, skipSpace (ws ++ 0x20 :: 0x20 :: 0x7B :: X) = 0x7B :: X := by
    intro X
    have := skipSpace_spaces (ws ++ [0x20, 0x20]) hws' 0x7B X (by decide)
    simpa using this
  have hskip1 : ∀ X : GoString,
      skipSpace (0x0A :: 0x20 :: 0x20 :: 0x20 :: 0x20 :: 0x22 :: X) = 0x22 :: X := by
    intro X
    exact skipSpace_spaces [0x0A, 0x20, 0x20, 0x20, 0x20] (by decide) 0x22 X (by decide)
  rw [hskip0]
  simp only [hskip1]
  have hb : (0x7B : UInt8).toNat = 0x7B := by decide
  have hq : (0x22 : UInt8).toNat = 0x22 := by decide
  simp only [hb, hq, Nat.add_one_ne_zero, if_false, if_true, Nat.add_sub_cancel,
    show ¬ (0x7B : Nat) = 0x5B by decide, show ¬ (0x22 : Nat) = 0x7D by decide]
  have hw4 : ([0x0A, 0x20, 0x20, 0x20, 0x20] : GoString).all isSpace = true := by decide
  -- the four members, from the last to the first
  have m4 := parseMembers_close (F + 1) d [0x0A, 0x20, 0x20, 0x20, 0x20] (lit "when")
    (0x22 :: (t.When.rfc3339 ++ 0x22 :: 0x0A :: 0x20 :: 0x20 :: 0x7D :: after))
    [0x0A, 0x20, 0x20] after (JSON.str t.When.rfc3339)
    [(lit "id", JSON.num (fmtD t.ID)), (lit "text", JSON.str (stringBody t.Text)),
      (lit "done", JSON.bool t.Done)]
    hw4 (by decide) (by decide)
    (parseValue_str F d _ _ (scanString_key _ (time_plain _ htime) _))
  have m3 := parseMembers_comma (F + 2) d [0x0A, 0x20, 0x20, 0x20, 0x20] (lit "done")
    ((if t.Done then lit "true" else lit "false") ++
      0x2C :: 0x0A :: 0x20 :: 0x20 :: 0x20 :: 0x20 :: 0x22 ::
        (lit "when" ++ 0x22 :: 0x3A :: 0x20 :: 0x22 ::
          (t.When.rfc3339 ++ 0x22 :: 0x0A :: 0x20 :: 0x20 :: 0x7D :: after)))
    _ (JSON.bool t.Done)
    [(lit "id", JSON.num (fmtD t.ID)), (lit "text", JSON.str (stringBody t.Text))]
    hw4 (by decide) (parseValue_bool (F + 1) d t.Done _)
  have m2 := parseMembers_comma (F + 3) d [0x0A, 0x20, 0x20, 0x20, 0x20] (lit "text")
    (0x22 :: (stringBody t.Text ++ 0x22 :: 0x2C :: 0x0A :: 0x20 :: 0x20 :: 0x20 :: 0x20 :: 0x22 ::
      (lit "done" ++ 0x22 :: 0x3A :: 0x20 ::
        ((if t.Done then lit "true" else lit "false") ++
          0x2C :: 0x0A :: 0x20 :: 0x20 :: 0x20 :: 0x20 :: 0x22 ::
            (lit "when" ++ 0x22 :: 0x3A :: 0x20 :: 0x22 ::
              (t.When.rfc3339 ++ 0x22 :: 0x0A :: 0x20 :: 0x20 :: 0x7D :: after))))))
    _ (JSON.str (stringBody t.Text))
    [(lit "id", JSON.num (fmtD t.ID))]
    hw4 (by decide) (parseValue_str (F + 2) d _ _ (scanString_stringBody _ _))
  have m1 := parseMembers_comma (F + 4) d [0x0A, 0x20, 0x20, 0x20, 0x20] (lit "id")
    (fmtD t.ID ++ 0x2C :: 0x0A :: 0x20 :: 0x20 :: 0x20 :: 0x20 :: 0x22 ::
      (lit "text" ++ 0x22 :: 0x3A :: 0x20 :: 0x22 ::
        (stringBody t.Text ++ 0x22 :: 0x2C :: 0x0A :: 0x20 :: 0x20 :: 0x20 :: 0x20 :: 0x22 ::
          (lit "done" ++ 0x22 :: 0x3A :: 0x20 ::
            ((if t.Done then lit "true" else lit "false") ++
              0x2C :: 0x0A :: 0x20 :: 0x20 :: 0x20 :: 0x20 :: 0x22 ::
                (lit "when" ++ 0x22 :: 0x3A :: 0x20 :: 0x22 ::
                  (t.When.rfc3339 ++ 0x22 :: 0x0A :: 0x20 :: 0x20 :: 0x7D :: after)))))))
    _ (JSON.num (fmtD t.ID)) []
    hw4 (by decide) (parseValue_num (F + 3) d t.ID _)
  simp only [List.cons_append, List.nil_append] at m1 m2 m3 m4
  rw [m1, m2, m3, m4]
  rfl

theorem parseItems_succ (fuel depth : Nat) (s : GoString) (acc : List JSON) :
    parseItems (fuel + 1) depth s acc =
    match parseValue fuel depth s with
    | none => none
    | some (v, rest) =>
      match skipSpace rest with
      | [] => none
      | c :: rest1 =>
        if c.toNat = 0x2C then parseItems fuel depth rest1 (acc ++ [v])
        else if c.toNat = 0x5D then some (JSON.arr (acc ++ [v]), rest1)
        else none := by
  rw [parseItems]
  try rfl

/-- The scanner reads the tasks that `saveTasks` writes between the brackets. -/
theorem parseItems_tasks (tasks : List Task) :
    ∀ (t : Task) (F d : Nat) (acc : List JSON),
      (∀ u ∈ t :: tasks, u.When.wellFormed = true) → tasks.length + 7 ≤ F →
      parseItems F (d + 1) (0x0A :: (marshalTasks (t :: tasks) ++ [0x0A, 0x5D])) acc
        = some (JSON.arr (acc ++ (t :: tasks).map taskJSON), []) := by
  induction tasks with
  | nil =>
    intro t F d acc htime hF
    obtain ⟨F', rfl⟩ : ∃ F', F = F' + 6 + 1 := ⟨F - 7, by simp at hF; omega⟩
    rw [parseItems_succ]
    have hv := parseValue_task F' d t [0x0A] [0x0A, 0x5D] (by decide)
      (htime t (List.mem_cons_self _ _))
    simp only [List.singleton_append] at hv
    simp only [marshalTasks, hv]
    have hs : skipSpace ([0x0A, 0x5D] : GoString) = [0x5D] := by decide
    simp [hs, UInt8.size]
  | cons u rest ih =>
    intro t F d acc htime hF
    obtain ⟨F', rfl⟩ : ∃ F', F = F' + 6 + 1 := ⟨F - 7, by simp at hF; omega⟩
    rw [parseItems_succ]
    have hl : lit ",\n" = [0x2C, 0x0A] := by decide
    have htext : 0x0A :: (marshalTasks (t :: u :: rest) ++ [0x0A, 0x5D])
        = [0x0A] ++ (marshalTask t ++
            0x2C :: 0x0A :: (marshalTasks (u :: rest) ++ [0x0A, 0x5D])) := by
      simp only [marshalTasks, hl, List.append_assoc, List.cons_append, List.nil_append]
    rw [htext, parseValue_task F' d t [0x0A] _ (by decide) (htime t (List.mem_cons_self _ _))]
    have hs : ∀ X : GoString, skipSpace (0x2C :: X) = 0x2C :: X :=
      fun X => skipSpace_of_not_space 0x2C X (by decide)
    simp only [hs]
    have hc : (0x2C : UInt8).toNat = 0x2C := by decide
    simp only [hc, if_true]
    rw [ih u (F' + 6) d (acc ++ [taskJSON t])
      (fun w hw => htime w (List.mem_cons_of_mem _ hw)) (by simp at hF ⊢; omega)]
    simp

theorem marshalTask_length (t : Task) : 13 ≤ (marshalTask t).length := by
  unfold marshalTask
  have : (lit "  \x7b\n    \"id\": ").length = 14 := by decide
  simp only [List.length_append, this]
  omega

theorem marshalTasks_length (tasks : List Task) :
    13 * tasks.length ≤ (marshalTasks tasks).length := by
  induction tasks with
  | nil => simp
  | cons t rest ih =>
    cases rest with
    | nil =>
      have := marshalTask_length t
      simpa [marshalTasks] using this
    | cons u rest =>
      have := marshalTask_length t
      simp only [marshalTasks, List.length_append, List.length_cons] at ih ⊢
      omega

/-- The scanner reads what `saveTasks` writes as the array of the `taskJSON` values. -/
theorem parseJSON_indentBytes (tasks : List Task)
    (htime : ∀ t ∈ tasks, t.When.wellFormed = true) :
    parseJSON (indentBytes tasks) = some (JSON.arr (tasks.map taskJSON)) := by
  cases tasks with
  | nil => rfl
  | cons t rest =>
    have hl1 : lit "[\n" = [0x5B, 0x0A] := by decide
    have hl2 : lit "\n]" = [0x0A, 0x5D] := by decide
    have htext : indentBytes (t :: rest)
        = 0x5B :: 0x0A :: (marshalTasks (t :: rest) ++ [0x0A, 0x5D]) := by
      simp only [indentBytes, hl1, hl2, List.append_assoc, List.cons_append,
        List.nil_append]
    have hlen := marshalTasks_length (t :: rest)
    have hhead : ∃ X, marshalTasks (t :: rest) ++ [0x0A, 0x5D] = 0x20 :: 0x20 :: 0x7B :: X := by
      cases rest with
      | nil => exact ⟨_, marshalTask_append t _⟩
      | cons u rest =>
        have := marshalTask_append t (lit ",\n" ++ (marshalTasks (u :: rest) ++ [0x0A, 0x5D]))
        exact ⟨_, by simp only [marshalTasks, List.append_assoc]; exact this⟩
    obtain ⟨X, hX⟩ := hhead
    unfold parseJSON
    rw [htext]
    obtain ⟨F, hF⟩ : ∃ F, 2 * (0x5B :: 0x0A :: (marshalTasks (t :: rest)
        ++ [0x0A, 0x5D])).length + 2 = F + 1 := ⟨_, rfl⟩
    have hFbig : rest.length + 7 ≤ F := by
      simp only [List.length_cons, List.length_append, List.length_nil] at hF hlen
      omega
    rw [hF, parseValue_succ]
    have hs0 : ∀ Y : GoString, skipSpace (0x5B :: Y) = 0x5B :: Y :=
      fun Y => skipSpace_of_not_space 0x5B Y (by decide)
    have hs1 : skipSpace (0x0A :: (marshalTasks (t :: rest) ++ [0x0A, 0x5D])) = 0x7B :: X := by
      rw [hX]
      exact skipSpace_spaces [0x0A, 0x20, 0x20] (by decide) 0x7B X (by decide)
    simp only [hs0, hs1]
    have hb : (0x5B : UInt8).toNat = 0x5B := by decide
    have hc : (0x7B : UInt8).toNat = 0x7B := by decide
    have hd : ¬ maxNestingDepth = 0 := by decide
    simp only [hb, hc, hd, if_true, if_false, show ¬ (0x7B : Nat) = 0x5D by decide]
    have hdepth : maxNestingDepth - 1 = 9998 + 1 := by decide
    rw [hdepth, parseItems_tasks rest t F 9998 [] htime hFbig]
    simp [skipSpace]

/-! ### Storing what was read into tasks -/

/-- Storing the object written for a task gives the task back, with its text coerced to
valid UTF-8 and its time read by `parseTime`. -/
theorem decodeTask_taskJSON (parseTime : GoString → Option Time) (t : Task)
    (hid : minInt ≤ t.ID ∧ t.ID ≤ maxInt) (hw : (parseTime t.When.rfc3339).isSome = true)
    (saved : Option JsonError) :
    decodeTask parseTime (taskJSON t) saved = .ok (reloaded parseTime t, saved) := by
  obtain ⟨w, hw'⟩ := Option.isSome_iff_exists.mp hw
  have k1 : unquote (lit "id") = some (lit "id") := by decide
  have k2 : unquote (lit "text") = some (lit "text") := by decide
  have k3 : unquote (lit "done") = some (lit "done") := by decide
  have k4 : unquote (lit "when") = some (lit "when") := by decide
  have f11 : foldEq (lit "id") (lit "id") = true := by decide
  have f21 : foldEq (lit "text") (lit "id") = false := by decide
  have f22 : foldEq (lit "text") (lit "text") = true := by decide
  have f31 : foldEq (lit "done") (lit "id") = false := by decide
  have f32 : foldEq (lit "done") (lit "text") = false := by decide
  have f33 : foldEq (lit "done") (lit "done") = true := by decide
  have f41 : foldEq (lit "when") (lit "id") = false := by decide
  have f42 : foldEq (lit "when") (lit "text") = false := by decide
  have f43 : foldEq (lit "when") (lit "done") = false := by decide
  have f44 : foldEq (lit "when") (lit "when") = true := by decide
  simp only [decodeTask, taskJSON, decodeMembers, decodeMember, k1, k2, k3, k4, f11, f21, f22,
    f31, f32, f33, f41, f42, f43, f44, if_true, Bool.false_eq_true, if_false,
    Atoi_fmtD t.ID hid.1 hid.2, unquote_stringBody, hw', reloaded, Option.getD_some, zeroTask]

theorem decodeItems_tasks (parseTime : GoString → Option Time) (tasks : List Task)
    (hid : ∀ t ∈ tasks, minInt ≤ t.ID ∧ t.ID ≤ maxInt)
    (hw : ∀ t ∈ tasks, (parseTime t.When.rfc3339).isSome = true)
    (saved : Option JsonError) :
    decodeItems parseTime (tasks.map taskJSON) saved
      = .ok (tasks.map (reloaded parseTime), saved) := by
  induction tasks with
  | nil => rfl
  | cons t rest ih =>
    simp only [List.map_cons, decodeItems,
      decodeTask_taskJSON parseTime t (hid t (List.mem_cons_self _ _))
        (hw t (List.mem_cons_self _ _)) saved,
      ih (fun u hu => hid u (List.mem_cons_of_mem _ hu))
        (fun u hu => hw u (List.mem_cons_of_mem _ hu))]

theorem indentBytes_length (tasks : List Task) : 2 ≤ (indentBytes tasks).length := by
  cases tasks with
  | nil => decide
  | cons t rest =>
    have hl1 : (lit "[\n").length = 2 := by decide
    simp only [indentBytes, List.length_append, hl1]
    omega

/-- What `loadTasks` reads from the file that `saveTasks` wrote. -/
theorem loadTasks_indentBytes (parseTime : GoString → Option Time) (tasks : List Task)
    (hid : ∀ t ∈ tasks, minInt ≤ t.ID ∧ t.ID ≤ maxInt)
    (htime : ∀ t ∈ tasks,
      t.When.wellFormed = true ∧ (parseTime t.When.rfc3339).isSome = true) :
    loadTasks parseTime (some (indentBytes tasks)) = .ok (tasks.map (reloaded parseTime)) := by
  have hlen := indentBytes_length tasks
  have hne : ¬ (indentBytes tasks).length = 0 := by omega
  simp only [loadTasks, hne, if_false, Unmarshal,
    parseJSON_indentBytes tasks (fun t ht => (htime t ht).1),
    decodeItems_tasks parseTime tasks hid (fun t ht => (htime t ht).2) none]

/-! ### Saving and loading (claim C9) -/

/-- Claim C9, as the code has it: for every task list whose ids fit an `int` and whose
times are written as RFC 3339 text that `parseTime` accepts, `saveTasks` succeeds when
`Time.MarshalJSON` accepts every time, and loading what `saveTasks` wrote succeeds and
yields the same number of tasks in the same order, each with the same id and done flag
and with its text coerced to valid UTF-8 (every byte that is not part of a valid encoding
replaced by U+FFFD); when every text is valid UTF-8, whatever characters it holds, the
texts are the same too. -/
theorem save_load (parseTime : GoString → Option Time) (tasks : List Task)
    (hid : ∀ t ∈ tasks, minInt ≤ t.ID ∧ t.ID ≤ maxInt)
    (htime : ∀ t ∈ tasks,
      t.When.wellFormed = true ∧ (parseTime t.When.rfc3339).isSome = true) :
    ((∀ t ∈ tasks, t.When.writable = true) → ∃ b, saveTasks tasks = .ok b) ∧
    ∀ b, saveTasks tasks = .ok b →
      ∃ loaded, loadTasks parseTime (some b) = .ok loaded ∧
        loaded.length = tasks.length ∧
        loaded.map (fun t => (t.ID, t.Text, t.Done))
          = tasks.map (fun t => (t.ID, toValidUTF8 t.Text, t.Done)) ∧
        ((∀ t ∈ tasks, ValidString t.Text = true) →
          loaded.map (fun t => (t.ID, t.Text, t.Done))
            = tasks.map (fun t => (t.ID, t.Text, t.Done))) := by
  refine ⟨fun hw => ⟨_, saveTasks_ok tasks hw⟩, ?_⟩
  intro b hb
  rw [(saveTasks_eq_ok tasks b hb).1]
  refine ⟨tasks.map (reloaded parseTime), loadTasks_indentBytes parseTime tasks hid htime,
    by simp, ?_, ?_⟩
  · rw [List.map_map]
    rfl
  · intro hvalid
    rw [List.map_map]
    apply List.map_congr_left
    intro t ht
    simp only [Function.comp, reloaded, toValidUTF8_of_valid t.Text (hvalid t ht)]

/-- Witness of `save_load`: two tasks whose texts hold a quote, a backslash, a line
break, `<` and the two-byte letter U+00E9. -/
theorem save_load_witness :
    (∀ t ∈ [mkTask 1 "say \"hi\" \\ <b>\n" false,
        (⟨2, [0x63, 0x61, 0x66, 0xC3, 0xA9], true, ⟨lit "2024-05-02T09:30:00.5+02:00"⟩⟩ : Task)],
      minInt ≤ t.ID ∧ t.ID ≤ maxInt) ∧
    (∀ t ∈ [mkTask 1 "say \"hi\" \\ <b>\n" false,
        (⟨2, [0x63, 0x61, 0x66, 0xC3, 0xA9], true, ⟨lit "2024-05-02T09:30:00.5+02:00"⟩⟩ : Task)],
      t.When.wellFormed = true ∧ (anyTime t.When.rfc3339).isSome = true) ∧
    (∀ t ∈ [mkTask 1 "say \"hi\" \\ <b>\n" false,
        (⟨2, [0x63, 0x61, 0x66, 0xC3, 0xA9], true, ⟨lit "2024-05-02T09:30:00.5+02:00"⟩⟩ : Task)],
      t.When.writable = true) ∧
    saveTasks [mkTask 1 "say \"hi\" \\ <b>\n" false,
        (⟨2, [0x63, 0x61, 0x66, 0xC3, 0xA9], true, ⟨lit "2024-05-02T09:30:00.5+02:00"⟩⟩ : Task)]
      = .ok (indentBytes [mkTask 1 "say \"hi\" \\ <b>\n" false,
        (⟨2, [0x63, 0x61, 0x66, 0xC3, 0xA9], true,
          ⟨lit "2024-05-02T09:30:00.5+02:00"⟩⟩ : Task)]) ∧
    ∃ loaded,
      loadTasks anyTime (some (indentBytes [mkTask 1 "say \"hi\" \\ <b>\n" false,
        (⟨2, [0x63, 0x61, 0x66, 0xC3, 0xA9], true, ⟨lit "2024-05-02T09:30:00.5+02:00"⟩⟩ : Task)]))
        = .ok loaded ∧
      loaded.length = [mkTask 1 "say \"hi\" \\ <b>\n" false,
        (⟨2, [0x63, 0x61, 0x66, 0xC3, 0xA9], true,
          ⟨lit "2024-05-02T09:30:00.5+02:00"⟩⟩ : Task)].length ∧
      loaded.map (fun t => (t.ID, t.Text, t.Done))
        = [mkTask 1 "say \"hi\" \\ <b>\n" false,
            (⟨2, [0x63, 0x61, 0x66, 0xC3, 0xA9], true,
              ⟨lit "2024-05-02T09:30:00.5+02:00"⟩⟩ : Task)].map
            (fun t => (t.ID, toValidUTF8 t.Text, t.Done)) ∧
      ((∀ t ∈ [mkTask 1 "say \"hi\" \\ <b>\n" false,
          (⟨2, [0x63, 0x61, 0x66, 0xC3, 0xA9], true,
            ⟨lit "2024-05-02T09:30:00.5+02:00"⟩⟩ : Task)], ValidString t.Text = true) →
        loaded.map (fun t => (t.ID, t.Text, t.Done))
          = [mkTask 1 "say \"hi\" \\ <b>\n" false,
              (⟨2, [0x63, 0x61, 0x66, 0xC3, 0xA9], true,
                ⟨lit "2024-05-02T09:30:00.5+02:00"⟩⟩ : Task)].map
              (fun t => (t.ID, t.Text, t.Done))) :=
  ⟨by decide, by decide, by decide, saveTasks_ok _ (by decide),
   (save_load anyTime _ (by decide) (by decide)).2 _ (saveTasks_ok _ (by decide))⟩

/-- Claim C9 fails as stated: a task whose text is the single byte 0xFF, which is not
valid UTF-8, is written with the escape of U+FFFD and loaded with the three bytes of
U+FFFD as its text. -/
theorem save_load_changes_invalid_text :
    saveTasks [⟨1, [0xFF], false, ⟨lit "2024-05-01T10:00:00Z"⟩⟩]
      = .ok (lit "[\n  \x7b\n    \"id\": 1,\n    \"text\": \"\\ufffd\",\n    \"done\": false,\n    \"when\": \"2024-05-01T10:00:00Z\"\n  \x7d\n]") ∧
    loadTasks anyTime (some (lit "[\n  \x7b\n    \"id\": 1,\n    \"text\": \"\\ufffd\",\n    \"done\": false,\n    \"when\": \"2024-05-01T10:00:00Z\"\n  \x7d\n]"))
      = .ok [⟨1, [0xEF, 0xBF, 0xBD], false, ⟨lit "2024-05-01T10:00:00Z"⟩⟩] ∧
    ([0xEF, 0xBF, 0xBD] : GoString) ≠ [0xFF] := by
  refine ⟨?_, ?_, by decide⟩
  · set_option maxRecDepth 8000 in decide
  · set_option maxRecDepth 8000 in decide

/-! ### `add` writes one new task (claim C4) -/

/-- Claim C4, as the code has it: for every store and every non-empty argument list,
`add` makes exactly one new task, whose text is the arguments joined with single spaces,
whose flag is false, whose time is the current time and whose id, when all ids are below
the largest machine int, is one more than the largest id if that is not negative, and 1
if the store is empty or holds only negative ids.  When `Time.MarshalJSON` accepts the
times of the store and the current time, `add` succeeds and writes the old task sequence
followed by the new task; what it wrote is read back as the old tasks followed by the
new one, the text of each coerced to valid UTF-8, so that the stored text of the new
task is the joined arguments when these are valid UTF-8.  When `Time.MarshalJSON`
refuses one of the times, `add` returns the error of the encoder and writes nothing. -/
theorem cmdAdd_appends (tasks : List Task) (args : List GoString) (now : Time)
    (hargs : args ≠ []) :
    ∃ t : Task,
      t.Text = Join args (lit " ") ∧ t.Done = false ∧ t.When = now ∧
      t.ID = nextID tasks ∧
      ((∀ u ∈ tasks, u.ID < maxInt) →
        (tasks = [] → t.ID = 1) ∧
        (∀ m, IsMaxID tasks m → 0 ≤ m → t.ID = m + 1) ∧
        (∀ m, IsMaxID tasks m → m < 0 → t.ID = 1)) ∧
      (((∀ u ∈ tasks, u.When.writable = true) ∧ now.writable = true) →
        cmdAdd args now tasks =
          ⟨none, some (tasks ++ [t]),
            lit "added " ++ fmtD t.ID ++ lit ": " ++ t.Text ++ lit "\n"⟩ ∧
        saveTasks (tasks ++ [t]) = .ok (indentBytes (tasks ++ [t])) ∧
        ∀ parseTime : GoString → Option Time,
          (∀ u ∈ tasks ++ [t], minInt ≤ u.ID ∧ u.ID ≤ maxInt) →
          (∀ u ∈ tasks ++ [t],
            u.When.wellFormed = true ∧ (parseTime u.When.rfc3339).isSome = true) →
          ∃ t' : Task,
            loadTasks parseTime (some (indentBytes (tasks ++ [t])))
              = .ok (tasks.map (reloaded parseTime) ++ [t']) ∧
            t'.ID = t.ID ∧ t'.Done = false ∧
            t'.Text = toValidUTF8 (Join args (lit " ")) ∧
            (ValidString (Join args (lit " ")) = true → t'.Text = Join args (lit " "))) ∧
      ((¬ ((∀ u ∈ tasks, u.When.writable = true) ∧ now.writable = true)) →
        (∃ e, cmdAdd args now tasks
          = ⟨some (lit "json: error calling MarshalJSON for type time.Time: " ++ e),
              none, []⟩) ∧
        (cmdAdd args now tasks).storeAfter tasks = tasks) := by
  refine ⟨⟨nextID tasks, Join args (lit " "), false, now⟩, rfl, rfl, rfl, rfl, ?_, ?_, ?_⟩
  · intro hlt
    have hloop := nextID_eq_loop tasks hlt
    refine ⟨?_, ?_, ?_⟩
    · intro hnil
      show nextID tasks = 1
      rw [hnil]
      decide
    · intro m hm h0
      show nextID tasks = m + 1
      rw [hloop, nextIDLoop_isMax tasks m hm, if_pos h0]
    · intro m hm h0
      show nextID tasks = 1
      rw [hloop, nextIDLoop_isMax tasks m hm, if_neg (by omega)]
      rfl
  · intro hw
    refine ⟨cmdAdd_nonempty tasks args now hargs hw.1 hw.2,
      saveTasks_ok _ ((writable_append tasks ⟨_, _, _, now⟩).mpr hw), ?_⟩
    intro parseTime hid htime
    refine ⟨reloaded parseTime ⟨nextID tasks, Join args (lit " "), false, now⟩, ?_, rfl, rfl,
      rfl, ?_⟩
    · rw [loadTasks_indentBytes parseTime _ hid htime, List.map_append]
      rfl
    · intro hvalid
      show toValidUTF8 (Join args (lit " ")) = Join args (lit " ")
      exact toValidUTF8_of_valid _ hvalid
  · intro hw
    obtain ⟨e, he⟩ := cmdAdd_unwritable tasks args now hargs hw
    refine ⟨⟨e, he⟩, ?_⟩
    rw [he]
    rfl

/-- Witness of `cmdAdd_appends`: adding "call mom" to a store holding task 1. -/
theorem cmdAdd_appends_witness :
    [lit "call", lit "mom"] ≠ [] ∧
    ((∀ u ∈ [mkTask 1 "buy milk" false], u.When.writable = true) ∧
      (⟨lit "2024-05-02T09:30:00Z"⟩ : Time).writable = true) ∧
    (∀ u ∈ [mkTask 1 "buy milk" false], u.ID < maxInt) ∧
    cmdAdd [lit "call", lit "mom"] ⟨lit "2024-05-02T09:30:00Z"⟩ [mkTask 1 "buy milk" false]
      = ⟨none, some [mkTask 1 "buy milk" false,
            ⟨2, lit "call mom", false, ⟨lit "2024-05-02T09:30:00Z"⟩⟩],
          lit "added 2: call mom\n"⟩ ∧
    loadTasks anyTime (some (indentBytes [mkTask 1 "buy milk" false,
        ⟨2, lit "call mom", false, ⟨lit "2024-05-02T09:30:00Z"⟩⟩]))
      = .ok [mkTask 1 "buy milk" false,
          ⟨2, lit "call mom", false, ⟨lit "2024-05-02T09:30:00Z"⟩⟩] ∧
    ∃ t : Task,
      t.Text = Join [lit "call", lit "mom"] (lit " ") ∧ t.Done = false ∧
      t.When = ⟨lit "2024-05-02T09:30:00Z"⟩ ∧
      t.ID = nextID [mkTask 1 "buy milk" false] ∧
      ((∀ u ∈ [mkTask 1 "buy milk" false], u.ID < maxInt) →
        ([mkTask 1 "buy milk" false] = [] → t.ID = 1) ∧
        (∀ m, IsMaxID [mkTask 1 "buy milk" false] m → 0 ≤ m → t.ID = m + 1) ∧
        (∀ m, IsMaxID [mkTask 1 "buy milk" false] m → m < 0 → t.ID = 1)) ∧
      (((∀ u ∈ [mkTask 1 "buy milk" false], u.When.writable = true) ∧
          (⟨lit "2024-05-02T09:30:00Z"⟩ : Time).writable = true) →
        cmdAdd [lit "call", lit "mom"] ⟨lit "2024-05-02T09:30:00Z"⟩
            [mkTask 1 "buy milk" false] =
          ⟨none, some ([mkTask 1 "buy milk" false] ++ [t]),
            lit "added " ++ fmtD t.ID ++ lit ": " ++ t.Text ++ lit "\n"⟩ ∧
        saveTasks ([mkTask 1 "buy milk" false] ++ [t])
          = .ok (indentBytes ([mkTask 1 "buy milk" false] ++ [t])) ∧
        ∀ parseTime : GoString → Option Time,
          (∀ u ∈ [mkTask 1 "buy milk" false] ++ [t], minInt ≤ u.ID ∧ u.ID ≤ maxInt) →
          (∀ u ∈ [mkTask 1 "buy milk" false] ++ [t],
            u.When.wellFormed = true ∧ (parseTime u.When.rfc3339).isSome = true) →
          ∃ t' : Task,
            loadTasks parseTime (some (indentBytes ([mkTask 1 "buy milk" false] ++ [t])))
              = .ok ([mkTask 1 "buy milk" false].map (reloaded parseTime) ++ [t']) ∧
            t'.ID = t.ID ∧ t'.Done = false ∧
            t'.Text = toValidUTF8 (Join [lit "call", lit "mom"] (lit " ")) ∧
            (ValidString (Join [lit "call", lit "mom"] (lit " ")) = true →
              t'.Text = Join [lit "call", lit "mom"] (lit " "))) ∧
      ((¬ ((∀ u ∈ [mkTask 1 "buy milk" false], u.When.writable = true) ∧
          (⟨lit "2024-05-02T09:30:00Z"⟩ : Time).writable = true)) →
        (∃ e, cmdAdd [lit "call", lit "mom"] ⟨lit "2024-05-02T09:30:00Z"⟩
            [mkTask 1 "buy milk" false]
          = ⟨some (lit "json: error calling MarshalJSON for type time.Time: " ++ e),
              none, []⟩) ∧
        (cmdAdd [lit "call", lit "mom"] ⟨lit "2024-05-02T09:30:00Z"⟩
            [mkTask 1 "buy milk" false]).storeAfter [mkTask 1 "buy milk" false]
          = [mkTask 1 "buy milk" false]) :=
  ⟨by decide, by decide, by decide, by decide, by set_option maxRecDepth 8000 in decide,
   cmdAdd_appends [mkTask 1 "buy milk" false] [lit "call", lit "mom"]
     ⟨lit "2024-05-02T09:30:00Z"⟩ (by decide)⟩

/-- Claim C4 fails as stated: on a store whose only id is -5 the new task gets id 1, not
1 + (-5), and on a store holding the largest machine int the new task gets the smallest
int; on a store whose task has a time with a zone offset of 24 hours, which `loadTasks`
reads from the file without error, `add` fails with the error of the encoder and writes
nothing; and with the argument 0xFF, which is not valid UTF-8, `add` succeeds and the
text that is read back from the file is U+FFFD, not the argument. -/
theorem cmdAdd_id_not_max_plus_one :
    (IsMaxID [mkTask (-5) "a" false] (-5) ∧
      (cmdAdd [lit "b"] ⟨lit "2024-05-01T10:00:00Z"⟩ [mkTask (-5) "a" false]).saved
        = some [mkTask (-5) "a" false, mkTask 1 "b" false] ∧ (1 : Int) ≠ 1 + -5) ∧
    (IsMaxID [mkTask maxInt "a" false] maxInt ∧
      (cmdAdd [lit "b"] ⟨lit "2024-05-01T10:00:00Z"⟩ [mkTask maxInt "a" false]).saved
        = some [mkTask maxInt "a" false, mkTask minInt "b" false] ∧ minInt ≠ 1 + maxInt) ∧
    (loadTasks anyTime (some (lit "[\x7b\"id\":1,\"text\":\"a\",\"done\":false,\"when\":\"2024-05-01T10:00:00+24:00\"\x7d]"))
        = .ok [⟨1, lit "a", false, ⟨lit "2024-05-01T10:00:00+24:00"⟩⟩] ∧
      cmdAdd [lit "b"] ⟨lit "2024-05-01T10:00:00Z"⟩
          [⟨1, lit "a", false, ⟨lit "2024-05-01T10:00:00+24:00"⟩⟩]
        = ⟨some (lit "json: error calling MarshalJSON for type time.Time: Time.MarshalJSON: timezone hour outside of range [0,23]"),
            none, []⟩) ∧
    (cmdAdd [[0xFF]] ⟨lit "2024-05-01T10:00:00Z"⟩ []
        = ⟨none, some [⟨1, [0xFF], false, ⟨lit "2024-05-01T10:00:00Z"⟩⟩],
            lit "added 1: " ++ [0xFF] ++ lit "\n"⟩ ∧
      saveTasks [⟨1, [0xFF], false, ⟨lit "2024-05-01T10:00:00Z"⟩⟩]
        = .ok (lit "[\n  \x7b\n    \"id\": 1,\n    \"text\": \"\\ufffd\",\n    \"done\": false,\n    \"when\": \"2024-05-01T10:00:00Z\"\n  \x7d\n]") ∧
      loadTasks anyTime (some (lit "[\n  \x7b\n    \"id\": 1,\n    \"text\": \"\\ufffd\",\n    \"done\": false,\n    \"when\": \"2024-05-01T10:00:00Z\"\n  \x7d\n]"))
        = .ok [⟨1, [0xEF, 0xBF, 0xBD], false, ⟨lit "2024-05-01T10:00:00Z"⟩⟩]) := by
  refine ⟨⟨⟨⟨_, List.mem_singleton.mpr rfl, rfl⟩, ?_⟩, by decide, by decide⟩,
    ⟨⟨⟨_, List.mem_singleton.mpr rfl, rfl⟩, ?_⟩, by decide, by decide⟩,
    ⟨by decide, by decide⟩, ⟨by decide, ?_, ?_⟩⟩
  · intro t ht; rw [List.mem_singleton.mp ht]; decide
  · intro t ht; rw [List.mem_singleton.mp ht]; decide
  · set_option maxRecDepth 8000 in decide
  · set_option maxRecDepth 8000 in decide

/-! ### Arguments that `parseID` rejects (claim C11) -/

theorem decimalValue_append_single (xs : GoString) (d : UInt8) :
    decimalValue (xs ++ [d]) = decimalValue xs * 10 + (d.toNat - 48) := by
  simp only [decimalValue, List.reverse_append, List.reverse_cons, List.reverse_nil,
    List.nil_append, List.singleton_append, List.map_cons, Nat.ofDigits_cons]
  omega

/-- The loop of `strconv.Atoi` computes the value in positional notation. -/
theorem digitsVal_eq_decimalValue (ds : GoString) : digitsVal ds = decimalValue ds := by
  induction ds using List.reverseRecOn with
  | nil => rfl
  | append_singleton xs d ih =>
    rw [digitsVal_append_single, decimalValue_append_single, ih]

theorem all_isDigit_eq (ds : GoString) :
    ds.all (fun c => decide (48 ≤ c.toNat ∧ c.toNat ≤ 57)) = ds.all isDigit := by
  congr 1
  funext c
  simp [isDigit]

/-- The part of `parseID` after an optional plus sign has been dropped. -/
theorem parseID_unsigned (arg ds : GoString) (h45 : arg.head? ≠ some 45)
    (hds : ds = if arg.head? = some 43 then arg.tail else arg) :
    (isPositiveIntText arg = true → parseID arg = .ok (decimalValue ds)) ∧
    (isPositiveIntText arg = false → parseID arg = .error (lit "invalid id: " ++ arg)) := by
  have hP : isPositiveIntText arg
      = (!ds.isEmpty && ds.all isDigit && decide (1 ≤ decimalValue ds)
          && decide ((decimalValue ds : Int) ≤ maxInt)) := by
    unfold isPositiveIntText
    simp only [← hds, all_isDigit_eq]
  have hA : Atoi arg
      = if ds.isEmpty || !ds.all isDigit then none
        else if minInt ≤ (digitsVal ds : Int) ∧ (digitsVal ds : Int) ≤ maxInt
          then some (digitsVal ds : Int) else none := by
    unfold Atoi
    simp only [h45, false_or, if_false, ← hds]
  rw [hP]
  unfold parseID
  rw [hA, digitsVal_eq_decimalValue]
  have hmin : minInt ≤ (decimalValue ds : Int) := by
    have h0 : minInt ≤ 0 := by decide
    have h1 : (0 : Int) ≤ (decimalValue ds : Int) := Int.ofNat_nonneg _
    exact le_trans h0 h1
  constructor
  · intro h
    simp only [Bool.and_eq_true, Bool.not_eq_true', decide_eq_true_eq] at h
    obtain ⟨⟨⟨h1, h2⟩, h3⟩, h4⟩ := h
    simp only [h1, h2, Bool.not_true, Bool.or_self, Bool.false_eq_true, if_false, hmin, h4,
      and_self, if_true]
    have hpos : ¬ ((decimalValue ds : Int) ≤ 0) := by omega
    rw [if_neg hpos]
  · intro h
    by_cases hc : (ds.isEmpty || !ds.all isDigit) = true
    · simp only [hc, if_true]
    · simp only [hc, if_false]
      by_cases hr : (decimalValue ds : Int) ≤ maxInt
      · have h0 : ¬ 1 ≤ decimalValue ds := by
          intro h1
          simp only [Bool.or_eq_true, Bool.not_eq_true', not_or, Bool.not_eq_true,
            Bool.not_eq_false] at hc
          simp [hc.1, hc.2, h1, hr] at h
        have hle : (decimalValue ds : Int) ≤ 0 := by omega
        simp only [hmin, hr, and_self, if_true, Bool.false_eq_true, if_false, hle]
      · simp only [hr, and_false, if_false]
        rfl

/-- An argument with a minus sign is rejected by `parseID`. -/
theorem parseID_minus (rest : GoString) :
    parseID (45 :: rest) = .error (lit "invalid id: " ++ (45 :: rest)) := by
  unfold parseID
  cases hA : Atoi (45 :: rest) with
  | none => rfl
  | some x =>
    have hx : x ≤ 0 := by
      unfold Atoi at hA
      simp only [List.head?_cons, true_or, if_true, List.tail_cons] at hA
      split_ifs at hA with h1 h2
      injection hA with hA
      omega
    simp only [hx, if_true]

theorem isPositiveIntText_minus (rest : GoString) : isPositiveIntText (45 :: rest) = false := by
  unfold isPositiveIntText
  have h : (some (45 : UInt8) = some 43) = False := by
    simp only [eq_iff_iff, iff_false]
    decide
  have h48 : ¬ 48 ≤ (45 : UInt8).toNat := by decide
  simp only [List.head?_cons, h, if_false, List.all_cons, h48, false_and, decide_False,
    Bool.false_and, Bool.and_false]

/-- The function `parseID` accepts exactly the texts of positive integers in range. -/
theorem parseID_error_of_not_positive (arg : GoString) (h : isPositiveIntText arg = false) :
    parseID arg = .error (lit "invalid id: " ++ arg) := by
  by_cases h45 : arg.head? = some 45
  · cases arg with
    | nil => cases h45
    | cons c rest =>
      simp only [List.head?_cons, Option.some.injEq] at h45
      subst h45
      exact parseID_minus rest
  · exact (parseID_unsigned arg _ h45 rfl).2 h

theorem parseID_ok_of_positive (arg : GoString) (h : isPositiveIntText arg = true) :
    parseID arg
      = .ok (decimalValue (if arg.head? = some 43 then arg.tail else arg)) := by
  by_cases h45 : arg.head? = some 45
  · cases arg with
    | nil => cases h45
    | cons c rest =>
      simp only [List.head?_cons, Option.some.injEq] at h45
      subst h45
      rw [isPositiveIntText_minus] at h
      cases h
  · exact (parseID_unsigned arg _ h45 rfl).1 h

/-- Claim C11: an argument that is not the text of a positive integer within the range
of `int` (an optional plus sign and decimal digits) makes `parseID` fail with
`invalid id`, and so do `done` and `rm`, whatever the file holds, also a file that cannot
be loaded, and whatever the loaded store is, nothing being saved; and `parseID` returns
`n` for the decimal text of every positive `int` `n`. -/
theorem parseID_spec (parseTime : GoString → Option Time) (file : Option GoString)
    (arg : GoString) (tasks : List Task) (n : Int) :
    (isPositiveIntText arg = false →
      parseID arg = .error (lit "invalid id: " ++ arg) ∧
      cmdDoneFile parseTime file [arg] = .ok ⟨some (lit "invalid id: " ++ arg), none, []⟩ ∧
      cmdRmFile parseTime file [arg] = .ok ⟨some (lit "invalid id: " ++ arg), none, []⟩ ∧
      cmdDone [arg] tasks = ⟨some (lit "invalid id: " ++ arg), none, []⟩ ∧
      cmdRm [arg] tasks = ⟨some (lit "invalid id: " ++ arg), none, []⟩ ∧
      (cmdDone [arg] tasks).storeAfter tasks = tasks ∧
      (cmdRm [arg] tasks).storeAfter tasks = tasks) ∧
    (0 < n → n ≤ maxInt → parseID (fmtD n) = .ok n) := by
  constructor
  · intro h
    have hp := parseID_error_of_not_positive arg h
    have hd : cmdDone [arg] tasks = ⟨some (lit "invalid id: " ++ arg), none, []⟩ := by
      simp only [cmdDone, hp]
    have hr : cmdRm [arg] tasks = ⟨some (lit "invalid id: " ++ arg), none, []⟩ := by
      simp only [cmdRm, hp]
    refine ⟨hp, ?_, ?_, hd, hr, ?_, ?_⟩
    · simp only [cmdDoneFile, hp]
    · simp only [cmdRmFile, hp]
    · rw [hd]; rfl
    · rw [hr]; rfl
  · intro h0 hmax
    exact parseID_fmtD n h0 hmax

/-- Witness of `parseID_spec`: the argument `abc` on a file that is not JSON, and the
number 42; the empty argument, `0`, `-3` and 2^63 are rejected in the same way. -/
theorem parseID_spec_witness :
    isPositiveIntText (lit "abc") = false ∧ (0 : Int) < 42 ∧ (42 : Int) ≤ maxInt ∧
    isPositiveIntText (lit "") = false ∧ isPositiveIntText (lit "0") = false ∧
    isPositiveIntText (lit "-3") = false ∧
    isPositiveIntText (lit "9223372036854775808") = false ∧
    loadTasks anyTime (some (lit "oops")) = .error .malformed ∧
    cmdDoneFile anyTime (some (lit "oops")) [lit "abc"]
      = .ok ⟨some (lit "invalid id: " ++ lit "abc"), none, []⟩ ∧
    parseID (lit "abc") = .error (lit "invalid id: " ++ lit "abc") ∧
    parseID (fmtD 42) = .ok 42 :=
  ⟨by decide, by decide, by decide, by decide, by decide, by decide, by decide, by decide,
   ((parseID_spec anyTime (some (lit "oops")) (lit "abc") [mkTask 1 "a" false] 42).1
      (by decide)).2.1,
   ((parseID_spec anyTime (some (lit "oops")) (lit "abc") [mkTask 1 "a" false] 42).1
      (by decide)).1,
   (parseID_spec anyTime (some (lit "oops")) (lit "abc") [mkTask 1 "a" false] 42).2
      (by decide) (by decide)⟩

/-! ### `list` (claims C12 and C13) -/

theorem listRows_eq_join (tasks : List Task) : listRows tasks = (tasks.map listRow).flatten := by
  induction tasks with
  | nil => rfl
  | cons t rest ih => simp only [listRows, List.map_cons, List.flatten_cons, ih]

/-- Claim C12, as the code has it: for every non-empty store, `list` returns no error,
saves nothing and prints the header line, the separator line and then one row per task
in store order; for the empty store it prints the single line "no tasks" instead. -/
theorem cmdList_table (args : List GoString) (tasks : List Task) (hne : tasks ≠ []) :
    cmdList args tasks = ⟨none, none, listHeader ++ listSeparator ++ listRows tasks⟩ ∧
    listRows tasks = (tasks.map listRow).flatten ∧
    (cmdList args tasks).storeAfter tasks = tasks ∧
    cmdList args [] = ⟨none, none, lit "no tasks\n"⟩ := by
  have hlen : ¬ tasks.length = 0 := by
    intro h
    exact hne (List.length_eq_zero.mp h)
  have hout : cmdList args tasks
      = ⟨none, none, listHeader ++ listSeparator ++ listRows tasks⟩ := by
    simp only [cmdList, hlen, if_false]
  refine ⟨hout, listRows_eq_join tasks, ?_, rfl⟩
  rw [hout]
  rfl

/-- Witness of `cmdList_table`: a store with an open and a done task. -/
theorem cmdList_table_witness :
    [mkTask 1 "buy milk" true, mkTask 12 "call mom" false] ≠ [] ∧
    cmdList [] [mkTask 1 "buy milk" true, mkTask 12 "call mom" false]
      = ⟨none, none,
          lit "ID  Done  Task\n-------------------------------\n1    [x]   buy milk\n12   [ ]   call mom\n"⟩ ∧
    (cmdList [] [mkTask 1 "buy milk" true, mkTask 12 "call mom" false]
        = ⟨none, none, listHeader ++ listSeparator
            ++ listRows [mkTask 1 "buy milk" true, mkTask 12 "call mom" false]⟩ ∧
      listRows [mkTask 1 "buy milk" true, mkTask 12 "call mom" false]
        = ([mkTask 1 "buy milk" true, mkTask 12 "call mom" false].map listRow).flatten ∧
      (cmdList [] [mkTask 1 "buy milk" true, mkTask 12 "call mom" false]).storeAfter
          [mkTask 1 "buy milk" true, mkTask 12 "call mom" false]
        = [mkTask 1 "buy milk" true, mkTask 12 "call mom" false] ∧
      cmdList [] [] = ⟨none, none, lit "no tasks\n"⟩) :=
  ⟨by decide, by decide,
   cmdList_table [] [mkTask 1 "buy milk" true, mkTask 12 "call mom" false] (by decide)⟩

/-- Claim C12 fails as stated: for the empty store `list` prints the single line
"no tasks", which is not the header line followed by the separator line. -/
theorem cmdList_empty_store :
    cmdList [] [] = ⟨none, none, lit "no tasks\n"⟩ ∧
    (cmdList [] []).out ≠ listHeader ++ listSeparator ++ listRows [] := by
  constructor <;> decide

/-- Claim C13: from the empty store, `add "buy milk"`, `add "call mom"`, `done 1` and
`rm 2` each succeed, the store then holds exactly the task with id 1, text "buy milk"
and `Done = true`, and `list` prints the header, the separator and the row
`1    [x]   buy milk`, whatever the times of the two `add` invocations are among those
that `Time.MarshalJSON` accepts, as it does the current time. -/
theorem scenario_list (now1 now2 : Time) (h1 : now1.writable = true)
    (h2 : now2.writable = true) :
    cmdAdd [lit "buy milk"] now1 []
      = ⟨none, some [⟨1, lit "buy milk", false, now1⟩], lit "added 1: buy milk\n"⟩ ∧
    cmdAdd [lit "call mom"] now2 [⟨1, lit "buy milk", false, now1⟩]
      = ⟨none, some [⟨1, lit "buy milk", false, now1⟩, ⟨2, lit "call mom", false, now2⟩],
          lit "added 2: call mom\n"⟩ ∧
    cmdDone [lit "1"] [⟨1, lit "buy milk", false, now1⟩, ⟨2, lit "call mom", false, now2⟩]
      = ⟨none, some [⟨1, lit "buy milk", true, now1⟩, ⟨2, lit "call mom", false, now2⟩],
          lit "marked 1 done\n"⟩ ∧
    cmdRm [lit "2"] [⟨1, lit "buy milk", true, now1⟩, ⟨2, lit "call mom", false, now2⟩]
      = ⟨none, some [⟨1, lit "buy milk", true, now1⟩], lit "removed 2\n"⟩ ∧
    cmdList [] [⟨1, lit "buy milk", true, now1⟩]
      = ⟨none, none,
          lit "ID  Done  Task\n" ++ lit "-------------------------------\n"
            ++ lit "1    [x]   buy milk\n"⟩ := by
  have hw1 : ∀ t ∈ [(⟨1, lit "buy milk", false, now1⟩ : Task)], t.When.writable = true := by
    intro t ht
    rw [List.mem_singleton.mp ht]
    exact h1
  refine ⟨?_, ?_, ?_, ?_, ?_⟩
  · rw [cmdAdd_nonempty [] _ now1 (by decide) (fun t ht => by cases ht) h1]
    have e1 : nextID [] = 1 := by decide
    have e2 : Join [lit "buy milk"] (lit " ") = lit "buy milk" := rfl
    have e3 : lit "added " ++ fmtD 1 ++ lit ": " ++ lit "buy milk" ++ lit "\n"
        = lit "added 1: buy milk\n" := by decide
    rw [e1, e2, e3]
    rfl
  · rw [cmdAdd_nonempty _ _ now2 (by decide) hw1 h2]
    have e1 : nextID [⟨1, lit "buy milk", false, now1⟩] = 2 := by
      simp only [nextID, nextIDLoop]
      decide
    have e2 : Join [lit "call mom"] (lit " ") = lit "call mom" := rfl
    have e3 : lit "added " ++ fmtD 2 ++ lit ": " ++ lit "call mom" ++ lit "\n"
        = lit "added 2: call mom\n" := by decide
    rw [e1, e2, e3]
    rfl
  · have hp : parseID (lit "1") = .ok 1 := by decide
    have hloop : doneLoop 1
          [⟨1, lit "buy milk", false, now1⟩, ⟨2, lit "call mom", false, now2⟩]
        = ([⟨1, lit "buy milk", true, now1⟩, ⟨2, lit "call mom", false, now2⟩], true) := by
      simp only [doneLoop, if_true]
    have hs := saveTasks_ok
      [⟨1, lit "buy milk", true, now1⟩, ⟨2, lit "call mom", false, now2⟩] (by
        intro t ht
        simp only [List.mem_cons, List.mem_singleton, List.not_mem_nil, or_false] at ht
        rcases ht with rfl | rfl
        · exact h1
        · exact h2)
    have e3 : lit "marked " ++ fmtD 1 ++ lit " done\n" = lit "marked 1 done\n" := by decide
    rw [cmdDone_parsed _ 1 _ hp, hloop]
    simp only [Bool.true_eq_false, if_false]
    rw [saveThen_ok _ _ _ hs, e3]
  · have hp : parseID (lit "2") = .ok 2 := by decide
    have hfilter : [(⟨1, lit "buy milk", true, now1⟩ : Task),
          ⟨2, lit "call mom", false, now2⟩].filter (fun t => decide (t.ID ≠ 2))
        = [⟨1, lit "buy milk", true, now1⟩] := by
      simp [List.filter]
    have hf : (rmLoop 2
        [⟨1, lit "buy milk", true, now1⟩, ⟨2, lit "call mom", false, now2⟩]).found
        = true := by
      rw [rmLoop_found]
      simp
    have hs := saveTasks_ok [⟨1, lit "buy milk", true, now1⟩] (by
      intro t ht
      rw [List.mem_singleton.mp ht]
      exact h1)
    have e3 : lit "removed " ++ fmtD 2 ++ lit "\n" = lit "removed 2\n" := by decide
    rw [cmdRm_parsed _ 2 _ hp, hf, rmLoop_newTasks, hfilter]
    simp only [Bool.true_eq_false, if_false]
    rw [saveThen_ok _ _ _ hs, e3]
  · have hrow : listRows [⟨1, lit "buy milk", true, now1⟩] = lit "1    [x]   buy milk\n" := by
      simp only [listRows, listRow]
      decide
    simp only [cmdList, List.length_cons, List.length_nil, hrow, listHeader, listSeparator]
    rfl

/-- Witness of `scenario_list`: the two tasks are added at 10:00 and at 11:30 UTC. -/
theorem scenario_list_witness :
    (⟨lit "2024-05-01T10:00:00Z"⟩ : Time).writable = true ∧
    (⟨lit "2024-05-01T11:30:00Z"⟩ : Time).writable = true ∧
    (cmdAdd [lit "buy milk"] ⟨lit "2024-05-01T10:00:00Z"⟩ []
      = ⟨none, some [⟨1, lit "buy milk", false, ⟨lit "2024-05-01T10:00:00Z"⟩⟩],
          lit "added 1: buy milk\n"⟩ ∧
    cmdAdd [lit "call mom"] ⟨lit "2024-05-01T11:30:00Z"⟩
        [⟨1, lit "buy milk", false, ⟨lit "2024-05-01T10:00:00Z"⟩⟩]
      = ⟨none, some [⟨1, lit "buy milk", false, ⟨lit "2024-05-01T10:00:00Z"⟩⟩,
            ⟨2, lit "call mom", false, ⟨lit "2024-05-01T11:30:00Z"⟩⟩],
          lit "added 2: call mom\n"⟩ ∧
    cmdDone [lit "1"] [⟨1, lit "buy milk", false, ⟨lit "2024-05-01T10:00:00Z"⟩⟩,
        ⟨2, lit "call mom", false, ⟨lit "2024-05-01T11:30:00Z"⟩⟩]
      = ⟨none, some [⟨1, lit "buy milk", true, ⟨lit "2024-05-01T10:00:00Z"⟩⟩,
            ⟨2, lit "call mom", false, ⟨lit "2024-05-01T11:30:00Z"⟩⟩],
          lit "marked 1 done\n"⟩ ∧
    cmdRm [lit "2"] [⟨1, lit "buy milk", true, ⟨lit "2024-05-01T10:00:00Z"⟩⟩,
        ⟨2, lit "call mom", false, ⟨lit "2024-05-01T11:30:00Z"⟩⟩]
      = ⟨none, some [⟨1, lit "buy milk", true, ⟨lit "2024-05-01T10:00:00Z"⟩⟩],
          lit "removed 2\n"⟩ ∧
    cmdList [] [⟨1, lit "buy milk", true, ⟨lit "2024-05-01T10:00:00Z"⟩⟩]
      = ⟨none, none,
          lit "ID  Done  Task\n" ++ lit "-------------------------------\n"
            ++ lit "1    [x]   buy milk\n"⟩) :=
  ⟨by decide, by decide,
   scenario_list ⟨lit "2024-05-01T10:00:00Z"⟩ ⟨lit "2024-05-01T11:30:00Z"⟩
     (by decide) (by decide)⟩

/-! ### Loading files that are not task lists (claim C14) -/

theorem saveError_ne_none (s : Option JsonError) (e : JsonError) : saveError s e ≠ none := by
  cases s <;> simp [saveError]

/-- A member that fits is stored without recording an error. -/
theorem decodeMember_fits (parseTime : GoString → Option Time) (st : Task × Option JsonError)
    (m : GoString × JSON) (h : memberFits parseTime m = true) :
    ∃ t, decodeMember parseTime st m = .ok (t, st.2) := by
  obtain ⟨k, v⟩ := m
  unfold memberFits at h
  unfold decodeMember
  cases hk : unquote k with
  | none => simp [hk] at h
  | some key =>
    simp only [hk] at h ⊢
    split_ifs at h ⊢ with h1 h2 h3 h4
    · cases v with
      | num text =>
        cases hA : Atoi text with
        | none => simp [hA] at h
        | some n =>
          simp only [hA]
          exact ⟨_, rfl⟩
      | null => exact ⟨_, rfl⟩
      | _ => simp at h
    · cases v with
      | str body =>
        cases hA : unquote body with
        | none => simp [hA] at h
        | some n =>
          simp only [hA]
          exact ⟨_, rfl⟩
      | null => exact ⟨_, rfl⟩
      | _ => simp at h
    · cases v with
      | bool b => exact ⟨_, rfl⟩
      | null => exact ⟨_, rfl⟩
      | _ => simp at h
    · cases v with
      | str body =>
        cases hA : parseTime body with
        | none => simp [hA] at h
        | some n =>
          simp only [hA]
          exact ⟨_, rfl⟩
      | null => exact ⟨_, rfl⟩
      | _ => simp at h
    · exact ⟨_, rfl⟩

/-- A member that does not fit ends the decoding or records an error. -/
theorem decodeMember_unfit (parseTime : GoString → Option Time) (st : Task × Option JsonError)
    (m : GoString × JSON) (h : memberFits parseTime m = false)
    (r : Task × Option JsonError) (hr : decodeMember parseTime st m = .ok r) : r.2 ≠ none := by
  obtain ⟨k, v⟩ := m
  unfold memberFits at h
  unfold decodeMember at hr
  cases hk : unquote k with
  | none => simp [hk] at hr
  | some key =>
    simp only [hk] at h hr
    split_ifs at h hr with h1 h2 h3 h4
    · cases v with
      | num text =>
        cases hA : Atoi text with
        | none =>
          simp only [hA] at hr
          injection hr with hr
          subst hr
          exact saveError_ne_none _ _
        | some n => simp [hA] at h
      | null => simp at h
      | _ =>
        simp only at hr
        injection hr with hr
        subst hr
        exact saveError_ne_none _ _
    · cases v with
      | str body =>
        cases hA : unquote body with
        | none => simp [hA] at hr
        | some n => simp [hA] at h
      | null => simp at h
      | _ =>
        simp only at hr
        injection hr with hr
        subst hr
        exact saveError_ne_none _ _
    · cases v with
      | bool b => simp at h
      | null => simp at h
      | _ =>
        simp only at hr
        injection hr with hr
        subst hr
        exact saveError_ne_none _ _
    · cases v with
      | str body =>
        cases hA : parseTime body with
        | none => simp [hA] at hr
        | some n => simp [hA] at h
      | null => simp at h
      | _ => simp at hr

/-- A recorded error is kept by every later member. -/
theorem decodeMember_keeps (parseTime : GoString → Option Time) (st : Task × Option JsonError)
    (m : GoString × JSON) (hs : st.2 ≠ none)
    (r : Task × Option JsonError) (hr : decodeMember parseTime st m = .ok r) : r.2 ≠ none := by
  by_cases h : memberFits parseTime m = true
  · obtain ⟨t, ht⟩ := decodeMember_fits parseTime st m h
    rw [ht] at hr
    injection hr with hr
    subst hr
    exact hs
  · exact decodeMember_unfit parseTime st m (by simpa using h) r hr

theorem decodeMembers_fits (parseTime : GoString → Option Time) :
    ∀ (ms : List (GoString × JSON)) (st : Task × Option JsonError),
      ms.all (memberFits parseTime) = true →
      ∃ t, decodeMembers parseTime ms st = .ok (t, st.2)
  | [], st, _ => ⟨st.1, rfl⟩
  | m :: rest, st, h => by
    simp only [List.all_cons, Bool.and_eq_true] at h
    obtain ⟨t1, h1⟩ := decodeMember_fits parseTime st m h.1
    obtain ⟨t2, h2⟩ := decodeMembers_fits parseTime rest (t1, st.2) h.2
    exact ⟨t2, by simp only [decodeMembers, h1, h2]⟩

theorem decodeMembers_keeps (parseTime : GoString → Option Time) :
    ∀ (ms : List (GoString × JSON)) (st r : Task × Option JsonError),
      st.2 ≠ none → decodeMembers parseTime ms st = .ok r → r.2 ≠ none
  | [], st, r, hs, hr => by
    simp only [decodeMembers] at hr
    injection hr with hr
    subst hr
    exact hs
  | m :: rest, st, r, hs, hr => by
    simp only [decodeMembers] at hr
    cases h1 : decodeMember parseTime st m with
    | error e => simp [h1] at hr
    | ok st1 =>
      simp only [h1] at hr
      exact decodeMembers_keeps parseTime rest st1 r
        (decodeMember_keeps parseTime st m hs st1 h1) hr

theorem decodeMembers_unfit (parseTime : GoString → Option Time) :
    ∀ (ms : List (GoString × JSON)) (st r : Task × Option JsonError),
      ms.all (memberFits parseTime) = false →
      decodeMembers parseTime ms st = .ok r → r.2 ≠ none
  | [], _, _, h, _ => by simp at h
  | m :: rest, st, r, h, hr => by
    simp only [decodeMembers] at hr
    cases h1 : decodeMember parseTime st m with
    | error e => simp [h1] at hr
    | ok st1 =>
      simp only [h1] at hr
      by_cases hm : memberFits parseTime m = true
      · have hrest : rest.all (memberFits parseTime) = false := by
          simpa [List.all_cons, hm] using h
        exact decodeMembers_unfit parseTime rest st1 r hrest hr
      · exact decodeMembers_keeps parseTime rest st1 r
          (decodeMember_unfit parseTime st m (by simpa using hm) st1 h1) hr

theorem decodeTask_fits (parseTime : GoString → Option Time) (v : JSON)
    (saved : Option JsonError) (h : itemFits parseTime v = true) :
    ∃ t, decodeTask parseTime v saved = .ok (t, saved) := by
  cases v with
  | obj members => exact decodeMembers_fits parseTime members (zeroTask, saved) h
  | null => exact ⟨zeroTask, rfl⟩
  | _ => simp [itemFits] at h

theorem decodeTask_unfit (parseTime : GoString → Option Time) (v : JSON)
    (saved : Option JsonError) (h : itemFits parseTime v = false)
    (r : Task × Option JsonError) (hr : decodeTask parseTime v saved = .ok r) :
    r.2 ≠ none := by
  cases v with
  | obj members => exact decodeMembers_unfit parseTime members (zeroTask, saved) r h hr
  | null => simp [itemFits] at h
  | _ =>
    simp only [decodeTask] at hr
    injection hr with hr
    subst hr
    exact saveError_ne_none _ _

theorem decodeTask_keeps (parseTime : GoString → Option Time) (v : JSON)
    (saved : Option JsonError) (hs : saved ≠ none)
    (r : Task × Option JsonError) (hr : decodeTask parseTime v saved = .ok r) :
    r.2 ≠ none := by
  by_cases h : itemFits parseTime v = true
  · obtain ⟨t, ht⟩ := decodeTask_fits parseTime v saved h
    rw [ht] at hr
    injection hr with hr
    subst hr
    exact hs
  · exact decodeTask_unfit parseTime v saved (by simpa using h) r hr

theorem decodeItems_fits (parseTime : GoString → Option Time) :
    ∀ (items : List JSON) (saved : Option JsonError),
      items.all (itemFits parseTime) = true →
      ∃ ts, decodeItems parseTime items saved = .ok (ts, saved)
  | [], _, _ => ⟨[], rfl⟩
  | v :: rest, saved, h => by
    simp only [List.all_cons, Bool.and_eq_true] at h
    obtain ⟨t, h1⟩ := decodeTask_fits parseTime v saved h.1
    obtain ⟨ts, h2⟩ := decodeItems_fits parseTime rest saved h.2
    exact ⟨t :: ts, by simp only [decodeItems, h1, h2]⟩

theorem decodeItems_keeps (parseTime : GoString → Option Time) :
    ∀ (items : List JSON) (saved : Option JsonError) (r : List Task × Option JsonError),
      saved ≠ none → decodeItems parseTime items saved = .ok r → r.2 ≠ none
  | [], saved, r, hs, hr => by
    simp only [decodeItems] at hr
    injection hr with hr
    subst hr
    exact hs
  | v :: rest, saved, r, hs, hr => by
    simp only [decodeItems] at hr
    cases h1 : decodeTask parseTime v saved with
    | error e => simp [h1] at hr
    | ok st1 =>
      obtain ⟨t, saved1⟩ := st1
      simp only [h1] at hr
      cases h2 : decodeItems parseTime rest saved1 with
      | error e => simp [h2] at hr
      | ok r2 =>
        obtain ⟨ts, saved2⟩ := r2
        simp only [h2] at hr
        injection hr with hr
        subst hr
        exact decodeItems_keeps parseTime rest saved1 (ts, saved2)
          (decodeTask_keeps parseTime v saved hs (t, saved1) h1) h2

theorem decodeItems_unfit (parseTime : GoString → Option Time) :
    ∀ (items : List JSON) (saved : Option JsonError) (r : List Task × Option JsonError),
      items.all (itemFits parseTime) = false →
      decodeItems parseTime items saved = .ok r → r.2 ≠ none
  | [], _, _, h, _ => by simp at h
  | v :: rest, saved, r, h, hr => by
    simp only [decodeItems] at hr
    cases h1 : decodeTask parseTime v saved with
    | error e => simp [h1] at hr
    | ok st1 =>
      obtain ⟨t, saved1⟩ := st1
      simp only [h1] at hr
      cases h2 : decodeItems parseTime rest saved1 with
      | error e => simp [h2] at hr
      | ok r2 =>
        obtain ⟨ts, saved2⟩ := r2
        simp only [h2] at hr
        injection hr with hr
        subst hr
        by_cases hv : itemFits parseTime v = true
        · have hrest : rest.all (itemFits parseTime) = false := by
            simpa [List.all_cons, hv] using h
          exact decodeItems_unfit parseTime rest saved1 (ts, saved2) hrest h2
        · exact decodeItems_keeps parseTime rest saved1 (ts, saved2)
            (decodeTask_unfit parseTime v saved (by simpa using hv) (t, saved1) h1) h2

/-- The call `json.Unmarshal` succeeds exactly on the JSON texts whose value fits a
slice of `Task`. -/
theorem Unmarshal_ok_iff (parseTime : GoString → Option Time) (b : GoString) :
    (∃ ts, Unmarshal parseTime b = .ok ts) ↔
      ∃ v, parseJSON b = some v ∧ sliceFits parseTime v = true := by
  unfold Unmarshal
  cases hp : parseJSON b with
  | none => simp
  | some v =>
    cases v with
    | arr items =>
      simp only [Option.some.injEq, exists_eq_left', sliceFits]
      constructor
      · rintro ⟨ts, hts⟩
        by_contra hfit
        cases h1 : decodeItems parseTime items none with
        | error e => simp [h1] at hts
        | ok r =>
          obtain ⟨ts1, s1⟩ := r
          have hs := decodeItems_unfit parseTime items none (ts1, s1) (by simpa using hfit) h1
          cases s1 with
          | none => exact hs rfl
          | some e => simp [h1] at hts
      · intro hfit
        obtain ⟨ts, hts⟩ := decodeItems_fits parseTime items none hfit
        exact ⟨ts, by simp only [hts]⟩
    | null => simp [sliceFits]
    | _ => simp [sliceFits]

/-- Claim C14, as the code has it: `loadTasks` returns the empty list without error when
the file is absent or has zero bytes, and for a non-empty file it fails exactly when the
content is not a JSON text whose value fits a slice of tasks, that is, `null` or an array
whose items are `null` or objects whose members `id`, `text`, `done` and `when` hold
`null` or a value of the kind of the field. -/
theorem loadTasks_fails_iff (parseTime : GoString → Option Time) (b : GoString)
    (hb : b ≠ []) :
    loadTasks parseTime none = .ok [] ∧
    loadTasks parseTime (some []) = .ok [] ∧
    ((∃ e, loadTasks parseTime (some b) = .error e) ↔
      ¬ ∃ v, parseJSON b = some v ∧ sliceFits parseTime v = true) := by
  refine ⟨rfl, rfl, ?_⟩
  have hlen : ¬ b.length = 0 := fun h => hb (List.length_eq_zero.mp h)
  have hload : loadTasks parseTime (some b) = Unmarshal parseTime b := by
    simp only [loadTasks, hlen, if_false]
  rw [hload, ← Unmarshal_ok_iff]
  cases Unmarshal parseTime b with
  | error e => simp
  | ok ts => simp

/-- Witness of `loadTasks_fails_iff`: a file that is not JSON and a file that holds a
JSON object fail to load. -/
theorem loadTasks_fails_iff_witness :
    lit "oops" ≠ [] ∧ lit "\x7b\x7d" ≠ [] ∧
    loadTasks anyTime (some (lit "oops")) = .error .malformed ∧
    loadTasks anyTime (some (lit "\x7b\x7d")) = .error .mismatch ∧
    (¬ ∃ v, parseJSON (lit "oops") = some v ∧ sliceFits anyTime v = true) ∧
    (¬ ∃ v, parseJSON (lit "\x7b\x7d") = some v ∧ sliceFits anyTime v = true) :=
  ⟨by decide, by decide, by decide, by decide,
   (loadTasks_fails_iff anyTime (lit "oops") (by decide)).2.2.mp ⟨.malformed, by decide⟩,
   (loadTasks_fails_iff anyTime (lit "\x7b\x7d") (by decide)).2.2.mp ⟨.mismatch, by decide⟩⟩

/-- Claim C14 fails as stated: the non-empty file `null` is not a JSON array, and yet it
loads without error as the empty list; the file `[null]`, whose item is not a task
object, loads as one zero task. -/
theorem loadTasks_accepts_null :
    lit "null" ≠ [] ∧
    (parseJSON (lit "null")).isSome = true ∧
    (∀ items, parseJSON (lit "null") ≠ some (JSON.arr items)) ∧
    loadTasks anyTime (some (lit "null")) = .ok [] ∧
    loadTasks anyTime (some (lit "[null]")) = .ok [zeroTask] := by
  have h1 : parseJSON (lit "null") = some JSON.null := by rfl
  refine ⟨by decide, by decide, ?_, by decide, by decide⟩
  intro items h
  rw [h1] at h
  cases h

/-! ### `nextID` without and with overflow (claim C15) -/

/-- Claim C15: when every id is below the largest machine int, `nextID` returns a value
that is at least 1 and above every id in the list, so it differs from each of them; when
the ids are machine ints and one of them is the largest machine int, `max + 1` wraps
around and `nextID` returns the smallest machine int, which is negative. -/
theorem nextID_fresh_or_wraps (tasks : List Task) :
    ((∀ t ∈ tasks, t.ID < maxInt) →
      1 ≤ nextID tasks ∧ (∀ t ∈ tasks, t.ID < nextID tasks) ∧
        ∀ t ∈ tasks, t.ID ≠ nextID tasks) ∧
    ((∀ t ∈ tasks, t.ID ≤ maxInt) → (∃ t ∈ tasks, t.ID = maxInt) →
      nextID tasks = minInt ∧ nextID tasks < 0) := by
  constructor
  · intro hlt
    have hloop := nextID_eq_loop tasks hlt
    have h0 := nextIDLoop_ge tasks 0
    have hup := nextIDLoop_upper tasks 0
    refine ⟨by omega, ?_, ?_⟩
    · intro t ht
      have := hup t ht
      omega
    · intro t ht
      have := hup t ht
      omega
  · intro hle hmax
    obtain ⟨t, ht, htmax⟩ := hmax
    have hup := nextIDLoop_upper tasks 0 t ht
    have hle' : nextIDLoop 0 tasks ≤ maxInt := by
      rcases nextIDLoop_attained tasks 0 with h | ⟨u, hu, hEq⟩
      · rw [h]; decide
      · rw [← hEq]; exact hle u hu
    have hEq : nextIDLoop 0 tasks = maxInt := by omega
    have hval : nextID tasks = minInt := by
      unfold nextID
      rw [hEq]
      decide
    rw [hval]
    exact ⟨rfl, by decide⟩

/-- Witness of `nextID_fresh_or_wraps`: a store with ids 3 and 7, and a store holding
the largest machine int. -/
theorem nextID_fresh_or_wraps_witness :
    (∀ t ∈ [mkTask 3 "a" false, mkTask 7 "b" true], t.ID < maxInt) ∧
    nextID [mkTask 3 "a" false, mkTask 7 "b" true] = 8 ∧
    1 ≤ nextID [mkTask 3 "a" false, mkTask 7 "b" true] ∧
    (∀ t ∈ [mkTask 2 "a" false, mkTask maxInt "b" true], t.ID ≤ maxInt) ∧
    (∃ t ∈ [mkTask 2 "a" false, mkTask maxInt "b" true], t.ID = maxInt) ∧
    nextID [mkTask 2 "a" false, mkTask maxInt "b" true] = minInt ∧
    nextID [mkTask 2 "a" false, mkTask maxInt "b" true] < 0 :=
  ⟨by decide, by decide,
   ((nextID_fresh_or_wraps [mkTask 3 "a" false, mkTask 7 "b" true]).1 (by decide)).1,
   by decide, ⟨mkTask maxInt "b" true, by decide, rfl⟩,
   (nextID_fresh_or_wraps [mkTask 2 "a" false, mkTask maxInt "b" true]).2 (by decide)
     ⟨mkTask maxInt "b" true, by decide, rfl⟩⟩

/-! ### Tasks that share an id (claim C16) -/

/-- Claim C16: for every store, also one in which several tasks share an id, a
successful `rm` of id `k` writes the store without any task of id `k`, all the other
tasks being kept in order, whereas a successful `done` of id `k` writes the store with
only the first task of id `k` changed, to `Done = true`. -/
theorem rm_all_done_first (tasks ts' : List Task) (args : List GoString) :
    ((cmdRm args tasks).saved = some ts' →
      ∃ arg k, args = [arg] ∧ parseID arg = .ok k ∧ (∀ t ∈ ts', t.ID ≠ k) ∧
        ts' = tasks.filter (fun t => decide (t.ID ≠ k))) ∧
    ((cmdDone args tasks).saved = some ts' →
      ∃ arg k front t back, args = [arg] ∧ parseID arg = .ok k ∧
        tasks = front ++ t :: back ∧ (∀ u ∈ front, u.ID ≠ k) ∧ t.ID = k ∧
        ts' = front ++ ⟨t.ID, t.Text, true, t.When⟩ :: back) := by
  constructor
  · intro h
    obtain ⟨arg, k, hargs, hp, -, hts⟩ := cmdRm_saved args tasks ts' h
    refine ⟨arg, k, hargs, hp, ?_, hts⟩
    intro t ht
    rw [hts] at ht
    simpa using (List.mem_filter.mp ht).2
  · intro h
    obtain ⟨arg, k, hargs, hp, hfound, hts⟩ := cmdDone_saved args tasks ts' h
    have hmem : ∃ t ∈ tasks, t.ID = k := by
      rw [doneLoop_found] at hfound
      simpa using hfound
    obtain ⟨front, t, back, hsplit, hfront, ht, hloop⟩ := doneLoop_split k tasks hmem
    refine ⟨arg, k, front, t, back, hargs, hp, hsplit, hfront, ht, ?_⟩
    rw [hts, hloop]

/-- Witness of `rm_all_done_first`: `rm 2` and `done 2` on a store where two tasks share
id 2. -/
theorem rm_all_done_first_witness :
    (cmdRm [lit "2"] [mkTask 1 "a" false, mkTask 2 "b" false, mkTask 3 "c" false,
        mkTask 2 "d" false]).saved
      = some [mkTask 1 "a" false, mkTask 3 "c" false] ∧
    (cmdDone [lit "2"] [mkTask 1 "a" false, mkTask 2 "b" false, mkTask 3 "c" false,
        mkTask 2 "d" false]).saved
      = some [mkTask 1 "a" false, mkTask 2 "b" true, mkTask 3 "c" false,
          mkTask 2 "d" false] ∧
    (∃ arg k, [lit "2"] = [arg] ∧ parseID arg = .ok k ∧
      (∀ t ∈ [mkTask 1 "a" false, mkTask 3 "c" false], t.ID ≠ k) ∧
      [mkTask 1 "a" false, mkTask 3 "c" false]
        = [mkTask 1 "a" false, mkTask 2 "b" false, mkTask 3 "c" false,
            mkTask 2 "d" false].filter (fun t => decide (t.ID ≠ k))) ∧
    (∃ arg k front t back, [lit "2"] = [arg] ∧ parseID arg = .ok k ∧
      [mkTask 1 "a" false, mkTask 2 "b" false, mkTask 3 "c" false, mkTask 2 "d" false]
        = front ++ t :: back ∧ (∀ u ∈ front, u.ID ≠ k) ∧ t.ID = k ∧
      [mkTask 1 "a" false, mkTask 2 "b" true, mkTask 3 "c" false, mkTask 2 "d" false]
        = front ++ ⟨t.ID, t.Text, true, t.When⟩ :: back) :=
  ⟨by decide, by decide,
   (rm_all_done_first [mkTask 1 "a" false, mkTask 2 "b" false, mkTask 3 "c" false,
      mkTask 2 "d" false] [mkTask 1 "a" false, mkTask 3 "c" false] [lit "2"]).1
     (by decide),
   (rm_all_done_first [mkTask 1 "a" false, mkTask 2 "b" false, mkTask 3 "c" false,
      mkTask 2 "d" false]
      [mkTask 1 "a" false, mkTask 2 "b" true, mkTask 3 "c" false, mkTask 2 "d" false]
      [lit "2"]).2 (by decide)⟩

end Todo
